import Mathlib

/-!
# Backtracking, restarts and heuristic selection of the kissat search core

A shallow embedding of `src/backtrack.c`, `src/restart.c` and `src/propsearch.c`.

Conventions of the embedding.

* The solver structure `kissat` is a record; every C function that mutates the
  solver becomes a function returning the new record.
* Arrays indexed by literal or variable (`values`, `assigned`, `links`,
  `mab_select`, ...) are total functions on `Nat`; a store `a[i] = v` is
  `Function.update a i v`.
* The trail is the list of the array cells between `BEGIN_ARRAY` and
  `END_ARRAY`; the pointers `p`, `q`, `new_end`, `solver->propagate` are
  indices into it.  `*q++ = lit` is `List.set`, `SET_END_OF_ARRAY (trail, q)`
  is `List.take q`.
* `double` values live in a type parameter `D`.  In `restart.c` the arithmetic
  and the comparisons of `double`, like the `libm` functions `sqrt`, `log` and
  `log2`, are parameters (fields of `externals`) about which nothing is
  assumed: a statement about computed doubles holds for IEEE arithmetic with
  its rounding, its infinities and NaN.  Where heap scores are only compared,
  or a statement speaks of a maximal score, `D` carries the linear order of
  the numbers.  In `propsearch.c` the only doubles are the literals `1.0` and
  `0.9` that are handed on to `kissat_bump_chb`; they are written in a field.
  The examples compute in a model of binary64.
* A loop whose number of iterations is not bounded by its input (the
  propagation loop, whose trail grows while it runs) takes a fuel argument and
  returns `none` when the fuel runs out.
* `assert` is compiled out of the state transformers (the `NDEBUG` build);
  the asserted conditions are separate Boolean functions evaluated on the
  states the loop actually goes through.
* `LOG`, `START`/`STOP`, `REPORT` and the verbose messages do not touch the
  solver state that is modelled here and are left out.
* The counters `unassigned`, `mab_select[i]` and the statistics are natural
  numbers: the code asserts `unassigned < VARS` before each increment and the
  others count restarts, so no wrap-around is modelled for them.
-/

namespace Kissat

/-! ## Data model -/

/-- Modelled from the spec: the macro `IDX` of the missing `literal.h`,
"`IDX(lit)` recovers the variable"; a literal is twice its variable plus the
sign bit. -/
def IDX (lit : Nat) : Nat := lit / 2

/-- Modelled from the spec: the macro `NOT` of the missing `literal.h`,
"`NOT(lit)` yields the complementary literal"; it flips the sign bit. -/
def NOT (lit : Nat) : Nat := if lit % 2 = 0 then lit + 1 else lit - 1

/-- One entry of the frame stack: the decision literal that opened the level
and the trail index at which the level begins. -/
structure frame where
  decision : Nat
  trail : Nat
deriving DecidableEq

/-- Per-variable metadata: decision level and trail position (the reason
belongs to the clause data base and is not modelled). -/
structure assigned where
  level : Nat
  trail : Nat
deriving DecidableEq

/-- Queue links of one variable; only the stamp is read by this code. -/
structure links where
  stamp : Nat
deriving DecidableEq

/-- Modelled from the spec: the binary heap of the missing `heap.h`, with the
capability set "`get_score(var)`, `push(var)`, `contains(var)`".  `stack` lists
the variables the heap contains (their order inside the heap is not
modelled), `score` is the score array. -/
structure heap (D : Type) where
  stack : List Nat
  score : Nat → D

/-- The fields of the solver that `backtrack.c`, `restart.c` and
`propsearch.c` read or write. -/
structure kissat (D : Type) where
  -- options
  opt_restart : Bool
  opt_restartmargin : Int
  opt_restartint : Nat
  opt_restartreusetrail : Bool
  -- mode
  stable : Bool
  probing : Bool
  -- assignment store, trail and frames
  vars : Nat
  level : Nat
  frames : List frame
  values : Nat → Int
  assigned : Nat → assigned
  trail : List Nat
  propagate : Nat
  unassigned : Nat
  -- decision order structures
  links : Nat → links
  queue_search_idx : Nat
  queue_search_stamp : Nat
  scores : heap D
  scores_chb : heap D
  heuristic : Nat
  -- phase records
  target_assigned : Nat
  best_assigned : Nat
  target_saved : Nat
  best_saved : Nat
  -- restart limits and averages
  conflicts : Nat
  limits_restart_conflicts : Nat
  reluctant_trigger : Bool
  fast_glue : D
  slow_glue : D
  -- statistics
  restarts : Nat
  restarts_levels : Nat
  stable_restarts : Nat
  focused_restarts : Nat
  restarts_reused_trails : Nat
  restarts_reused_levels : Nat
  propagations : Nat
  statistics_ticks : Nat
  search_propagations : Nat
  search_ticks : Nat
  stable_propagations : Nat
  stable_ticks : Nat
  focused_propagations : Nat
  focused_ticks : Nat
  -- propagation
  ticks : Nat
  randec : Nat
  -- bandit state
  mab : Bool
  mab_heuristics : Nat
  mab_reward : Nat → D
  mab_select : Nat → Nat
  mab_chosen : Nat → Nat
  mab_chosen_tot : Nat
  mab_decisions : Nat
  mab_conflicts : Nat
  mabc : D
  -- the function-local statics of restart_mab
  recent_gains : Nat → D
  gain_index : Nat
  momentum : D

variable {D : Type}

/-- The macro `FRAME (L)`: entry `L` of the frame stack.  Reading past the end
of the stack is excluded by an assertion in the C code; the model returns a
zero frame there. -/
def FRAME (s : kissat D) (l : Nat) : frame := s.frames.getD l ⟨0, 0⟩

/-! ## backtrack.c -/

/-- Modelled from the spec: `kissat_get_scores` of a missing header, the heap
of the heuristic that is active ("the two heuristics maintain independent
score spaces"). -/
def kissat_get_scores (s : kissat D) : heap D :=
  if s.heuristic = 0 then s.scores else s.scores_chb

/-- Modelled from the spec: `kissat_heap_contains` of the missing
`inlineheap.h`. -/
def kissat_heap_contains (h : heap D) (idx : Nat) : Bool := decide (idx ∈ h.stack)

/-- Modelled from the spec: `kissat_push_heap` of the missing `inlineheap.h`,
applied to the heap `kissat_get_scores` points to; the variable is added to
the heap (its position inside the heap is not modelled). -/
def kissat_push_heap (s : kissat D) (idx : Nat) : kissat D :=
  if s.heuristic = 0 then
    { s with scores := { s.scores with stack := s.scores.stack ++ [idx] } }
  else
    { s with scores_chb := { s.scores_chb with stack := s.scores_chb.stack ++ [idx] } }

/-- Modelled from the spec: `kissat_update_queue` of the missing
`inlinequeue.h`; the search position of the queue (index and stamp) moves to
the variable. -/
def kissat_update_queue (s : kissat D) (idx : Nat) : kissat D :=
  { s with queue_search_idx := idx, queue_search_stamp := (s.links idx).stamp }

/-- The two assertions of `unassign`, lines 13 and 16. -/
def unassign_asserts (s : kissat D) (lit : Nat) : Bool :=
  decide (0 < s.values lit) && decide (s.unassigned < s.vars)

/-- Function `unassign`, backtrack.c lines 11-18. -/
def unassign (s : kissat D) (lit : Nat) : kissat D :=
  let not_lit := NOT lit
  { s with
    values := Function.update (Function.update s.values not_lit 0) lit 0
    unassigned := s.unassigned + 1 }

/-- Function `add_unassigned_variable_back_to_queue`, lines 20-27. -/
def add_unassigned_variable_back_to_queue (s : kissat D) (lit : Nat) : kissat D :=
  let idx := IDX lit
  if (s.links idx).stamp > s.queue_search_stamp then kissat_update_queue s idx else s

/-- Function `add_unassigned_variable_back_to_heap`, lines 29-36.  The pointer
`scores` is taken once before the loop; the heuristic does not change inside
the loop, so the heap it points to is the one `kissat_get_scores` gives. -/
def add_unassigned_variable_back_to_heap (s : kissat D) (lit : Nat) : kissat D :=
  let idx := IDX lit
  if !kissat_heap_contains (kissat_get_scores s) idx then kissat_push_heap s idx else s

/-- The body of the loops of lines 94-112 and 115-133 (they differ only in
the reinsertion call `back`): the literal at index `p` is either moved to
index `q` or unassigned.  Returns the new state and the new `q`. -/
def backtrack_step (back : kissat D → Nat → kissat D) (new_level : Nat)
    (p q : Nat) (s : kissat D) : kissat D × Nat :=
  let lit := s.trail.getD p 0
  let idx := IDX lit
  let a := s.assigned idx
  let level := a.level
  if level ≤ new_level then
    let new_trail := q
    ({ s with
       assigned := Function.update s.assigned idx { a with trail := new_trail }
       trail := s.trail.set q lit }, q + 1)
  else
    (back (unassign s lit) lit, q)

/-- The loop `for (p = q; p != old_end; p++)`; the first argument is the
number `old_end - p` of iterations that remain. -/
def backtrack_loop (back : kissat D → Nat → kissat D) (new_level : Nat) :
    Nat → Nat → Nat → kissat D → kissat D × Nat
  | 0, _, q, s => (s, q)
  | n + 1, p, q, s =>
    let r := backtrack_step back new_level p q s
    backtrack_loop back new_level n (p + 1) r.2 r.1

/-- The assertion `new_trail <= a->trail` of lines 102 and 123, in the iteration
that reads index `p` and writes index `q`; it is reached on the kept branch. -/
def assert_new_trail (new_level p q : Nat) (s : kissat D) : Bool :=
  let lit := s.trail.getD p 0
  let a := s.assigned (IDX lit)
  if a.level ≤ new_level then decide (q ≤ a.trail) else true

/-- The assertions of `unassign` (lines 13 and 16) in the iteration that reads
index `p`; they are reached on the unassigning branch. -/
def assert_unassign (new_level p _q : Nat) (s : kissat D) : Bool :=
  let lit := s.trail.getD p 0
  let a := s.assigned (IDX lit)
  if a.level ≤ new_level then true else unassign_asserts s lit

/-- The assertion `idx < VARS` of lines 97 and 118. -/
def assert_idx (_new_level p _q : Nat) (s : kissat D) : Bool :=
  decide (IDX (s.trail.getD p 0) < s.vars)

/-- The assertion `chk` holds in every iteration of the loop: it is evaluated
on the state each iteration starts in. -/
def backtrack_loop_asserts (chk : Nat → Nat → kissat D → Bool)
    (back : kissat D → Nat → kissat D) (new_level : Nat) :
    Nat → Nat → Nat → kissat D → Bool
  | 0, _, _, _ => true
  | n + 1, p, q, s =>
    let r := backtrack_step back new_level p q s
    chk p q s && backtrack_loop_asserts chk back new_level n (p + 1) r.2 r.1

/-- Function `kissat_backtrack_without_updating_phases`, lines 72-148.  The loop
makes `old_end - new_end` iterations; the frame positions of a solver lie
inside the trail, and for a frame position beyond the trail end (where the C
loop has no defined behaviour) the model makes no iteration.  The local
counters `unassigned` and `reassigned` are only logged. -/
def kissat_backtrack_without_updating_phases (s : kissat D) (new_level : Nat) : kissat D :=
  if s.level = new_level then s
  else
    let new_frame := FRAME s (new_level + 1)
    let s0 := { s with frames := s.frames.take (new_level + 1) }
    let new_end := new_frame.trail
    let old_end := s0.trail.length
    let q := new_end
    let r :=
      if s0.stable then
        backtrack_loop add_unassigned_variable_back_to_heap new_level (old_end - q) q q s0
      else
        backtrack_loop add_unassigned_variable_back_to_queue new_level (old_end - q) q q s0
    { r.1 with
      trail := r.1.trail.take r.2
      level := new_level
      propagate := new_end }

/-- The assertion `chk` (one of `assert_new_trail`, `assert_unassign`,
`assert_idx`) holds in every iteration of the loop that a call of
`kissat_backtrack_without_updating_phases` runs. -/
def kissat_backtrack_asserts (chk : Nat → Nat → Nat → kissat D → Bool)
    (s : kissat D) (new_level : Nat) : Bool :=
  if s.level = new_level then true
  else
    let new_frame := FRAME s (new_level + 1)
    let s0 := { s with frames := s.frames.take (new_level + 1) }
    let new_end := new_frame.trail
    let old_end := s0.trail.length
    let q := new_end
    if s0.stable then
      backtrack_loop_asserts (chk new_level) add_unassigned_variable_back_to_heap new_level
        (old_end - q) q q s0
    else
      backtrack_loop_asserts (chk new_level) add_unassigned_variable_back_to_queue new_level
        (old_end - q) q q s0

/-- Modelled from the spec: `kissat_assigned` of a missing header, "the number
of currently assigned variables". -/
def kissat_assigned (s : kissat D) : Nat := s.vars - s.unassigned

/-- Function `kissat_update_target_and_best_phases`, lines 38-70.  The external
phase snapshots written by `kissat_save_target_phases` and
`kissat_save_best_phases` are not part of the model; the counters
`target_saved` and `best_saved` record that a snapshot was taken. -/
def kissat_update_target_and_best_phases (s : kissat D) : kissat D :=
  if s.probing then s
  else if !s.stable then s
  else
    let assigned := kissat_assigned s
    let s1 :=
      if s.target_assigned < assigned then
        { s with target_assigned := assigned, target_saved := s.target_saved + 1 }
      else s
    if s1.best_assigned < assigned then
      { s1 with best_assigned := assigned, best_saved := s1.best_saved + 1 }
    else s1

/-- Function `kissat_backtrack_in_consistent_state`, lines 150-154. -/
def kissat_backtrack_in_consistent_state (s : kissat D) (new_level : Nat) : kissat D :=
  kissat_backtrack_without_updating_phases (kissat_update_target_and_best_phases s) new_level

/-- Function `kissat_backtrack_after_conflict`, lines 156-161. -/
def kissat_backtrack_after_conflict (s : kissat D) (new_level : Nat) : kissat D :=
  let s1 := if s.level ≠ 0 then kissat_backtrack_without_updating_phases s (s.level - 1) else s
  let s2 := kissat_update_target_and_best_phases s1
  kissat_backtrack_without_updating_phases s2 new_level

/-! ## restart.c -/

/-- The arithmetic of the C type `double`, the functions of `libm` and the
components outside `src/` that `restart.c` calls; they are parameters of the
embedding.

* `of_int`, `lit`, `add`, `mul`, `div`, `le`, `lt`: the arithmetic of `double`:
  the conversion of an integer, the value of a decimal literal of the source,
  the operations `+`, `*`, `/` and the comparisons `<=` and `<` (the comparison
  `a > b` of the source is `lt b a`).  Nothing is assumed about them: how a
  result is rounded, what a division by zero yields and how NaN compares is
  what the instance says.
* `sqrt`, `log`, `log2`: the `libm` functions on doubles.
* `kissat_next_decision_variable`: the next decision variable of the active
  decision order structure (only the returned variable is used here).
* `logn_minus_one`: Modelled from the spec: the integer that
  `kissat_logn (restarts) - 1` adds to the restart interval.
* `rebuild_scores`: Modelled from the spec: what `kissat_update_scores` does to
  the heap of the active heuristic ("force a full rebuild of the active
  Decision-Order Structure's scores"). -/
structure externals (D : Type) where
  of_int : Int → D
  lit : ℚ → D
  add : D → D → D
  mul : D → D → D
  div : D → D → D
  le : D → D → Bool
  lt : D → D → Bool
  sqrt : D → D
  log : D → D
  log2 : D → D
  kissat_next_decision_variable : kissat D → Nat
  logn_minus_one : Nat → Nat
  rebuild_scores : heap D → heap D

/-- Modelled from the spec: `kissat_reluctant_triggered` of the missing
`reluctant.c`, the "boolean triggered query" of the reluctant-doubling
sequence. -/
def kissat_reluctant_triggered (s : kissat D) : Bool := s.reluctant_trigger

/-- Modelled from the spec: `kissat_get_heap_score` of the missing
`inlineheap.h`, "`get_score(var)`". -/
def kissat_get_heap_score (h : heap D) (idx : Nat) : D := h.score idx

/-- Function `kissat_restarting`, restart.c lines 15-38 (its return value);
`margin` and `limit` are computed with the operations of `double`. -/
def kissat_restarting (E : externals D) (s : kissat D) : Bool :=
  if !s.opt_restart then false
  else if s.level = 0 then false
  else if s.conflicts < s.limits_restart_conflicts then false
  else if s.stable then kissat_reluctant_triggered s
  else
    let fast := s.fast_glue
    let slow := s.slow_glue
    let margin := E.div (E.add (E.lit 100) (E.of_int s.opt_restartmargin)) (E.lit 100)
    let limit := E.mul margin slow
    E.le limit fast

/-- Function `kissat_update_focused_restart_limit`, lines 40-52; `uint64_t`
arithmetic. -/
def kissat_update_focused_restart_limit (E : externals D) (s : kissat D) : kissat D :=
  let restarts := s.restarts
  let delta := s.opt_restartint
  let delta := if restarts ≠ 0 then (delta + E.logn_minus_one restarts) % 2 ^ 64 else delta
  { s with limits_restart_conflicts := (s.conflicts + delta) % 2 ^ 64 }

/-- The loop `while (res < level) { ...; if (score <= limit) break; res++; }` of
lines 59-66 and 76-83; `score k` is the score of the decision variable of frame
`k`, the first argument is the number `level - res` of levels that remain. -/
def reuse_loop {α : Type} [LinearOrder α] (score : Nat → α) (limit : α) : Nat → Nat → Nat
  | 0, res => res
  | n + 1, res => if score (res + 1) ≤ limit then res else reuse_loop score limit n (res + 1)

/-- Function `reuse_stable_trail`, lines 54-68. -/
def reuse_stable_trail [LinearOrder D] (E : externals D) (s : kissat D) : Nat :=
  let scores := kissat_get_scores s
  let next_idx := E.kissat_next_decision_variable s
  let limit := kissat_get_heap_score scores next_idx
  reuse_loop (fun k => kissat_get_heap_score scores (IDX (FRAME s k).decision)) limit s.level 0

/-- Function `reuse_focused_trail`, lines 70-85. -/
def reuse_focused_trail (E : externals D) (s : kissat D) : Nat :=
  let next_idx := E.kissat_next_decision_variable s
  let limit := (s.links next_idx).stamp
  reuse_loop (fun k => (s.links (IDX (FRAME s k).decision)).stamp) limit s.level 0

/-- Function `reuse_trail`, lines 87-111: the returned level and the solver
with its statistics updated. -/
def reuse_trail [LinearOrder D] (E : externals D) (s : kissat D) : Nat × kissat D :=
  if !s.opt_restartreusetrail then (0, s)
  else
    let res := if s.stable then reuse_stable_trail E s else reuse_focused_trail E s
    if res ≠ 0 then
      (res, { s with
              restarts_reused_trails := s.restarts_reused_trails + 1
              restarts_reused_levels := s.restarts_reused_levels + res })
    else (res, s)

/-- The sum `stable_restarts` of lines 127-129. -/
def mab_select_sum (s : kissat D) : Nat :=
  ((List.range s.mab_heuristics).map s.mab_select).sum

/-- The expression of lines 166-167, computed with the operations of `double`
from left to right as the C expression is. -/
def ucb_score (E : externals D) (s : kissat D) (adaptive_c : D)
    (stable_restarts i : Nat) : D :=
  E.add (E.div (s.mab_reward i) (E.of_int (s.mab_select i)))
    (E.sqrt (E.div (E.mul adaptive_c (E.log (E.of_int (stable_restarts + 1 : Nat))))
      (E.of_int (s.mab_select i))))

/-- One iteration of the loop of lines 165-171 on the pair of the array `ucb`
and `solver->heuristic`; the test `ucb[i] > ucb[solver->heuristic]` is the
comparison of `double`. -/
def ucb_step (E : externals D) (s : kissat D) (adaptive_c : D)
    (stable_restarts : Nat) (st : (Nat → D) × Nat) (i : Nat) : (Nat → D) × Nat :=
  let ucb := Function.update st.1 i (ucb_score E s adaptive_c stable_restarts i)
  if i ≠ 0 ∧ E.lt (ucb st.2) (ucb i) = true then (ucb, i) else (ucb, st.2)

/-- The selection of lines 163-171: `solver->heuristic = 0`, then the loop over
`i < mab_heuristics`; returns the selected heuristic.  The array `ucb` is not
initialised in the source; no entry is read before it is written, the model
starts it with zeros. -/
def ucb_select (E : externals D) (s : kissat D) (adaptive_c : D)
    (stable_restarts : Nat) : Nat :=
  ((List.range s.mab_heuristics).foldl (ucb_step E s adaptive_c stable_restarts)
    (fun _ => E.of_int 0, 0)).2

/-- Lines 116-155 of `restart_mab`: the reward of the active heuristic, the
reset of the per-restart counters, and the gain window with its momentum (the
function-local statics are fields of the solver).  Every operation on a
`double` is the operation of `E`, in the order of the source; `avg_gain` is
summed from `0` over `recent_gains[0..9]`.  Returns the solver,
`stable_restarts` and `adaptive_c`. -/
def restart_mab_update (E : externals D) (s : kissat D) :
    kissat D × Nat × D :=
  let reward := E.add (s.mab_reward s.heuristic)
    (E.div (E.log2 (E.of_int s.mab_decisions)) (E.log2 (E.of_int s.mab_conflicts)))
  let s1 := { s with
    mab_reward := Function.update s.mab_reward s.heuristic reward
    mab_chosen := fun idx => if idx < s.vars then 0 else s.mab_chosen idx
    mab_chosen_tot := 0
    mab_decisions := 0
    mab_conflicts := 0 }
  let stable_restarts := mab_select_sum s1
  let current_gain :=
    E.div (s1.mab_reward s1.heuristic) (E.of_int (s1.mab_select s1.heuristic))
  let recent_gains := Function.update s1.recent_gains s1.gain_index current_gain
  let gain_index := (s1.gain_index + 1) % 10
  let avg_gain :=
    E.div ((List.range 10).foldl (fun a i => E.add a (recent_gains i)) (E.of_int 0))
      (E.of_int 10)
  let momentum :=
    if E.lt avg_gain current_gain = true then E.mul s1.momentum (E.lit (11 / 10))
    else E.mul s1.momentum (E.lit (9 / 10))
  let adaptive_c :=
    E.div s1.mabc (E.mul momentum (E.of_int (stable_restarts + 1 : Nat)))
  ({ s1 with recent_gains := recent_gains, gain_index := gain_index, momentum := momentum },
    stable_restarts, adaptive_c)

/-- Function `restart_mab`, lines 113-176. -/
def restart_mab (E : externals D) (s : kissat D) : kissat D :=
  let u := restart_mab_update E s
  let s1 := u.1
  let stable_restarts := u.2.1
  let adaptive_c := u.2.2
  let heuristic :=
    if stable_restarts < s1.mab_heuristics then (if s1.heuristic = 0 then 1 else 0)
    else ucb_select E s1 adaptive_c stable_restarts
  { s1 with
    heuristic := heuristic
    mab_select := Function.update s1.mab_select heuristic (s1.mab_select heuristic + 1) }

/-- Modelled from the spec: `kissat_update_scores` of the missing `bump.c`,
rebuilding the heap of the active heuristic. -/
def kissat_update_scores (E : externals D) (s : kissat D) : kissat D :=
  if s.heuristic = 0 then { s with scores := E.rebuild_scores s.scores }
  else { s with scores_chb := E.rebuild_scores s.scores_chb }

/-- Lines 180-185 of `kissat_restart`: the statistics. -/
def restart_statistics (s : kissat D) : kissat D :=
  let s1 := { s with restarts := s.restarts + 1, restarts_levels := s.restarts_levels + s.level }
  if s1.stable then { s1 with stable_restarts := s1.stable_restarts + 1 }
  else { s1 with focused_restarts := s1.focused_restarts + 1 }

/-- Lines 180-190 of `kissat_restart`: the statistics and the bandit. -/
def restart_select (E : externals D) (s : kissat D) : kissat D :=
  let s2 := restart_statistics s
  if s2.stable && s2.mab then restart_mab E s2 else s2

/-- Lines 187-199 of `kissat_restart`: the level to backtrack to and the state
in which `kissat_backtrack_in_consistent_state` is called. -/
def restart_target [LinearOrder D] (E : externals D) (s : kissat D) : Nat × kissat D :=
  let old_heuristic := s.heuristic
  let s3 := restart_select E s
  let new_heuristic := s3.heuristic
  let r := if old_heuristic = new_heuristic then reuse_trail E s3 else (0, s3)
  let s4 := r.2
  (r.1, if s4.stable && s4.mab then { s4 with heuristic := old_heuristic } else s4)

/-- Function `kissat_restart`, lines 178-209. -/
def kissat_restart [LinearOrder D] (E : externals D) (s : kissat D) : kissat D :=
  let old_heuristic := s.heuristic
  let new_heuristic := (restart_select E s).heuristic
  let t := restart_target E s
  let s6 := kissat_backtrack_in_consistent_state t.2 t.1
  let s7 := if s6.stable && s6.mab then { s6 with heuristic := new_heuristic } else s6
  let s8 := if !s7.stable then kissat_update_focused_restart_limit E s7 else s7
  if s8.stable && s8.mab && old_heuristic != new_heuristic then kissat_update_scores E s8
  else s8

/-! ## propsearch.c -/

/-- The functions of components outside `src/` that `propsearch.c` calls; they
are parameters of the embedding.

* `search_propagate_literal`: the watch-list primitive of the missing
  `proplit.h`; for a literal it returns the conflicting clause (`none` for the
  null pointer) and the solver with the implied literals enqueued.
* `kissat_update_conflicts_and_trail`: the conflict and trail observer.
* `kissat_bump_chb`, `kissat_decay_chb`: the score updates of the
  conflict-history-based heuristic declared in `bump.h`. -/
structure search_externals (D : Type) where
  search_propagate_literal : kissat D → Nat → Option Nat × kissat D
  kissat_update_conflicts_and_trail : kissat D → Option Nat → Bool → kissat D
  kissat_bump_chb : kissat D → Nat → D → kissat D
  kissat_decay_chb : kissat D → kissat D

/-- Function `update_search_propagation_statistics`, propsearch.c lines 11-33;
the macro `ADD` adds to a statistics counter. -/
def update_search_propagation_statistics (s : kissat D) (saved_propagate : Nat) : kissat D :=
  let propagated := s.propagate - saved_propagate
  let s1 := { s with
    propagations := s.propagations + propagated
    statistics_ticks := s.statistics_ticks + s.ticks
    search_propagations := s.search_propagations + propagated
    search_ticks := s.search_ticks + s.ticks }
  if s1.stable then
    { s1 with
      stable_propagations := s1.stable_propagations + propagated
      stable_ticks := s1.stable_ticks + s1.ticks }
  else
    { s1 with
      focused_propagations := s1.focused_propagations + propagated
      focused_ticks := s1.focused_ticks + s1.ticks }

/-- The loop `while (!res && propagate != END_ARRAY (solver->trail))` of
`search_propagate`, lines 38-39, entered with `res = 0`: the local cursor
`propagate` and the solver; it returns the result, the cursor and the solver,
or `none` when the fuel runs out. -/
def search_propagate_loop (X : search_externals D) :
    Nat → Nat → kissat D → Option (Option Nat × Nat × kissat D)
  | 0, _, _ => none
  | fuel + 1, propagate, s =>
    if propagate ≠ s.trail.length then
      let r := X.search_propagate_literal s (s.trail.getD propagate 0)
      match r.1 with
      | some c => some (some c, propagate + 1, r.2)
      | none => search_propagate_loop X fuel (propagate + 1) r.2
    else some (none, propagate, s)

/-- Function `search_propagate`, lines 35-42. -/
def search_propagate (X : search_externals D) (fuel : Nat) (s : kissat D) :
    Option (Option Nat × kissat D) :=
  match search_propagate_loop X fuel s.propagate s with
  | none => none
  | some r => some (r.1, { r.2.2 with propagate := r.2.1 })

/-- The loop of lines 75-79; the first argument is `i + 1` for the `int i` of the
code (so `0` stands for `i < 0`), `lit` is the variable of that name.  It
returns the solver and the calls of `kissat_bump_chb` it made, as pairs of
variable and multiplier in the order of the calls. -/
def bump_chb_loop (X : search_externals D) (multiplier : D) :
    Nat → Nat → kissat D → kissat D × List (Nat × D)
  | 0, _, s => (s, [])
  | i + 1, lit, s =>
    if (s.assigned (IDX lit)).level = s.level then
      let lit1 := s.trail.getD i 0
      let r := bump_chb_loop X multiplier i lit1 (X.kissat_bump_chb s (IDX lit1) multiplier)
      (r.1, (IDX lit1, multiplier) :: r.2)
    else (s, [])

/-- Lines 71-81 of `kissat_search_propagate`: the bumps and the decay of the
conflict-history-based heuristic. -/
def bump_chb_after_propagation [LinearOrderedField D] (X : search_externals D)
    (conflict : Option Nat) (s : kissat D) : kissat D × List (Nat × D) :=
  let r :=
    if s.stable && s.heuristic == 1 then
      let size := s.trail.length
      let lit := if 0 < size then s.trail.getD (size - 1) 0 else 0
      bump_chb_loop X (if conflict.isSome then 1 else 9 / 10) size lit s
    else (s, [])
  if r.1.stable && r.1.heuristic == 1 && conflict.isSome then (X.kissat_decay_chb r.1, r.2)
  else r

/-- Function `kissat_search_propagate`, lines 44-83: the conflict, the solver,
and the calls of `kissat_bump_chb` that were made. -/
def kissat_search_propagate [LinearOrderedField D] (X : search_externals D) (fuel : Nat)
    (s : kissat D) : Option (Option Nat × kissat D × List (Nat × D)) :=
  let s0 := { s with ticks := 0 }
  let saved_propagate := s0.propagate
  match search_propagate X fuel s0 with
  | none => none
  | some (conflict, s1) =>
    let s2 := update_search_propagation_statistics s1 saved_propagate
    let s3 := X.kissat_update_conflicts_and_trail s2 conflict true
    let s4 :=
      if conflict.isSome ∧ s3.randec ≠ 0 then { s3 with randec := s3.randec - 1 } else s3
    let r := bump_chb_after_propagation X conflict s4
    some (conflict, r.1, r.2)

/-! ## IEEE 754 binary64 for the examples

The example states carry concrete doubles.  `round53` is the rounding of
binary64 (round to nearest, ties to even); the type `double` adds the
infinities and NaN. -/

/-- The power `2 ^ z` for an integer exponent. -/
def pow2 (z : Int) : ℚ :=
  if 0 ≤ z then ((2 ^ z.toNat : Nat) : ℚ) else 1 / ((2 ^ (-z).toNat : Nat) : ℚ)

/-- The integer nearest to `x`, the even one of the two when `x` lies half way. -/
def round_even (x : ℚ) : Int :=
  let f := x.floor
  let r := x - f
  if r < 1 / 2 then f else if 1 / 2 < r then f + 1 else if f % 2 = 0 then f else f + 1

/-- The number of times `n` can be halved before it is below 2 (the first
argument bounds the number of steps; `n` itself is enough). -/
def log2_floor : Nat → Nat → Nat
  | 0, _ => 0
  | fuel + 1, n => if n < 2 then 0 else log2_floor fuel (n / 2) + 1

/-- The exponent `e` with `2 ^ e ≤ x < 2 ^ (e + 1)` of a positive rational. -/
def binade (x : ℚ) : Int :=
  let e : Int := (log2_floor x.num.natAbs x.num.natAbs : Int) - (log2_floor x.den x.den : Int)
  if pow2 e ≤ x then e else e - 1

/-- The multiple of the unit in the last place nearest to `x` (ties to even):
53 significant bits, and below `2 ^ (-1022)` the fixed spacing `2 ^ (-1074)`. -/
def round53 (x : ℚ) : ℚ :=
  if x = 0 then 0
  else
    let e := max (binade |x|) (-1022)
    let ulp := pow2 (e - 52)
    (round_even (x / ulp) : ℚ) * ulp

/-- A value of the C type `double`: a number, an infinity (with its sign) or
NaN.  The two zeros are not told apart; a zero divisor counts as `+0`. -/
inductive double where
  | fin (q : ℚ)
  | inf (negative : Bool)
  | nan
deriving DecidableEq

/-- The double nearest to the rational `x`; from `2 ^ 1024` on the rounded
value overflows to an infinity. -/
def round_double (x : ℚ) : double :=
  let r := round53 x
  if pow2 1024 ≤ |r| then double.inf (decide (r < 0)) else double.fin r

/-- Addition of doubles. -/
def double_add : double → double → double
  | double.nan, _ => double.nan
  | _, double.nan => double.nan
  | double.inf a, double.inf b => if a = b then double.inf a else double.nan
  | double.inf a, double.fin _ => double.inf a
  | double.fin _, double.inf b => double.inf b
  | double.fin x, double.fin y => round_double (x + y)

/-- Multiplication of doubles. -/
def double_mul : double → double → double
  | double.nan, _ => double.nan
  | _, double.nan => double.nan
  | double.inf a, double.inf b => double.inf (a != b)
  | double.inf a, double.fin y => if y = 0 then double.nan else double.inf (a != decide (y < 0))
  | double.fin x, double.inf b => if x = 0 then double.nan else double.inf (decide (x < 0) != b)
  | double.fin x, double.fin y => round_double (x * y)

/-- Division of doubles: `0 / 0` and `inf / inf` are NaN, another number
divided by zero is an infinity. -/
def double_div : double → double → double
  | double.nan, _ => double.nan
  | _, double.nan => double.nan
  | double.inf _, double.inf _ => double.nan
  | double.inf a, double.fin y => double.inf (a != decide (y < 0))
  | double.fin _, double.inf _ => double.fin 0
  | double.fin x, double.fin y =>
    if y = 0 then (if x = 0 then double.nan else double.inf (decide (x < 0)))
    else round_double (x / y)

/-- The comparison `<` of doubles: false when an operand is NaN. -/
def double_lt : double → double → Bool
  | double.nan, _ => false
  | _, double.nan => false
  | double.inf a, double.inf b => a && !b
  | double.inf a, double.fin _ => a
  | double.fin _, double.inf b => !b
  | double.fin x, double.fin y => decide (x < y)

/-- The comparison `<=` of doubles: false when an operand is NaN. -/
def double_le : double → double → Bool
  | double.nan, _ => false
  | _, double.nan => false
  | double.inf a, double.inf b => a || !b
  | double.inf a, double.fin _ => a
  | double.fin _, double.inf b => !b
  | double.fin x, double.fin y => decide (x ≤ y)

/-- Whether a double is a number (neither an infinity nor NaN). -/
def is_number : double → Bool
  | double.fin _ => true
  | _ => false

/-- The domain and the special values of `sqrt` and `log`; on the positive
numbers the examples use the identity as a stand-in for both. -/
def libm_stand_in (at_zero : double) : double → double
  | double.nan => double.nan
  | double.inf true => double.nan
  | double.inf false => double.inf false
  | double.fin x => if x < 0 then double.nan else if x = 0 then at_zero else double.fin x

/-- The function `log2` at the arguments where it is exact (`log2 1 = 0`,
`log2 2 = 1`, `log2 4 = 2`), with its special values; elsewhere on the positive
numbers a stand-in. -/
def double_log2 : double → double
  | double.nan => double.nan
  | double.inf true => double.nan
  | double.inf false => double.inf false
  | double.fin x =>
    if x < 0 then double.nan else if x = 0 then double.inf true
    else if x = 4 then double.fin 2 else if x = 2 then double.fin 1 else double.fin 0

/-- The solver `s` with every `double` replaced by its image under `f`. -/
def with_doubles {D1 D2 : Type} (f : D1 → D2) (s : kissat D1) : kissat D2 where
  opt_restart := s.opt_restart
  opt_restartmargin := s.opt_restartmargin
  opt_restartint := s.opt_restartint
  opt_restartreusetrail := s.opt_restartreusetrail
  stable := s.stable
  probing := s.probing
  vars := s.vars
  level := s.level
  frames := s.frames
  values := s.values
  assigned := s.assigned
  trail := s.trail
  propagate := s.propagate
  unassigned := s.unassigned
  links := s.links
  queue_search_idx := s.queue_search_idx
  queue_search_stamp := s.queue_search_stamp
  scores := ⟨s.scores.stack, fun i => f (s.scores.score i)⟩
  scores_chb := ⟨s.scores_chb.stack, fun i => f (s.scores_chb.score i)⟩
  heuristic := s.heuristic
  target_assigned := s.target_assigned
  best_assigned := s.best_assigned
  target_saved := s.target_saved
  best_saved := s.best_saved
  conflicts := s.conflicts
  limits_restart_conflicts := s.limits_restart_conflicts
  reluctant_trigger := s.reluctant_trigger
  fast_glue := f s.fast_glue
  slow_glue := f s.slow_glue
  restarts := s.restarts
  restarts_levels := s.restarts_levels
  stable_restarts := s.stable_restarts
  focused_restarts := s.focused_restarts
  restarts_reused_trails := s.restarts_reused_trails
  restarts_reused_levels := s.restarts_reused_levels
  propagations := s.propagations
  statistics_ticks := s.statistics_ticks
  search_propagations := s.search_propagations
  search_ticks := s.search_ticks
  stable_propagations := s.stable_propagations
  stable_ticks := s.stable_ticks
  focused_propagations := s.focused_propagations
  focused_ticks := s.focused_ticks
  ticks := s.ticks
  randec := s.randec
  mab := s.mab
  mab_heuristics := s.mab_heuristics
  mab_reward := fun i => f (s.mab_reward i)
  mab_select := s.mab_select
  mab_chosen := s.mab_chosen
  mab_chosen_tot := s.mab_chosen_tot
  mab_decisions := s.mab_decisions
  mab_conflicts := s.mab_conflicts
  mabc := f s.mabc
  recent_gains := fun i => f (s.recent_gains i)
  gain_index := s.gain_index
  momentum := f s.momentum

/-! ## Example states -/

/-- A solver without variables, as after initialisation (rational numbers stand
for the doubles; the momentum of `restart_mab` starts at `1.0`). -/
def empty_solver : kissat ℚ where
  opt_restart := true
  opt_restartmargin := 10
  opt_restartint := 1
  opt_restartreusetrail := true
  stable := false
  probing := false
  vars := 0
  level := 0
  frames := [⟨0, 0⟩]
  values := fun _ => 0
  assigned := fun _ => ⟨0, 0⟩
  trail := []
  propagate := 0
  unassigned := 0
  links := fun _ => ⟨0⟩
  queue_search_idx := 0
  queue_search_stamp := 0
  scores := ⟨[], fun _ => 0⟩
  scores_chb := ⟨[], fun _ => 0⟩
  heuristic := 0
  target_assigned := 0
  best_assigned := 0
  target_saved := 0
  best_saved := 0
  conflicts := 0
  limits_restart_conflicts := 0
  reluctant_trigger := false
  fast_glue := 0
  slow_glue := 0
  restarts := 0
  restarts_levels := 0
  stable_restarts := 0
  focused_restarts := 0
  restarts_reused_trails := 0
  restarts_reused_levels := 0
  propagations := 0
  statistics_ticks := 0
  search_propagations := 0
  search_ticks := 0
  stable_propagations := 0
  stable_ticks := 0
  focused_propagations := 0
  focused_ticks := 0
  ticks := 0
  randec := 0
  mab := false
  mab_heuristics := 2
  mab_reward := fun _ => 0
  mab_select := fun _ => 0
  mab_chosen := fun _ => 0
  mab_chosen_tot := 0
  mab_decisions := 0
  mab_conflicts := 0
  mabc := 4
  recent_gains := fun _ => 0
  gain_index := 0
  momentum := 1

/-- Values of the literals `0, 2, 4, ...` of the first `n` variables true,
their negations false. -/
def values_first (n : Nat) : Nat → Int :=
  fun lit => if lit < 2 * n then (if lit % 2 = 0 then 1 else -1) else 0

/-- Five variables, the decisions `0`, `2`, `4` (variables 0, 1, 2) at levels
1, 2, 3 and no propagation; variable `i` sits at trail position `i` with
level `i + 1`. -/
def three_decisions : kissat ℚ :=
  { empty_solver with
    vars := 5
    level := 3
    frames := [⟨0, 0⟩, ⟨0, 0⟩, ⟨2, 1⟩, ⟨4, 2⟩]
    values := values_first 3
    assigned := fun i => if i < 3 then ⟨i + 1, i⟩ else ⟨0, 0⟩
    trail := [0, 2, 4]
    propagate := 3
    unassigned := 2
    links := fun i => ⟨i⟩
    queue_search_idx := 4
    queue_search_stamp := 4 }

/-- As `three_decisions`, and the literal `6` (variable 3) was implied at level
1 by a clause found while the search was at level 3: it is the last entry of
the trail and its recorded level is 1 (an out-of-order literal). -/
def out_of_order : kissat ℚ :=
  { three_decisions with
    values := values_first 4
    assigned := fun i => if i < 3 then ⟨i + 1, i⟩ else if i = 3 then ⟨1, 3⟩ else ⟨0, 0⟩
    trail := [0, 2, 4, 6]
    propagate := 4
    unassigned := 1 }

/-- The focused-mode scenario of the spec: restarts enabled, level 3, ten
conflicts against a limit of five, slow glue average `4`, restart margin `10`
per cent, and the given fast glue average. -/
def glue_scenario (fast : ℚ) : kissat ℚ :=
  { three_decisions with
    conflicts := 10
    limits_restart_conflicts := 5
    opt_restartmargin := 10
    slow_glue := 4
    fast_glue := fast }

/-- The external functions in the example states over the rationals, which
stand for the doubles that are numbers: every result is rounded as in binary64
(`round53`); there is no infinity and no NaN, so these examples neither
overflow nor divide by zero.  The `libm` functions are replaced by tables that
are exact at the arguments used (`log2 4 = 2`, `log2 2 = 1`); the next decision
variable is variable 3. -/
def example_externals : externals ℚ where
  of_int := fun n => round53 n
  lit := round53
  add := fun a b => round53 (a + b)
  mul := fun a b => round53 (a * b)
  div := fun a b => round53 (a / b)
  le := fun a b => decide (a ≤ b)
  lt := fun a b => decide (a < b)
  sqrt := fun x => x
  log := fun x => x
  log2 := fun x => if x = 4 then 2 else if x = 2 then 1 else 0
  kissat_next_decision_variable := fun _ => 3
  logn_minus_one := fun _ => 0
  rebuild_scores := fun h => h

/-- The external functions in the example states over `double`: IEEE
arithmetic with infinities and NaN; `sqrt` and `log` are stand-ins that keep
the domain and the special values of the real functions. -/
def ieee_externals : externals double where
  of_int := fun n => round_double n
  lit := round_double
  add := double_add
  mul := double_mul
  div := double_div
  le := double_le
  lt := double_lt
  sqrt := libm_stand_in (double.fin 0)
  log := libm_stand_in (double.inf true)
  log2 := double_log2
  kissat_next_decision_variable := fun _ => 3
  logn_minus_one := fun _ => 0
  rebuild_scores := fun h => h

/-- The scenario `glue_scenario` with its doubles in IEEE arithmetic. -/
def glue_ieee (fast : ℚ) : kissat double := with_doubles double.fin (glue_scenario fast)

/-- The scenario `glue_scenario` in IEEE arithmetic with the given restart
margin and slow glue average; the fast glue average is the double nearest to
`fast`. -/
def glue_rounding (margin : Int) (slow fast : ℚ) : kissat double :=
  with_doubles double.fin
    { glue_scenario (round53 fast) with opt_restartmargin := margin, slow_glue := slow }

/-- Stable mode on the trail of `three_decisions`: the decision variables 0, 1, 2
have the scores 9, 7, 5, the free variables 3 and 4 have the scores 5 and 1 and
are on the heap. -/
def reuse_scenario : kissat ℚ :=
  { three_decisions with
    stable := true
    scores := ⟨[3, 4], fun i =>
      if i = 0 then 9 else if i = 1 then 7 else if i = 2 then 5 else if i = 3 then 5 else 1⟩ }

/-- The bandit scenario of the spec on the trail of `reuse_scenario`: stable
mode, bandit on, two heuristics, heuristic 0 active, both heuristics selected
once.  Since the last restart there were 4 decisions and 2 conflicts, so the
reward of heuristic 0 grows by `log2 4 / log2 2 = 2`, from 1 to 3, the reward
of heuristic 1. -/
def bandit_scenario : kissat ℚ :=
  { reuse_scenario with
    mab := true
    mab_heuristics := 2
    heuristic := 0
    mab_select := fun i => if i < 2 then 1 else 0
    mab_reward := fun i => if i = 0 then 1 else if i = 1 then 3 else 0
    mab_decisions := 4
    mab_conflicts := 2 }

/-- As `bandit_scenario`, before any heuristic was selected. -/
def bandit_start : kissat ℚ :=
  { bandit_scenario with mab_select := fun _ => 0 }

/-- As `bandit_scenario` in IEEE arithmetic, with four decisions and one
conflict since the last restart: line 116 adds `log2 (4) / log2 (1) = 2 / 0`,
which is `+inf`, to the reward of heuristic 0. -/
def inf_scenario : kissat double :=
  with_doubles double.fin { bandit_scenario with mab_conflicts := 1 }

/-- Focused mode on the trail of `three_decisions`: the decision variables 0, 1,
2 have the stamps 5, 7, 9, the free variables 3 and 4 the stamps 3 and 4, and
the search position of the queue is at variable 4. -/
def queue_scenario : kissat ℚ :=
  { three_decisions with
    links := fun i =>
      if i = 0 then ⟨5⟩ else if i = 1 then ⟨7⟩ else if i = 2 then ⟨9⟩
      else if i = 3 then ⟨3⟩ else ⟨4⟩
    queue_search_idx := 4
    queue_search_stamp := 4 }

/-- A watch-list primitive for the examples: on the trail `[0]` the literal `0`
implies the literals `2` and `4`, the literal `2` falsifies clause 7, and
nothing else happens.  The observer and the score updates do nothing. -/
def example_search : search_externals ℚ where
  search_propagate_literal := fun s lit =>
    if lit = 0 ∧ s.trail = [0] then (none, { s with trail := s.trail ++ [2, 4] })
    else if lit = 2 then (some 7, s)
    else (none, s)
  kissat_update_conflicts_and_trail := fun s _ _ => s
  kissat_bump_chb := fun s _ _ => s
  kissat_decay_chb := fun s => s

/-- One decision at level 1, not yet propagated. -/
def one_decision : kissat ℚ :=
  { empty_solver with
    vars := 5
    level := 1
    frames := [⟨0, 0⟩, ⟨0, 0⟩]
    values := values_first 1
    assigned := fun i => if i = 0 then ⟨1, 0⟩ else ⟨0, 0⟩
    trail := [0]
    propagate := 0
    unassigned := 4 }

/-- Stable mode with the conflict-history-based heuristic on the trail of
`reuse_scenario`: the literals `0`, `2`, `4` have the levels 1, 2, 3, the
current level is 3 and its decision `4` is not yet propagated. -/
def chb_scenario : kissat ℚ :=
  { reuse_scenario with heuristic := 1, propagate := 2 }

/-- As `three_decisions`, and the literal `6` (variable 3) was implied at level
2 while the search was at level 3: it is the last entry of the trail and its
recorded level is 2 (an out-of-order literal). -/
def relocated_scenario : kissat ℚ :=
  { three_decisions with
    values := values_first 4
    assigned := fun i => if i < 3 then ⟨i + 1, i⟩ else if i = 3 then ⟨2, 3⟩ else ⟨0, 0⟩
    trail := [0, 2, 4, 6]
    propagate := 4
    unassigned := 1 }

/-! ## Well-formedness predicates of the spec -/

/-- Frame invariant of the spec: `frame[l].trail <= frame[l+1].trail` for the
levels up to the current one, and the last frame starts inside the trail. -/
def frames_monotone (s : kissat D) : Prop :=
  (∀ l < s.level, (FRAME s l).trail ≤ (FRAME s (l + 1)).trail) ∧
    (FRAME s s.level).trail ≤ s.trail.length

/-- End of the trail range of level `l`: the start of the next level, or the
end of the trail for the current level. -/
def frame_end (s : kissat D) (l : Nat) : Nat :=
  if l < s.level then (FRAME s (l + 1)).trail else s.trail.length

/-- Trail/level consistency of the spec (no out-of-order literals): every trail
position lies in the frame range of some level, and the recorded level of the
literal at that position is that level. -/
def levels_match_frames (s : kissat D) : Prop :=
  ∀ i < s.trail.length, ∃ l ≤ s.level,
    ((FRAME s l).trail ≤ i ∧ i < frame_end s l) ∧
      (s.assigned (IDX (s.trail.getD i 0))).level = l

instance (s : kissat D) : Decidable (frames_monotone s) := by
  unfold frames_monotone; infer_instance

instance (s : kissat D) : Decidable (levels_match_frames s) := by
  unfold levels_match_frames; infer_instance

/-- The level `r` is the largest reusable prefix for the scores `score k` of the
decision variables of the levels `k = 1 .. level`: every level up to `r` has a
score strictly above `limit`, the next level (if any) has not, and no longer
prefix has all its scores above `limit`. -/
def largest_reusable_level {α : Type} [LinearOrder α] (score : Nat → α) (limit : α)
    (level r : Nat) : Prop :=
  r ≤ level ∧ (∀ k, 1 ≤ k → k ≤ r → limit < score k) ∧
    (r < level → score (r + 1) ≤ limit) ∧
    (∀ r2, r2 ≤ level → (∀ k, 1 ≤ k → k ≤ r2 → limit < score k) → r2 ≤ r)

/-- The UCB1 score of the spec,
`reward[i]/selections[i] + sqrt(c' * ln(total_selections+1) / selections[i])`,
evaluated with the operations of `double`. -/
def ucb1 (E : externals D) (reward : Nat → D) (select : Nat → Nat)
    (c' : D) (total : Nat) (i : Nat) : D :=
  E.add (E.div (reward i) (E.of_int (select i)))
    (E.sqrt (E.div (E.mul c' (E.log (E.of_int ((total : Int) + 1)))) (E.of_int (select i))))

/-- The UCB1 score of heuristic `i` that a call of `restart_mab` on `s` with two
heuristics compares: the rewards are those after the reward update, the
selection counts those before the increment, `total` is their sum and
`c' = c / (momentum * (total + 1))` with the updated momentum. -/
def mab_ucb1 (E : externals D) (s : kissat D) (i : Nat) : D :=
  ucb1 E (restart_mab E s).mab_reward s.mab_select
    (E.div s.mabc (E.mul (restart_mab E s).momentum
      (E.of_int (((s.mab_select 0 + s.mab_select 1 : Nat) : Int) + 1))))
    (s.mab_select 0 + s.mab_select 1) i

/-- The fields the reinsertion into a decision order structure leaves alone. -/
structure same_core (s t : kissat D) : Prop where
  trail : t.trail = s.trail
  values : t.values = s.values
  assigned : t.assigned = s.assigned
  unassigned : t.unassigned = s.unassigned
  vars : t.vars = s.vars
  level : t.level = s.level
  frames : t.frames = s.frames
  stable : t.stable = s.stable

/-- The mode, heuristic and bandit fields, which the backtracking loop and the
reinsertion leave alone. -/
structure same_mode (s t : kissat D) : Prop where
  stable : t.stable = s.stable
  probing : t.probing = s.probing
  mab : t.mab = s.mab
  heuristic : t.heuristic = s.heuristic
  vars : t.vars = s.vars
  mab_heuristics : t.mab_heuristics = s.mab_heuristics
  mab_select : t.mab_select = s.mab_select
  links : t.links = s.links
  target_assigned : t.target_assigned = s.target_assigned
  best_assigned : t.best_assigned = s.best_assigned

/-! ## Further notions used by the properties -/

/-- Modelled from the spec: the macro `LIT` of the missing `literal.h`, the
positive literal of a variable. -/
def LIT (idx : Nat) : Nat := 2 * idx

/-- The solver after the watch-list primitive has processed `k` literals, the
first one at trail index `p` and each next one at the next index. -/
def propagate_states (X : search_externals D) : Nat → Nat → kissat D → kissat D
  | 0, _, s => s
  | k + 1, p, s =>
    propagate_states X k (p + 1) (X.search_propagate_literal s (s.trail.getD p 0)).2

/-- The literal handed to call number `k` (counted from 0) of the watch-list
primitive in that run. -/
def propagate_literal (X : search_externals D) : Nat → Nat → kissat D → Nat
  | 0, p, s => s.trail.getD p 0
  | k + 1, p, s =>
    propagate_literal X k (p + 1) (X.search_propagate_literal s (s.trail.getD p 0)).2

/-- The conflict that call number `k` (counted from 0) of the watch-list
primitive returns in that run. -/
def propagate_result (X : search_externals D) : Nat → Nat → kissat D → Option Nat
  | 0, p, s => (X.search_propagate_literal s (s.trail.getD p 0)).1
  | k + 1, p, s =>
    propagate_result X k (p + 1) (X.search_propagate_literal s (s.trail.getD p 0)).2

/-- The watch-list primitive only appends to the trail: on the solvers that
satisfy the invariant `I` it keeps `I`, extends the trail at its end, and the
trail does not grow beyond `N` entries. -/
def appends_only (X : search_externals D) (I : kissat D → Prop) (N : Nat) : Prop :=
  ∀ t lit, I t →
    I (X.search_propagate_literal t lit).2 ∧
    (∃ ext, (X.search_propagate_literal t lit).2.trail = t.trail ++ ext) ∧
    (X.search_propagate_literal t lit).2.trail.length ≤ N

/-- The stores `a->trail = new_trail` that the backtracking loop makes for a
list of kept literals, the first of which is written to trail index `q`. -/
def write_positions : Nat → List Nat → (Nat → assigned) → (Nat → assigned)
  | _, [], a => a
  | q, lit :: K, a =>
    write_positions (q + 1) K (Function.update a (IDX lit) ⟨(a (IDX lit)).level, q⟩)

/-! ## Frame conditions -/

theorem same_core_queue (s : kissat D) (lit : Nat) :
    same_core s (add_unassigned_variable_back_to_queue s lit) := by
  unfold add_unassigned_variable_back_to_queue kissat_update_queue
  constructor <;> (simp only []; split_ifs <;> rfl)

theorem same_core_heap (s : kissat D) (lit : Nat) :
    same_core s (add_unassigned_variable_back_to_heap s lit) := by
  unfold add_unassigned_variable_back_to_heap kissat_push_heap
  constructor <;> (simp only []; split_ifs <;> rfl)

theorem backtrack_loop_succ (back : kissat D → Nat → kissat D) (new_level n p q : Nat)
    (s : kissat D) :
    backtrack_loop back new_level (n + 1) p q s =
      backtrack_loop back new_level n (p + 1) (backtrack_step back new_level p q s).2
        (backtrack_step back new_level p q s).1 := rfl

/-- What one iteration does to a literal that is kept. -/
theorem backtrack_step_keep (back : kissat D → Nat → kissat D) (new_level p q : Nat)
    (s : kissat D)
    (hk : (s.assigned (IDX (s.trail.getD p 0))).level ≤ new_level) :
    (backtrack_step back new_level p q s).2 = q + 1 ∧
    (backtrack_step back new_level p q s).1.trail = s.trail.set q (s.trail.getD p 0) ∧
    (backtrack_step back new_level p q s).1.assigned =
      Function.update s.assigned (IDX (s.trail.getD p 0))
        ⟨(s.assigned (IDX (s.trail.getD p 0))).level, q⟩ ∧
    (backtrack_step back new_level p q s).1.values = s.values ∧
    (backtrack_step back new_level p q s).1.unassigned = s.unassigned := by
  simp only [backtrack_step, hk, if_true, and_self]

/-- What one iteration does to a literal that is unassigned. -/
theorem backtrack_step_drop (back : kissat D → Nat → kissat D)
    (hb : ∀ s lit, same_core s (back s lit)) (new_level p q : Nat) (s : kissat D)
    (hk : ¬ (s.assigned (IDX (s.trail.getD p 0))).level ≤ new_level) :
    (backtrack_step back new_level p q s).2 = q ∧
    (backtrack_step back new_level p q s).1.trail = s.trail ∧
    (backtrack_step back new_level p q s).1.assigned = s.assigned ∧
    (backtrack_step back new_level p q s).1.values =
      Function.update (Function.update s.values (NOT (s.trail.getD p 0)) 0)
        (s.trail.getD p 0) 0 ∧
    (backtrack_step back new_level p q s).1.unassigned = s.unassigned + 1 := by
  have hc := hb (unassign s (s.trail.getD p 0)) (s.trail.getD p 0)
  simp only [backtrack_step, hk, if_false, hc.trail, hc.assigned, hc.values, hc.unassigned]
  simp only [unassign, and_self]

theorem backtrack_loop_trail (back : kissat D → Nat → kissat D)
    (hb : ∀ s lit, same_core s (back s lit)) (new_level : Nat) (lv : Nat → Nat) :
    ∀ (n p q : Nat) (s : kissat D), q ≤ p → p + n = s.trail.length →
      (∀ i, (s.assigned i).level = lv i) →
      (backtrack_loop back new_level n p q s).1.trail.length = s.trail.length ∧
      (backtrack_loop back new_level n p q s).1.trail.take
          (backtrack_loop back new_level n p q s).2
        = s.trail.take q ++ (s.trail.drop p).filter (fun l => decide (lv (IDX l) ≤ new_level)) ∧
      (∀ i, ((backtrack_loop back new_level n p q s).1.assigned i).level = lv i) := by
  intro n
  induction n with
  | zero =>
    intro p q s _ hlen hlv
    have hp : s.trail.length ≤ p := by omega
    simp [backtrack_loop, List.drop_of_length_le hp, hlv]
  | succ n ih =>
    intro p q s hqp hlen hlv
    have hp : p < s.trail.length := by omega
    have hget : s.trail.getD p 0 = s.trail[p] := List.getD_eq_getElem _ _ hp
    have hdrop : s.trail.drop p = s.trail[p] :: s.trail.drop (p + 1) :=
      List.drop_eq_getElem_cons hp
    rw [backtrack_loop_succ]
    by_cases hk : (s.assigned (IDX (s.trail.getD p 0))).level ≤ new_level
    · obtain ⟨e2, et, ea, -, -⟩ := backtrack_step_keep back new_level p q s hk
      have hk2 : lv (IDX s.trail[p]) ≤ new_level := by rw [← hlv, ← hget]; exact hk
      generalize backtrack_step back new_level p q s = r at e2 et ea ⊢
      obtain ⟨h1a, h1b, h1c⟩ := ih (p + 1) r.2 r.1 (by omega)
        (by rw [et]; simp; omega)
        (by
          intro i
          rw [ea]
          by_cases hi : i = IDX (s.trail.getD p 0)
          · subst hi; simp [hlv]
          · simp [Function.update_noteq hi, hlv])
      refine ⟨by rw [h1a, et]; simp, ?_, h1c⟩
      rw [h1b, hdrop, et, e2, hget]
      have hq : q < s.trail.length := by omega
      simp only [List.filter_cons, hk2, decide_True, if_true]
      have e1 : (s.trail.set q s.trail[p]).take (q + 1) = s.trail.take q ++ [s.trail[p]] := by
        rw [List.take_succ, List.set_take, List.set_eq_of_length_le (by simp)]
        simp [hq]
      have e3 : (s.trail.set q s.trail[p]).drop (p + 1) = s.trail.drop (p + 1) := by
        rw [List.drop_set_of_lt _ _ (by omega)]
      simp only [e1, e3, List.append_assoc, List.singleton_append]
    · obtain ⟨e2, et, ea, -, -⟩ := backtrack_step_drop back hb new_level p q s hk
      have hk2 : ¬ lv (IDX s.trail[p]) ≤ new_level := by rw [← hlv, ← hget]; exact hk
      generalize backtrack_step back new_level p q s = r at e2 et ea ⊢
      obtain ⟨h1a, h1b, h1c⟩ := ih (p + 1) r.2 r.1 (by omega)
        (by rw [et]; omega) (by intro i; rw [ea]; exact hlv i)
      refine ⟨by rw [h1a, et], ?_, h1c⟩
      rw [h1b, hdrop, et, e2]
      simp only [List.filter_cons, hk2, decide_False, Bool.false_eq_true, if_false]

/-- One iteration leaves the unread part of the trail and its length alone. -/
theorem backtrack_step_rest (back : kissat D → Nat → kissat D)
    (hb : ∀ s lit, same_core s (back s lit)) (new_level p q : Nat) (s : kissat D)
    (hqp : q ≤ p) :
    (backtrack_step back new_level p q s).1.trail.drop (p + 1) = s.trail.drop (p + 1) ∧
    (backtrack_step back new_level p q s).1.trail.length = s.trail.length ∧
    (backtrack_step back new_level p q s).2 ≤ p + 1 ∧
    (∀ i, ((backtrack_step back new_level p q s).1.assigned i).level = (s.assigned i).level) := by
  by_cases hk : (s.assigned (IDX (s.trail.getD p 0))).level ≤ new_level
  · obtain ⟨e2, et, ea, -, -⟩ := backtrack_step_keep back new_level p q s hk
    rw [e2, et, ea]
    refine ⟨List.drop_set_of_lt _ _ (by omega), by simp, by omega, ?_⟩
    intro i
    by_cases hi : i = IDX (s.trail.getD p 0)
    · subst hi; simp
    · simp [Function.update_noteq hi]
  · obtain ⟨e2, et, ea, -, -⟩ := backtrack_step_drop back hb new_level p q s hk
    rw [e2, et, ea]
    exact ⟨rfl, rfl, by omega, fun _ => rfl⟩

theorem backtrack_loop_values (back : kissat D → Nat → kissat D)
    (hb : ∀ s lit, same_core s (back s lit)) (new_level : Nat) (lv : Nat → Nat) :
    ∀ (n p q : Nat) (s : kissat D), q ≤ p → p + n = s.trail.length →
      (∀ i, (s.assigned i).level = lv i) →
      (∀ x, s.values x = 0 → (backtrack_loop back new_level n p q s).1.values x = 0) ∧
      (∀ l ∈ s.trail.drop p, new_level < lv (IDX l) →
        (backtrack_loop back new_level n p q s).1.values l = 0 ∧
        (backtrack_loop back new_level n p q s).1.values (NOT l) = 0) ∧
      (∀ x, (∀ l ∈ s.trail.drop p, new_level < lv (IDX l) → x ≠ l ∧ x ≠ NOT l) →
        (backtrack_loop back new_level n p q s).1.values x = s.values x) ∧
      (backtrack_loop back new_level n p q s).1.unassigned =
        s.unassigned +
          ((s.trail.drop p).filter (fun l => decide (new_level < lv (IDX l)))).length := by
  intro n
  induction n with
  | zero =>
    intro p q s _ hlen _
    have hp : s.trail.length ≤ p := by omega
    simp [backtrack_loop, List.drop_of_length_le hp]
  | succ n ih =>
    intro p q s hqp hlen hlv
    have hp : p < s.trail.length := by omega
    have hget : s.trail.getD p 0 = s.trail[p] := List.getD_eq_getElem _ _ hp
    have hdrop : s.trail.drop p = s.trail[p] :: s.trail.drop (p + 1) :=
      List.drop_eq_getElem_cons hp
    obtain ⟨er, el, eq, elv⟩ := backtrack_step_rest back hb new_level p q s hqp
    rw [backtrack_loop_succ, hdrop]
    by_cases hk : (s.assigned (IDX (s.trail.getD p 0))).level ≤ new_level
    · obtain ⟨-, -, -, ev, eu⟩ := backtrack_step_keep back new_level p q s hk
      have hk2 : ¬ new_level < lv (IDX s.trail[p]) := by
        rw [← hlv, ← hget]; omega
      generalize backtrack_step back new_level p q s = r at er el eq elv ev eu ⊢
      obtain ⟨h0, ha, hb2, hu⟩ := ih (p + 1) r.2 r.1 eq (by omega)
        (by intro i; rw [elv, hlv])
      rw [er] at ha hb2 hu
      rw [ev] at h0 hb2
      rw [eu] at hu
      refine ⟨h0, ?_, ?_, ?_⟩
      · intro l hl hlt
        rcases List.mem_cons.1 hl with h | h
        · subst h; exact absurd hlt hk2
        · exact ha l h hlt
      · intro x hx
        exact hb2 x (fun l hl hlt => hx l (List.mem_cons_of_mem _ hl) hlt)
      · rw [hu]
        simp only [List.filter_cons, hk2, decide_False, Bool.false_eq_true, if_false]
    · obtain ⟨-, -, -, ev, eu⟩ := backtrack_step_drop back hb new_level p q s hk
      have hk2 : new_level < lv (IDX s.trail[p]) := by
        rw [← hlv, ← hget]; omega
      generalize backtrack_step back new_level p q s = r at er el eq elv ev eu ⊢
      obtain ⟨h0, ha, hb2, hu⟩ := ih (p + 1) r.2 r.1 eq (by omega)
        (by intro i; rw [elv, hlv])
      rw [er] at ha hb2 hu
      rw [eu] at hu
      rw [hget] at ev
      have hz : ∀ x, s.values x = 0 → r.1.values x = 0 := by
        intro x hx
        rw [ev]
        by_cases h1 : x = s.trail[p]
        · subst h1; simp
        · by_cases h2 : x = NOT s.trail[p]
          · subst h2; simp [Function.update_noteq h1]
          · simp [Function.update_noteq h1, Function.update_noteq h2, hx]
      refine ⟨fun x hx => h0 x (hz x hx), ?_, ?_, ?_⟩
      · intro l hl hlt
        rcases List.mem_cons.1 hl with h | h
        · subst h
          constructor
          · apply h0; rw [ev]; simp
          · apply h0; rw [ev]
            by_cases h1 : NOT s.trail[p] = s.trail[p]
            · rw [h1]; simp
            · simp [Function.update_noteq h1]
        · exact ha l h hlt
      · intro x hx
        have hx0 := hx s.trail[p] (List.mem_cons_self _ _) hk2
        rw [hb2 x (fun l hl hlt => hx l (List.mem_cons_of_mem _ hl) hlt), ev]
        simp [Function.update_noteq hx0.1, Function.update_noteq hx0.2]
      · rw [hu]
        simp only [List.filter_cons, hk2, decide_True, if_true, List.length_cons]
        omega

/-! ## The backtrack loop as a whole -/

/-- The reinsertion function the mode selects. -/
theorem backtrack_unfold (s : kissat D) (new_level : Nat) (h : s.level ≠ new_level) :
    ∃ back : kissat D → Nat → kissat D, (∀ t lit, same_core t (back t lit)) ∧
      ∃ r : kissat D × Nat,
        r = backtrack_loop back new_level
          (s.trail.length - (FRAME s (new_level + 1)).trail)
          (FRAME s (new_level + 1)).trail (FRAME s (new_level + 1)).trail
          { s with frames := s.frames.take (new_level + 1) } ∧
        kissat_backtrack_without_updating_phases s new_level =
          { r.1 with
            trail := r.1.trail.take r.2
            level := new_level
            propagate := (FRAME s (new_level + 1)).trail } := by
  cases hs : s.stable
  · exact ⟨add_unassigned_variable_back_to_queue, same_core_queue, _, rfl,
      by simp [kissat_backtrack_without_updating_phases, h, hs]⟩
  · exact ⟨add_unassigned_variable_back_to_heap, same_core_heap, _, rfl,
      by simp [kissat_backtrack_without_updating_phases, h, hs]⟩

/-- The result of a backtrack that does not return early: the new trail is the
old prefix followed by the kept literals of the old suffix, the values of the
other suffix literals are cleared and no other value changes, `unassigned`
counts the cleared literals, recorded levels stay. -/
theorem backtrack_result (s : kissat D) (new_level : Nat) (h : s.level ≠ new_level) :
    (kissat_backtrack_without_updating_phases s new_level).trail
      = s.trail.take (FRAME s (new_level + 1)).trail ++
        (s.trail.drop (FRAME s (new_level + 1)).trail).filter
          (fun lit => decide ((s.assigned (IDX lit)).level ≤ new_level)) ∧
    (∀ lit ∈ s.trail.drop (FRAME s (new_level + 1)).trail,
      new_level < (s.assigned (IDX lit)).level →
        (kissat_backtrack_without_updating_phases s new_level).values lit = 0 ∧
        (kissat_backtrack_without_updating_phases s new_level).values (NOT lit) = 0) ∧
    (∀ x, (∀ lit ∈ s.trail.drop (FRAME s (new_level + 1)).trail,
        new_level < (s.assigned (IDX lit)).level → x ≠ lit ∧ x ≠ NOT lit) →
      (kissat_backtrack_without_updating_phases s new_level).values x = s.values x) ∧
    (kissat_backtrack_without_updating_phases s new_level).unassigned
      = s.unassigned +
        ((s.trail.drop (FRAME s (new_level + 1)).trail).filter
          (fun lit => decide (new_level < (s.assigned (IDX lit)).level))).length ∧
    (∀ i, ((kissat_backtrack_without_updating_phases s new_level).assigned i).level
      = (s.assigned i).level) := by
  obtain ⟨back, hb, r, hr, e⟩ := backtrack_unfold s new_level h
  rw [e]
  simp only []
  generalize hn : (FRAME s (new_level + 1)).trail = n at hr ⊢
  by_cases hle : n ≤ s.trail.length
  · obtain ⟨t1, t2, t3⟩ := backtrack_loop_trail back hb new_level
      (fun i => (s.assigned i).level) (s.trail.length - n) n n
      { s with frames := s.frames.take (new_level + 1) } (le_refl _)
      (by simp only []; omega) (fun _ => rfl)
    obtain ⟨-, v2, v3, v4⟩ := backtrack_loop_values back hb new_level
      (fun i => (s.assigned i).level) (s.trail.length - n) n n
      { s with frames := s.frames.take (new_level + 1) } (le_refl _)
      (by simp only []; omega) (fun _ => rfl)
    rw [← hr] at t1 t2 t3 v2 v3 v4
    exact ⟨t2, v2, v3, v4, t3⟩
  · have h0 : s.trail.length - n = 0 := by omega
    rw [h0] at hr
    simp only [backtrack_loop] at hr
    subst hr
    have hd : s.trail.drop n = [] := List.drop_of_length_le (by omega)
    have ht : s.trail.take n = s.trail := List.take_of_length_le (by omega)
    simp only [hd, ht, List.filter_nil, List.length_nil, List.not_mem_nil, add_zero,
      false_implies, implies_true, and_true, true_and, List.take_take, min_self,
      List.append_nil]

/-- C1: for every state and every `new_level < level`, backtracking leaves the
first `frame[new_level+1].trail` trail entries unchanged; the rest of the new
trail is the old suffix filtered to the literals of recorded level
`<= new_level`, in their order; every suffix literal of a higher level has both
polarity values cleared; `unassigned` grows by the number of those literals;
recorded levels do not change.  The mode (`stable`) is arbitrary. -/
theorem backtrack_keeps_prefix_filters_suffix (s : kissat D) (new_level : Nat)
    (h : new_level < s.level) :
    (kissat_backtrack_without_updating_phases s new_level).trail.take
        (FRAME s (new_level + 1)).trail
      = s.trail.take (FRAME s (new_level + 1)).trail ∧
    (kissat_backtrack_without_updating_phases s new_level).trail.drop
        (FRAME s (new_level + 1)).trail
      = (s.trail.drop (FRAME s (new_level + 1)).trail).filter
          (fun lit => decide ((s.assigned (IDX lit)).level ≤ new_level)) ∧
    (∀ lit ∈ s.trail.drop (FRAME s (new_level + 1)).trail,
      new_level < (s.assigned (IDX lit)).level →
        (kissat_backtrack_without_updating_phases s new_level).values lit = 0 ∧
        (kissat_backtrack_without_updating_phases s new_level).values (NOT lit) = 0) ∧
    (kissat_backtrack_without_updating_phases s new_level).unassigned
      = s.unassigned +
        ((s.trail.drop (FRAME s (new_level + 1)).trail).filter
          (fun lit => decide (new_level < (s.assigned (IDX lit)).level))).length ∧
    (∀ i, ((kissat_backtrack_without_updating_phases s new_level).assigned i).level
      = (s.assigned i).level) := by
  obtain ⟨t, v2, -, v4, lv⟩ := backtrack_result s new_level (by omega)
  refine ⟨?_, ?_, v2, v4, lv⟩
  · rw [t]
    by_cases hle : (FRAME s (new_level + 1)).trail ≤ s.trail.length
    · rw [List.take_append_of_le_length (by simp [hle]), List.take_take, min_self]
    · have hd : s.trail.drop (FRAME s (new_level + 1)).trail = [] :=
        List.drop_of_length_le (by omega)
      rw [hd, List.filter_nil, List.append_nil, List.take_take, min_self]
  · rw [t]
    by_cases hle : (FRAME s (new_level + 1)).trail ≤ s.trail.length
    · rw [List.drop_append_of_le_length (by simp [hle])]
      have : List.drop (FRAME s (new_level + 1)).trail
          (List.take (FRAME s (new_level + 1)).trail s.trail) = [] := by
        apply List.drop_of_length_le; simp
      rw [this, List.nil_append]
    · have hd : s.trail.drop (FRAME s (new_level + 1)).trail = [] :=
        List.drop_of_length_le (by omega)
      have ht : s.trail.take (FRAME s (new_level + 1)).trail = s.trail :=
        List.take_of_length_le (by omega)
      rw [hd, List.filter_nil, List.append_nil, ht, hd]

/-- Witness of C1 on a trail with an out-of-order literal: backtracking from
level 3 to level 1 keeps the decision `0` and the out-of-order literal `6`,
clears the literals `2` and `4`, and frees two variables. -/
theorem backtrack_keeps_prefix_filters_suffix_witness :
    (kissat_backtrack_without_updating_phases out_of_order 1).trail.take 1 = [0] ∧
    (kissat_backtrack_without_updating_phases out_of_order 1).trail.drop 1 = [6] ∧
    (kissat_backtrack_without_updating_phases out_of_order 1).values 2 = 0 ∧
    (kissat_backtrack_without_updating_phases out_of_order 1).values 5 = 0 ∧
    (kissat_backtrack_without_updating_phases out_of_order 1).unassigned = 3 := by
  have h := backtrack_keeps_prefix_filters_suffix out_of_order 1 (by decide)
  refine ⟨h.1, h.2.1, (h.2.2.1 2 (by decide) (by decide)).1,
    (h.2.2.1 4 (by decide) (by decide)).2, h.2.2.2.1⟩

/-- Length of the rewritten trail when the frame position lies in the trail. -/
theorem backtrack_trail_length (s : kissat D) (new_level : Nat) (h : new_level < s.level)
    (hle : (FRAME s (new_level + 1)).trail ≤ s.trail.length) :
    (kissat_backtrack_without_updating_phases s new_level).trail.length =
      (FRAME s (new_level + 1)).trail +
        ((s.trail.drop (FRAME s (new_level + 1)).trail).filter
          (fun lit => decide ((s.assigned (IDX lit)).level ≤ new_level))).length := by
  obtain ⟨t, -⟩ := backtrack_result s new_level (by omega)
  rw [t, List.length_append, List.length_take, min_eq_left hle]

/-- Level and propagation cursor after backtracking. -/
theorem backtrack_level_propagate (s : kissat D) (new_level : Nat) (h : new_level < s.level) :
    (kissat_backtrack_without_updating_phases s new_level).level = new_level ∧
    (kissat_backtrack_without_updating_phases s new_level).propagate =
      (FRAME s (new_level + 1)).trail := by
  obtain ⟨back, -, r, -, e⟩ := backtrack_unfold s new_level (by omega)
  rw [e]
  exact ⟨rfl, rfl⟩

/-- C2, as the code has it: after backtracking to `new_level < level` the level
is `new_level` and the propagation cursor is `frame[new_level+1].trail`, the
start of the rewritten suffix.  When that position lies in the old trail the
cursor is at most the length of the rewritten trail, and it equals that length
exactly when no suffix literal was kept. -/
theorem backtrack_cursor_at_frame_start (s : kissat D) (new_level : Nat)
    (h : new_level < s.level) :
    (kissat_backtrack_without_updating_phases s new_level).level = new_level ∧
    (kissat_backtrack_without_updating_phases s new_level).propagate =
      (FRAME s (new_level + 1)).trail ∧
    ((FRAME s (new_level + 1)).trail ≤ s.trail.length →
      (kissat_backtrack_without_updating_phases s new_level).propagate ≤
        (kissat_backtrack_without_updating_phases s new_level).trail.length ∧
      ((kissat_backtrack_without_updating_phases s new_level).propagate =
          (kissat_backtrack_without_updating_phases s new_level).trail.length ↔
        ∀ lit ∈ s.trail.drop (FRAME s (new_level + 1)).trail,
          new_level < (s.assigned (IDX lit)).level)) := by
  obtain ⟨h1, h2⟩ := backtrack_level_propagate s new_level h
  refine ⟨h1, h2, fun hle => ?_⟩
  rw [h2, backtrack_trail_length s new_level h hle]
  refine ⟨by omega, ?_⟩
  constructor
  · intro e lit hl
    have e0 : ((s.trail.drop (FRAME s (new_level + 1)).trail).filter
        (fun lit => decide ((s.assigned (IDX lit)).level ≤ new_level))) = [] := by
      apply List.eq_nil_of_length_eq_zero; omega
    have := (List.filter_eq_nil_iff.1 e0) lit hl
    simpa using this
  · intro hall
    have e0 : ((s.trail.drop (FRAME s (new_level + 1)).trail).filter
        (fun lit => decide ((s.assigned (IDX lit)).level ≤ new_level))) = [] := by
      apply List.filter_eq_nil_iff.2
      intro lit hl
      have := hall lit hl
      simp; omega
    rw [e0]; simp

/-- Witness of the amended C2 on the trail with an out-of-order literal: the
cursor is 1, the rewritten trail has length 2. -/
theorem backtrack_cursor_at_frame_start_witness :
    (kissat_backtrack_without_updating_phases out_of_order 1).level = 1 ∧
    (kissat_backtrack_without_updating_phases out_of_order 1).propagate = 1 ∧
    (kissat_backtrack_without_updating_phases out_of_order 1).propagate ≤
      (kissat_backtrack_without_updating_phases out_of_order 1).trail.length := by
  have h := backtrack_cursor_at_frame_start out_of_order 1 (by decide)
  exact ⟨h.1, h.2.1, (h.2.2 (by decide)).1⟩

/-- Counterexample to C2 as stated: on the trail `[0, 2, 4, 6]` whose last
literal has recorded level 1, backtracking from level 3 to level 1 rewrites the
trail to `[0, 6]` (length 2) and leaves the propagation cursor at index 1. -/
theorem backtrack_cursor_not_trail_end :
    1 < out_of_order.level ∧
    (kissat_backtrack_without_updating_phases out_of_order 1).trail = [0, 6] ∧
    (kissat_backtrack_without_updating_phases out_of_order 1).propagate = 1 ∧
    (kissat_backtrack_without_updating_phases out_of_order 1).propagate ≠
      (kissat_backtrack_without_updating_phases out_of_order 1).trail.length := by
  refine ⟨by decide, by decide, by decide, by decide⟩

/-! ## Backtracking on a trail without out-of-order literals -/

theorem IDX_NOT (lit : Nat) : IDX (NOT lit) = IDX lit := by
  unfold IDX NOT
  split_ifs <;> omega

/-- Frame positions are monotone along any chain of levels. -/
theorem frames_monotone_chain (s : kissat D) (hm : frames_monotone s) (a : Nat) :
    ∀ b, a ≤ b → b ≤ s.level → (FRAME s a).trail ≤ (FRAME s b).trail := by
  intro b hab
  induction b, hab using Nat.le_induction with
  | base => intro _; exact le_refl _
  | succ b _ ih =>
    intro hb
    exact le_trans (ih (by omega)) (hm.1 b (by omega))

/-- Without out-of-order literals the literals from `frame[L+1].trail` on have a
level above `L`. -/
theorem suffix_levels_above (s : kissat D) (hm : frames_monotone s)
    (hc : levels_match_frames s) (L : Nat) (hL : L < s.level) :
    ∀ lit ∈ s.trail.drop (FRAME s (L + 1)).trail, L < (s.assigned (IDX lit)).level := by
  intro lit hl
  obtain ⟨i, hi, e⟩ := List.mem_iff_getElem.1 hl
  rw [List.getElem_drop] at e
  rw [List.length_drop] at hi
  have hi2 : (FRAME s (L + 1)).trail + i < s.trail.length := by omega
  obtain ⟨l, hl1, ⟨-, hl3⟩, hl4⟩ := hc _ hi2
  rw [List.getD_eq_getElem _ _ hi2, e] at hl4
  rw [hl4]
  by_contra hcon
  have hlt : l < s.level := by omega
  have := frames_monotone_chain s hm (l + 1) (L + 1) (by omega) (by omega)
  simp only [frame_end, hlt, if_true] at hl3
  omega

/-- Without out-of-order literals the literals before `frame[L+1].trail` have a
level of at most `L`. -/
theorem prefix_levels_below (s : kissat D) (hm : frames_monotone s)
    (hc : levels_match_frames s) (L : Nat) :
    ∀ lit ∈ s.trail.take (FRAME s (L + 1)).trail, (s.assigned (IDX lit)).level ≤ L := by
  intro lit hl
  obtain ⟨i, hi, e⟩ := List.mem_iff_getElem.1 hl
  rw [List.getElem_take] at e
  rw [List.length_take] at hi
  have hi2 : i < s.trail.length := by omega
  obtain ⟨l, hl1, ⟨hl2, -⟩, hl4⟩ := hc _ hi2
  rw [List.getD_eq_getElem _ _ hi2, e] at hl4
  rw [hl4]
  by_contra hcon
  have := frames_monotone_chain s hm (L + 1) l (by omega) hl1
  omega

/-- C3: on a state with monotone frames and without out-of-order literals,
`backtrack(L)` for `L < level` truncates the trail to its first
`frame[L+1].trail` entries (the entries of the levels `<= L` stay in place),
leaves the cursor at that position, clears both values of every trail literal
of a level above `L`, changes no other value (in particular the values of the
trail literals of levels `<= L`), and frees as many variables as the trail
loses entries. -/
theorem backtrack_in_order (s : kissat D) (L : Nat) (hL : L < s.level)
    (hm : frames_monotone s) (hc : levels_match_frames s) :
    (kissat_backtrack_without_updating_phases s L).trail
      = s.trail.take (FRAME s (L + 1)).trail ∧
    (kissat_backtrack_without_updating_phases s L).trail.length = (FRAME s (L + 1)).trail ∧
    (kissat_backtrack_without_updating_phases s L).propagate = (FRAME s (L + 1)).trail ∧
    (kissat_backtrack_without_updating_phases s L).level = L ∧
    (∀ lit ∈ s.trail, L < (s.assigned (IDX lit)).level →
      (kissat_backtrack_without_updating_phases s L).values lit = 0 ∧
      (kissat_backtrack_without_updating_phases s L).values (NOT lit) = 0) ∧
    (∀ x, (∀ lit ∈ s.trail, L < (s.assigned (IDX lit)).level → x ≠ lit ∧ x ≠ NOT lit) →
      (kissat_backtrack_without_updating_phases s L).values x = s.values x) ∧
    (∀ lit ∈ s.trail, (s.assigned (IDX lit)).level ≤ L →
      lit ∈ (kissat_backtrack_without_updating_phases s L).trail ∧
      (kissat_backtrack_without_updating_phases s L).values lit = s.values lit ∧
      (kissat_backtrack_without_updating_phases s L).values (NOT lit) = s.values (NOT lit)) ∧
    (kissat_backtrack_without_updating_phases s L).unassigned
      = s.unassigned + (s.trail.length - (FRAME s (L + 1)).trail) := by
  have hle : (FRAME s (L + 1)).trail ≤ s.trail.length :=
    le_trans (frames_monotone_chain s hm (L + 1) s.level (by omega) (le_refl _)) hm.2
  have hsuf := suffix_levels_above s hm hc L hL
  have hpre := prefix_levels_below s hm hc L
  obtain ⟨c1, c3, c5, c4, -⟩ := backtrack_result s L (by omega)
  obtain ⟨d1, d2⟩ := backtrack_level_propagate s L hL
  have hnone : (s.trail.drop (FRAME s (L + 1)).trail).filter
      (fun lit => decide ((s.assigned (IDX lit)).level ≤ L)) = [] := by
    apply List.filter_eq_nil_iff.2
    intro lit hl
    have := hsuf lit hl
    simp; omega
  have hall : (s.trail.drop (FRAME s (L + 1)).trail).filter
      (fun lit => decide (L < (s.assigned (IDX lit)).level))
        = s.trail.drop (FRAME s (L + 1)).trail := by
    apply List.filter_eq_self.2
    intro lit hl
    simpa using hsuf lit hl
  have htrail : (kissat_backtrack_without_updating_phases s L).trail
      = s.trail.take (FRAME s (L + 1)).trail := by
    rw [c1, hnone, List.append_nil]
  have hmem : ∀ lit ∈ s.trail, L < (s.assigned (IDX lit)).level →
      lit ∈ s.trail.drop (FRAME s (L + 1)).trail := by
    intro lit hl hlt
    rw [← List.take_append_drop (FRAME s (L + 1)).trail s.trail] at hl
    rcases List.mem_append.1 hl with h | h
    · have := hpre lit h; omega
    · exact h
  have hvals : ∀ x, (∀ lit ∈ s.trail, L < (s.assigned (IDX lit)).level →
      x ≠ lit ∧ x ≠ NOT lit) →
      (kissat_backtrack_without_updating_phases s L).values x = s.values x :=
    fun x hx => c5 x (fun l hl hlt => hx l (List.mem_of_mem_drop hl) hlt)
  refine ⟨htrail, ?_, d2, d1, ?_, hvals, ?_, ?_⟩
  · rw [htrail, List.length_take, min_eq_left hle]
  · intro lit hl hlt
    exact c3 lit (hmem lit hl hlt) hlt
  · intro lit hl hlv
    have hne : ∀ l2 ∈ s.trail, L < (s.assigned (IDX l2)).level → IDX lit ≠ IDX l2 := by
      intro l2 _ h2 e
      rw [e] at hlv; omega
    refine ⟨?_, ?_, ?_⟩
    · rw [htrail]
      rw [← List.take_append_drop (FRAME s (L + 1)).trail s.trail] at hl
      rcases List.mem_append.1 hl with h | h
      · exact h
      · have := hsuf lit h; omega
    · apply hvals
      intro l2 hl2 h2
      have := hne l2 hl2 h2
      constructor
      · intro e; exact this (by rw [e])
      · intro e; exact this (by rw [e, IDX_NOT])
    · apply hvals
      intro l2 hl2 h2
      have := hne l2 hl2 h2
      constructor
      · intro e; exact this (by rw [← IDX_NOT lit, e])
      · intro e; exact this (by rw [← IDX_NOT lit, e, IDX_NOT])
  · rw [c4, hall, List.length_drop]

/-- Witness of C3, the scenario of the spec: five variables, decisions at
levels 1, 2, 3 and no propagation.  `backtrack(1)` clears the variables decided
at levels 2 and 3, keeps the decision of level 1 assigned and in place, and
leaves the cursor at trail index 1. -/
theorem backtrack_in_order_witness :
    (kissat_backtrack_without_updating_phases three_decisions 1).trail = [0] ∧
    (kissat_backtrack_without_updating_phases three_decisions 1).propagate = 1 ∧
    (kissat_backtrack_without_updating_phases three_decisions 1).level = 1 ∧
    ((kissat_backtrack_without_updating_phases three_decisions 1).values 2 = 0 ∧
     (kissat_backtrack_without_updating_phases three_decisions 1).values 3 = 0) ∧
    ((kissat_backtrack_without_updating_phases three_decisions 1).values 4 = 0 ∧
     (kissat_backtrack_without_updating_phases three_decisions 1).values 5 = 0) ∧
    (kissat_backtrack_without_updating_phases three_decisions 1).values 0 = 1 ∧
    (kissat_backtrack_without_updating_phases three_decisions 1).values 1 = -1 ∧
    (kissat_backtrack_without_updating_phases three_decisions 1).unassigned = 4 := by
  have h := backtrack_in_order three_decisions 1 (by decide) (by decide) (by decide)
  obtain ⟨h1, -, h3, h4, h5, -, h7, h8⟩ := h
  exact ⟨h1, h3, h4, h5 2 (by decide) (by decide), h5 4 (by decide) (by decide),
    (h7 0 (by decide) (by decide)).2.1, (h7 0 (by decide) (by decide)).2.2, h8⟩

/-! ## The trail-position invariant -/

theorem getD_set_self (l : List Nat) (q a d : Nat) (h : q < l.length) :
    (l.set q a).getD q d = a := by
  simp [List.getD_eq_getElem?_getD, h]

theorem getD_set_ne (l : List Nat) (q a d i : Nat) (h : i ≠ q) :
    (l.set q a).getD i d = l.getD i d := by
  simp [List.getD_eq_getElem?_getD, List.getElem?_set_ne (Ne.symm h)]

theorem getD_take (l : List Nat) (q d i : Nat) (h : i < q) :
    (l.take q).getD i d = l.getD i d := by
  simp [List.getD_eq_getElem?_getD, List.getElem?_take, h]

theorem backtrack_loop_asserts_succ (chk : Nat → Nat → kissat D → Bool)
    (back : kissat D → Nat → kissat D) (new_level n p q : Nat) (s : kissat D) :
    backtrack_loop_asserts chk back new_level (n + 1) p q s =
      (chk p q s && backtrack_loop_asserts chk back new_level n (p + 1)
        (backtrack_step back new_level p q s).2 (backtrack_step back new_level p q s).1) := rfl

/-- Loop invariant for the trail positions: the cells below `q` and from `p` on
hold literals whose recorded position is their index; `old` is the position
every variable had when the loop started. -/
theorem backtrack_loop_positions (back : kissat D → Nat → kissat D)
    (hb : ∀ s lit, same_core s (back s lit)) (new_level : Nat) (old : Nat → Nat) :
    ∀ (n p q : Nat) (s : kissat D), q ≤ p → p + n = s.trail.length →
      (∀ i, i < q ∨ (p ≤ i ∧ i < s.trail.length) →
        (s.assigned (IDX (s.trail.getD i 0))).trail = i) →
      (∀ i, i < q → i ≤ old (IDX (s.trail.getD i 0))) →
      (∀ i, p ≤ i → i < s.trail.length → old (IDX (s.trail.getD i 0)) = i) →
      (∀ i < (backtrack_loop back new_level n p q s).2,
        ((backtrack_loop back new_level n p q s).1.assigned
            (IDX ((backtrack_loop back new_level n p q s).1.trail.getD i 0))).trail = i ∧
        i ≤ old (IDX ((backtrack_loop back new_level n p q s).1.trail.getD i 0))) ∧
      (backtrack_loop back new_level n p q s).2 ≤
        (backtrack_loop back new_level n p q s).1.trail.length ∧
      backtrack_loop_asserts (assert_new_trail new_level) back new_level n p q s = true := by
  intro n
  induction n with
  | zero =>
    intro p q s hqp hlen hinv hold _
    simp only [backtrack_loop, backtrack_loop_asserts, and_true]
    exact ⟨fun i hi => ⟨hinv i (Or.inl hi), hold i hi⟩, by omega⟩
  | succ n ih =>
    intro p q s hqp hlen hinv hold hold2
    have hp : p < s.trail.length := by omega
    rw [backtrack_loop_succ, backtrack_loop_asserts_succ]
    have hpos : (s.assigned (IDX (s.trail.getD p 0))).trail = p := hinv p (Or.inr ⟨le_refl _, hp⟩)
    by_cases hk : (s.assigned (IDX (s.trail.getD p 0))).level ≤ new_level
    · have hchk : assert_new_trail new_level p q s = true := by
        simp only [assert_new_trail, hk, if_true, hpos, decide_eq_true_eq]
        exact hqp
      obtain ⟨e2, et, ea, -, -⟩ := backtrack_step_keep back new_level p q s hk
      generalize backtrack_step back new_level p q s = r at e2 et ea ⊢
      have hne : ∀ i, i ≠ p → (i < q ∨ (p ≤ i ∧ i < s.trail.length)) →
          IDX (s.trail.getD i 0) ≠ IDX (s.trail.getD p 0) := by
        intro i hip hi e
        have := hinv i hi
        rw [e, hpos] at this
        exact hip this.symm
      have hq : q < s.trail.length := by omega
      obtain ⟨h1, h2, h3⟩ := ih (p + 1) r.2 r.1 (by omega) (by rw [et]; simp; omega)
        (by
          intro i hi
          rw [et, ea]
          by_cases hiq : i = q
          · subst hiq
            rw [getD_set_self _ _ _ _ hq]
            simp
          · rw [getD_set_ne _ _ _ _ _ hiq]
            have hi2 : i < q ∨ (p ≤ i ∧ i < s.trail.length) := by
              rw [e2, et] at hi
              simp only [List.length_set] at hi
              omega
            have hip : i ≠ p := by rw [e2] at hi; omega
            rw [Function.update_noteq (hne i hip hi2)]
            exact hinv i hi2)
        (by
          intro i hi
          rw [et]
          by_cases hiq : i = q
          · subst hiq
            rw [getD_set_self _ _ _ _ hq, hold2 p (le_refl _) hp]
            exact hqp
          · rw [getD_set_ne _ _ _ _ _ hiq]
            exact hold i (by rw [e2] at hi; omega))
        (by
          intro i hi1 hi2
          rw [et] at hi2 ⊢
          simp only [List.length_set] at hi2
          rw [getD_set_ne _ _ _ _ _ (by omega)]
          exact hold2 i (by omega) hi2)
      rw [hchk, h3]
      exact ⟨h1, h2, rfl⟩
    · have hchk : assert_new_trail new_level p q s = true := by
        simp only [assert_new_trail, hk, if_false]
      obtain ⟨e2, et, ea, -, -⟩ := backtrack_step_drop back hb new_level p q s hk
      generalize backtrack_step back new_level p q s = r at e2 et ea ⊢
      obtain ⟨h1, h2, h3⟩ := ih (p + 1) r.2 r.1 (by omega) (by rw [et]; omega)
        (by
          intro i hi
          rw [et, ea]
          rw [e2, et] at hi
          exact hinv i (by omega))
        (by
          intro i hi
          rw [et]
          exact hold i (by rw [e2] at hi; exact hi))
        (by
          intro i hi1 hi2
          rw [et] at hi2 ⊢
          exact hold2 i (by omega) hi2)
      rw [hchk, h3]
      exact ⟨h1, h2, rfl⟩

/-- C4: if every literal at trail index `i` has `assigned[IDX(lit)].trail = i`
before `kissat_backtrack_without_updating_phases`, the same holds for the
resulting trail; every literal of the resulting trail sits at an index that is
at most its old recorded position; and the assertion `new_trail <= a->trail`
holds in every iteration of the loop.  (The precondition already excludes a
variable occurring twice on the trail.) -/
theorem backtrack_preserves_trail_positions (s : kissat D) (new_level : Nat)
    (hinv : ∀ i < s.trail.length, (s.assigned (IDX (s.trail.getD i 0))).trail = i) :
    (∀ i < (kissat_backtrack_without_updating_phases s new_level).trail.length,
      ((kissat_backtrack_without_updating_phases s new_level).assigned
        (IDX ((kissat_backtrack_without_updating_phases s new_level).trail.getD i 0))).trail
          = i ∧
      i ≤ (s.assigned
        (IDX ((kissat_backtrack_without_updating_phases s new_level).trail.getD i 0))).trail) ∧
    kissat_backtrack_asserts assert_new_trail s new_level = true := by
  by_cases hlv : s.level = new_level
  · simp only [kissat_backtrack_without_updating_phases, kissat_backtrack_asserts, hlv,
      if_true, and_true]
    intro i hi
    exact ⟨hinv i hi, by rw [hinv i hi]⟩
  · have key : ∀ back : kissat D → Nat → kissat D, (∀ t lit, same_core t (back t lit)) →
        ∀ r : kissat D × Nat,
        r = backtrack_loop back new_level
          (s.trail.length - (FRAME s (new_level + 1)).trail)
          (FRAME s (new_level + 1)).trail (FRAME s (new_level + 1)).trail
          { s with frames := s.frames.take (new_level + 1) } →
        (∀ i < (r.1.trail.take r.2).length,
          (r.1.assigned (IDX ((r.1.trail.take r.2).getD i 0))).trail = i ∧
          i ≤ (s.assigned (IDX ((r.1.trail.take r.2).getD i 0))).trail) ∧
        backtrack_loop_asserts (assert_new_trail new_level) back new_level
          (s.trail.length - (FRAME s (new_level + 1)).trail)
          (FRAME s (new_level + 1)).trail (FRAME s (new_level + 1)).trail
          { s with frames := s.frames.take (new_level + 1) } = true := by
      intro back hb r hr
      generalize hn : (FRAME s (new_level + 1)).trail = n at hr ⊢
      by_cases hle : n ≤ s.trail.length
      · obtain ⟨h1, h2, h3⟩ := backtrack_loop_positions back hb new_level
          (fun v => (s.assigned v).trail) (s.trail.length - n) n n
          { s with frames := s.frames.take (new_level + 1) } (le_refl _)
          (by simp only []; omega)
          (by
            intro i hi
            exact hinv i (by simp only [] at hi; omega))
          (by
            intro i hi
            simp only []
            rw [hinv i (by omega)])
          (by
            intro i _ hi
            exact hinv i hi)
        rw [← hr] at h1 h2
        refine ⟨?_, h3⟩
        intro i hi
        rw [List.length_take, min_eq_left h2] at hi
        rw [getD_take _ _ _ _ hi]
        exact h1 i hi
      · have h0 : s.trail.length - n = 0 := by omega
        rw [h0] at hr ⊢
        simp only [backtrack_loop] at hr
        subst hr
        simp only [backtrack_loop_asserts, and_true]
        intro i hi
        rw [List.take_of_length_le (by omega)] at hi ⊢
        exact ⟨hinv i hi, by rw [hinv i hi]⟩
    cases hs : s.stable
    · have := key add_unassigned_variable_back_to_queue same_core_queue _ rfl
      simpa [kissat_backtrack_without_updating_phases, kissat_backtrack_asserts, hlv, hs]
        using this
    · have := key add_unassigned_variable_back_to_heap same_core_heap _ rfl
      simpa [kissat_backtrack_without_updating_phases, kissat_backtrack_asserts, hlv, hs]
        using this

/-- Witness of C4 on the trail with an out-of-order literal: the literal `6`
moves from index 3 to index 1 and its recorded position follows. -/
theorem backtrack_preserves_trail_positions_witness :
    ((kissat_backtrack_without_updating_phases out_of_order 1).assigned
      (IDX ((kissat_backtrack_without_updating_phases out_of_order 1).trail.getD 1 0))).trail
        = 1 ∧
    1 ≤ (out_of_order.assigned
      (IDX ((kissat_backtrack_without_updating_phases out_of_order 1).trail.getD 1 0))).trail ∧
    kissat_backtrack_asserts assert_new_trail out_of_order 1 = true := by
  have h := backtrack_preserves_trail_positions out_of_order 1 (by decide)
  exact ⟨(h.1 1 (by decide)).1, (h.1 1 (by decide)).2, h.2⟩

/-! ## restart.c: the restart test and trail reuse -/

/-- C5: `kissat_restarting` returns true exactly when the restart option is
enabled, the level is positive, the conflict count has reached the limit, and
either the solver is in stable mode and the reluctant trigger reports true, or
it is in focused mode and `((100 + restartmargin) / 100) * slow <= fast`, each
operation and the comparison being those of `double`. -/
theorem restarting_iff (E : externals D) (s : kissat D) :
    kissat_restarting E s = true ↔
      s.opt_restart = true ∧ 0 < s.level ∧ s.limits_restart_conflicts ≤ s.conflicts ∧
      ((s.stable = true ∧ kissat_reluctant_triggered s = true) ∨
       (s.stable = false ∧
         E.le (E.mul (E.div (E.add (E.lit 100) (E.of_int s.opt_restartmargin)) (E.lit 100))
           s.slow_glue) s.fast_glue = true)) := by
  unfold kissat_restarting
  cases ho : s.opt_restart
  · simp
  · by_cases hl : s.level = 0
    · simp [hl]
    · by_cases hc : s.conflicts < s.limits_restart_conflicts
      · simp [hl, hc]
      · have hl2 : 0 < s.level := Nat.pos_of_ne_zero hl
        have hc2 : s.limits_restart_conflicts ≤ s.conflicts := by omega
        cases hs : s.stable <;> simp [hl, hc, hl2, hc2]

/-- The scenario of C5 in IEEE arithmetic: with fast glue `3`, slow glue `4`
and margin `10` the limit is the double `4.4` and no restart is due; with fast
glue `4.5` a restart is due.  At margin `20`, slow glue `1.0` and the fast glue
the double `1.2` a restart is due although `1.2` exceeds that double, and at
margin `10`, slow glue `0.875` and the fast glue the double `0.9625` none is
due although `1.1 * 0.875 = 0.9625`. -/
theorem restarting_iff_witness :
    ieee_externals.mul
      (ieee_externals.div (ieee_externals.add (ieee_externals.lit 100)
        (ieee_externals.of_int (glue_ieee 3).opt_restartmargin)) (ieee_externals.lit 100))
      (glue_ieee 3).slow_glue = round_double (44 / 10) ∧
    kissat_restarting ieee_externals (glue_ieee 3) = false ∧
    kissat_restarting ieee_externals (glue_ieee (9 / 2)) = true ∧
    kissat_restarting ieee_externals (glue_rounding 20 1 (12 / 10)) = true ∧
    kissat_restarting ieee_externals (glue_rounding 10 (7 / 8) (9625 / 10000)) = false := by
  refine ⟨by decide!, ?_, ?_, by decide!, by decide!⟩
  · rw [Bool.eq_false_iff]
    intro h
    rcases ((restarting_iff ieee_externals (glue_ieee 3)).1 h).2.2.2 with h1 | h1
    · exact absurd h1.1 (by decide)
    · exact absurd h1.2 (by decide!)
  · exact (restarting_iff ieee_externals (glue_ieee (9 / 2))).2
      ⟨rfl, by decide, by decide, Or.inr ⟨rfl, by decide!⟩⟩

theorem reuse_loop_spec {α : Type} [LinearOrder α] (score : Nat → α) (limit : α) :
    ∀ n res, res ≤ reuse_loop score limit n res ∧
      reuse_loop score limit n res ≤ res + n ∧
      (∀ k, res < k → k ≤ reuse_loop score limit n res → limit < score k) ∧
      (reuse_loop score limit n res < res + n →
        score (reuse_loop score limit n res + 1) ≤ limit) := by
  intro n
  induction n with
  | zero =>
    intro res
    simp only [reuse_loop]
    exact ⟨le_refl _, le_refl _, fun k h1 h2 => absurd h2 (by omega),
      fun h => absurd h (by omega)⟩
  | succ n ih =>
    intro res
    simp only [reuse_loop]
    by_cases hs : score (res + 1) ≤ limit
    · rw [if_pos hs]
      exact ⟨le_refl _, by omega, fun k h1 h2 => absurd h2 (by omega), fun _ => hs⟩
    · rw [if_neg hs]
      obtain ⟨h1, h2, h3, h4⟩ := ih (res + 1)
      refine ⟨by omega, by omega, ?_, fun h => h4 (by omega)⟩
      intro k hk1 hk2
      by_cases hk : k = res + 1
      · subst hk; exact lt_of_not_le hs
      · exact h3 k (by omega) hk2

theorem reuse_loop_largest {α : Type} [LinearOrder α] (score : Nat → α) (limit : α)
    (level : Nat) : largest_reusable_level score limit level (reuse_loop score limit level 0) := by
  obtain ⟨-, h2, h3, h4⟩ := reuse_loop_spec score limit level 0
  refine ⟨by omega, fun k hk1 hk2 => h3 k (by omega) hk2, fun h => h4 (by omega), ?_⟩
  intro r2 hr2 hall
  by_contra hcon
  have hlt : reuse_loop score limit level 0 < r2 := by omega
  have := h4 (by omega)
  exact absurd (hall _ (by omega) hlt) (not_lt_of_le this)

/-- The level `reuse_trail` returns and the state it leaves. -/
theorem reuse_trail_result [LinearOrder D] (E : externals D) (s : kissat D) :
    (reuse_trail E s).1 =
      (if s.opt_restartreusetrail then
        (if s.stable then reuse_stable_trail E s else reuse_focused_trail E s) else 0) ∧
    (reuse_trail E s).2 =
      (if (reuse_trail E s).1 = 0 then s
       else { s with
              restarts_reused_trails := s.restarts_reused_trails + 1
              restarts_reused_levels := s.restarts_reused_levels + (reuse_trail E s).1 }) := by
  cases ho : s.opt_restartreusetrail
  · simp [reuse_trail, ho]
  · simp only [reuse_trail, ho]
    split_ifs <;> simp_all

theorem reuse_trail_le [LinearOrder D] (E : externals D) (s : kissat D) :
    (reuse_trail E s).1 ≤ s.level := by
  rw [(reuse_trail_result E s).1]
  split_ifs
  · exact (reuse_loop_largest _ _ _).1
  · exact (reuse_loop_largest _ _ _).1
  · exact Nat.zero_le _

/-- C6: with trail reuse enabled `reuse_trail` returns the largest reusable
level: all decision variables of the levels `1 .. r` have a score (heap score
of the active heuristic in stable mode, queue stamp in focused mode) strictly
above that of the next decision variable, the decision variable of level
`r + 1` (if `r < level`) has a score `<=` that limit, and no larger prefix
qualifies. -/
theorem reuse_trail_returns_largest_level [LinearOrder D] (E : externals D) (s : kissat D)
    (h : s.opt_restartreusetrail = true) :
    (s.stable = true →
      largest_reusable_level
        (fun k => kissat_get_heap_score (kissat_get_scores s) (IDX (FRAME s k).decision))
        (kissat_get_heap_score (kissat_get_scores s) (E.kissat_next_decision_variable s))
        s.level (reuse_trail E s).1) ∧
    (s.stable = false →
      largest_reusable_level
        (fun k => (s.links (IDX (FRAME s k).decision)).stamp)
        (s.links (E.kissat_next_decision_variable s)).stamp
        s.level (reuse_trail E s).1) := by
  have e := (reuse_trail_result E s).1
  rw [h, if_pos rfl] at e
  constructor
  · intro hs
    rw [e, hs, if_pos rfl]
    exact reuse_loop_largest _ _ _
  · intro hs
    rw [e, hs, if_neg (by simp)]
    exact reuse_loop_largest _ _ _

/-- Witness of C6: the decision variables of levels 1 and 2 have scores 9 and 7
above the limit 5 of variable 3; the decision variable of level 3 has the
score 5, a tie, and does not extend the reused prefix: the result is 2. -/
theorem reuse_trail_returns_largest_level_witness :
    (reuse_trail example_externals reuse_scenario).1 = 2 ∧
    largest_reusable_level
      (fun k => kissat_get_heap_score (kissat_get_scores reuse_scenario)
        (IDX (FRAME reuse_scenario k).decision))
      (kissat_get_heap_score (kissat_get_scores reuse_scenario)
        (example_externals.kissat_next_decision_variable reuse_scenario))
      reuse_scenario.level (reuse_trail example_externals reuse_scenario).1 := by
  refine ⟨by decide, (reuse_trail_returns_largest_level example_externals reuse_scenario rfl).1 rfl⟩

/-- C7: `reuse_trail` returns at most the current level; with the option
`restartreusetrail` disabled it returns 0 and leaves the solver as it is; the
counter of reused trails is incremented and the counter of reused levels grows
by the result when the result is non-zero, and nothing changes when it is 0. -/
theorem reuse_trail_bounded [LinearOrder D] (E : externals D) (s : kissat D) :
    (reuse_trail E s).1 ≤ s.level ∧
    (s.opt_restartreusetrail = false → reuse_trail E s = (0, s)) ∧
    (reuse_trail E s).2 =
      (if (reuse_trail E s).1 = 0 then s
       else { s with
              restarts_reused_trails := s.restarts_reused_trails + 1
              restarts_reused_levels := s.restarts_reused_levels + (reuse_trail E s).1 }) := by
  refine ⟨reuse_trail_le E s, ?_, (reuse_trail_result E s).2⟩
  intro ho
  have e1 := (reuse_trail_result E s).1
  rw [ho, if_neg (by simp)] at e1
  have e2 := (reuse_trail_result E s).2
  rw [if_pos e1] at e2
  exact Prod.ext e1 e2

/-- Witness of C7: with the option disabled the result is 0 and the solver is
unchanged; with it enabled on `reuse_scenario` the result 2 is at most the
level 3. -/
theorem reuse_trail_bounded_witness :
    reuse_trail example_externals { reuse_scenario with opt_restartreusetrail := false }
      = (0, { reuse_scenario with opt_restartreusetrail := false }) ∧
    (reuse_trail example_externals reuse_scenario).1 ≤ reuse_scenario.level :=
  ⟨(reuse_trail_bounded example_externals
      { reuse_scenario with opt_restartreusetrail := false }).2.1 rfl,
    (reuse_trail_bounded example_externals reuse_scenario).1⟩

/-! ## Fields no backtracking touches -/

theorem same_mode_refl (s : kissat D) : same_mode s s :=
  ⟨rfl, rfl, rfl, rfl, rfl, rfl, rfl, rfl, rfl, rfl⟩

theorem same_mode_trans {s t u : kissat D} (h1 : same_mode s t) (h2 : same_mode t u) :
    same_mode s u :=
  ⟨h2.stable.trans h1.stable, h2.probing.trans h1.probing, h2.mab.trans h1.mab,
    h2.heuristic.trans h1.heuristic, h2.vars.trans h1.vars,
    h2.mab_heuristics.trans h1.mab_heuristics, h2.mab_select.trans h1.mab_select,
    h2.links.trans h1.links, h2.target_assigned.trans h1.target_assigned,
    h2.best_assigned.trans h1.best_assigned⟩

theorem same_mode_queue (s : kissat D) (lit : Nat) :
    same_mode s (add_unassigned_variable_back_to_queue s lit) := by
  unfold add_unassigned_variable_back_to_queue kissat_update_queue
  constructor <;> (simp only []; split_ifs <;> rfl)

theorem same_mode_heap (s : kissat D) (lit : Nat) :
    same_mode s (add_unassigned_variable_back_to_heap s lit) := by
  unfold add_unassigned_variable_back_to_heap kissat_push_heap
  constructor <;> (simp only []; split_ifs <;> rfl)

theorem same_mode_step (back : kissat D → Nat → kissat D)
    (hb : ∀ s lit, same_mode s (back s lit)) (new_level p q : Nat) (s : kissat D) :
    same_mode s (backtrack_step back new_level p q s).1 := by
  unfold backtrack_step
  simp only []
  split_ifs
  · exact ⟨rfl, rfl, rfl, rfl, rfl, rfl, rfl, rfl, rfl, rfl⟩
  · exact same_mode_trans (s := s) (t := unassign s (s.trail.getD p 0))
      ⟨rfl, rfl, rfl, rfl, rfl, rfl, rfl, rfl, rfl, rfl⟩ (hb _ _)

theorem same_mode_loop (back : kissat D → Nat → kissat D)
    (hb : ∀ s lit, same_mode s (back s lit)) (new_level : Nat) :
    ∀ (n p q : Nat) (s : kissat D), same_mode s (backtrack_loop back new_level n p q s).1 := by
  intro n
  induction n with
  | zero => intro p q s; exact same_mode_refl s
  | succ n ih =>
    intro p q s
    rw [backtrack_loop_succ]
    exact same_mode_trans (same_mode_step back hb new_level p q s) (ih _ _ _)

theorem backtrack_unfold_mode (s : kissat D) (new_level : Nat) (h : s.level ≠ new_level) :
    ∃ back : kissat D → Nat → kissat D, (∀ t lit, same_mode t (back t lit)) ∧
      ∃ r : kissat D × Nat,
        r = backtrack_loop back new_level
          (s.trail.length - (FRAME s (new_level + 1)).trail)
          (FRAME s (new_level + 1)).trail (FRAME s (new_level + 1)).trail
          { s with frames := s.frames.take (new_level + 1) } ∧
        kissat_backtrack_without_updating_phases s new_level =
          { r.1 with
            trail := r.1.trail.take r.2
            level := new_level
            propagate := (FRAME s (new_level + 1)).trail } := by
  cases hs : s.stable
  · exact ⟨add_unassigned_variable_back_to_queue, same_mode_queue, _, rfl,
      by simp [kissat_backtrack_without_updating_phases, h, hs]⟩
  · exact ⟨add_unassigned_variable_back_to_heap, same_mode_heap, _, rfl,
      by simp [kissat_backtrack_without_updating_phases, h, hs]⟩

/-- Backtracking changes neither the mode nor the heuristic nor the bandit
counters, and ends at the requested level. -/
theorem same_mode_backtrack (s : kissat D) (new_level : Nat) :
    same_mode s (kissat_backtrack_without_updating_phases s new_level) ∧
    (kissat_backtrack_without_updating_phases s new_level).level = new_level := by
  by_cases hlv : s.level = new_level
  · simp only [kissat_backtrack_without_updating_phases, hlv, if_true, and_true]
    exact same_mode_refl s
  · obtain ⟨back, hb, r, hr, e⟩ := backtrack_unfold_mode s new_level hlv
    have h := same_mode_loop back hb new_level
      (s.trail.length - (FRAME s (new_level + 1)).trail)
      (FRAME s (new_level + 1)).trail (FRAME s (new_level + 1)).trail
      { s with frames := s.frames.take (new_level + 1) }
    rw [← hr] at h
    rw [e]
    exact ⟨⟨h.stable, h.probing, h.mab, h.heuristic, h.vars, h.mab_heuristics,
      h.mab_select, h.links, h.target_assigned, h.best_assigned⟩, rfl⟩

/-- Updating the phase records changes only the phase records. -/
theorem update_phases_fields (s : kissat D) :
    (kissat_update_target_and_best_phases s).stable = s.stable ∧
    (kissat_update_target_and_best_phases s).mab = s.mab ∧
    (kissat_update_target_and_best_phases s).heuristic = s.heuristic ∧
    (kissat_update_target_and_best_phases s).mab_heuristics = s.mab_heuristics ∧
    (kissat_update_target_and_best_phases s).mab_select = s.mab_select := by
  unfold kissat_update_target_and_best_phases
  simp only []
  split_ifs <;> exact ⟨rfl, rfl, rfl, rfl, rfl⟩

theorem backtrack_in_consistent_state_fields (s : kissat D) (new_level : Nat) :
    (kissat_backtrack_in_consistent_state s new_level).stable = s.stable ∧
    (kissat_backtrack_in_consistent_state s new_level).mab = s.mab ∧
    (kissat_backtrack_in_consistent_state s new_level).heuristic = s.heuristic ∧
    (kissat_backtrack_in_consistent_state s new_level).mab_heuristics = s.mab_heuristics ∧
    (kissat_backtrack_in_consistent_state s new_level).mab_select = s.mab_select ∧
    (kissat_backtrack_in_consistent_state s new_level).level = new_level := by
  unfold kissat_backtrack_in_consistent_state
  obtain ⟨h, hl⟩ := same_mode_backtrack (kissat_update_target_and_best_phases s) new_level
  obtain ⟨u1, u2, u3, u4, u5⟩ := update_phases_fields s
  exact ⟨h.stable.trans u1, h.mab.trans u2, h.heuristic.trans u3, h.mab_heuristics.trans u4,
    h.mab_select.trans u5, hl⟩

/-! ## restart.c: the restart itself -/

theorem restart_mab_fields (E : externals D) (s : kissat D) :
    (restart_mab E s).stable = s.stable ∧ (restart_mab E s).mab = s.mab ∧
    (restart_mab E s).level = s.level ∧
    (restart_mab E s).mab_heuristics = s.mab_heuristics :=
  ⟨rfl, rfl, rfl, rfl⟩

theorem restart_statistics_fields (E : externals D) (s : kissat D) :
    (restart_statistics s).stable = s.stable ∧ (restart_statistics s).mab = s.mab ∧
    (restart_statistics s).level = s.level ∧
    (restart_statistics s).mab_heuristics = s.mab_heuristics ∧
    (restart_statistics s).heuristic = s.heuristic ∧
    (restart_statistics s).mab_select = s.mab_select ∧
    (restart_mab E (restart_statistics s)).heuristic = (restart_mab E s).heuristic ∧
    (restart_mab E (restart_statistics s)).mab_select = (restart_mab E s).mab_select := by
  unfold restart_statistics
  simp only []
  split_ifs <;> exact ⟨rfl, rfl, rfl, rfl, rfl, rfl, rfl, rfl⟩

theorem restart_select_fields (E : externals D) (s : kissat D) :
    (restart_select E s).stable = s.stable ∧ (restart_select E s).mab = s.mab ∧
    (restart_select E s).level = s.level ∧
    (restart_select E s).mab_heuristics = s.mab_heuristics ∧
    ((s.stable && s.mab) = false → (restart_select E s).heuristic = s.heuristic ∧
      (restart_select E s).mab_select = s.mab_select) ∧
    ((s.stable && s.mab) = true → (restart_select E s).heuristic = (restart_mab E s).heuristic ∧
      (restart_select E s).mab_select = (restart_mab E s).mab_select) := by
  obtain ⟨a1, a2, a3, a4, a5, a6, a7, a8⟩ := restart_statistics_fields E s
  obtain ⟨m1, m2, m3, m4⟩ := restart_mab_fields E (restart_statistics s)
  unfold restart_select
  simp only [a1, a2]
  cases hsm : (s.stable && s.mab)
  · simp only [Bool.false_eq_true, if_false]
    exact ⟨a1, a2, a3, a4, fun _ => ⟨a5, a6⟩, fun h => absurd h (by simp)⟩
  · simp only [if_true]
    exact ⟨m1.trans a1, m2.trans a2, m3.trans a3, m4.trans a4, fun h => absurd h (by simp),
      fun _ => ⟨a7, a8⟩⟩

theorem reuse_trail_fields [LinearOrder D] (E : externals D) (s : kissat D) :
    (reuse_trail E s).2.stable = s.stable ∧ (reuse_trail E s).2.mab = s.mab ∧
    (reuse_trail E s).2.heuristic = s.heuristic ∧
    (reuse_trail E s).2.mab_heuristics = s.mab_heuristics ∧
    (reuse_trail E s).2.mab_select = s.mab_select := by
  rw [(reuse_trail_result E s).2]
  split_ifs <;> exact ⟨rfl, rfl, rfl, rfl, rfl⟩

theorem restart_target_fields [LinearOrder D] (E : externals D) (s : kissat D) :
    (restart_target E s).1 =
      (if s.heuristic = (restart_select E s).heuristic then
        (reuse_trail E (restart_select E s)).1 else 0) ∧
    (restart_target E s).2.stable = s.stable ∧ (restart_target E s).2.mab = s.mab ∧
    (restart_target E s).2.heuristic = s.heuristic ∧
    (restart_target E s).2.mab_heuristics = s.mab_heuristics ∧
    (restart_target E s).2.mab_select = (restart_select E s).mab_select := by
  obtain ⟨f1, f2, -, f4, f5, -⟩ := restart_select_fields E s
  obtain ⟨g1, g2, g3, g4, g5⟩ := reuse_trail_fields E (restart_select E s)
  unfold restart_target
  simp only []
  by_cases hh : s.heuristic = (restart_select E s).heuristic
  · rw [if_pos hh, if_pos hh, g1, g2, f1, f2]
    cases hsm : (s.stable && s.mab)
    · rw [if_neg (by simp)]
      exact ⟨rfl, g1.trans f1, g2.trans f2, g3.trans hh.symm, g4.trans f4, g5⟩
    · rw [if_pos rfl]
      exact ⟨rfl, rfl, rfl, rfl, g4.trans f4, g5⟩
  · rw [if_neg hh, if_neg hh, f1, f2]
    cases hsm : (s.stable && s.mab)
    · exact absurd (f5 hsm).1.symm hh
    · rw [if_pos rfl]
      exact ⟨rfl, rfl, rfl, rfl, f4, rfl⟩

/-- Replacing the heuristic of a state by itself changes nothing. -/
theorem set_heuristic_self (t : kissat D) (h : Nat) (e : t.heuristic = h) :
    { t with heuristic := h } = t := by
  subst e
  rfl

/-- C8: `kissat_restart` ends at level 0 when the bandit changed the heuristic
and at the level `reuse_trail` returned otherwise.  Its result is the result
`B` of `kissat_backtrack_in_consistent_state` on the state after the bandit and
`reuse_trail` with the heuristic set to the one that was active on entry, up
to four fields: the heuristic on return is the one the bandit selected, the
conflict limit is updated in focused mode, and when the heuristic changed the
heap of the new heuristic is rebuilt.  In particular every variable the
backtrack unassigns goes to the decision order structure of the entry
heuristic.  The heuristic on return is the selection of `restart_mab` when the
solver is stable with the bandit on, and the entry heuristic otherwise. -/
theorem restart_level_and_heuristic [LinearOrder D] (E : externals D) (s : kissat D) :
    ((restart_select E s).heuristic ≠ s.heuristic → (kissat_restart E s).level = 0) ∧
    ((restart_select E s).heuristic = s.heuristic →
      (kissat_restart E s).level = (reuse_trail E (restart_select E s)).1) ∧
    (∀ r, r = (if (restart_select E s).heuristic = s.heuristic
          then reuse_trail E (restart_select E s) else (0, restart_select E s)) →
      ∀ B, B = kissat_backtrack_in_consistent_state { r.2 with heuristic := s.heuristic } r.1 →
        B.heuristic = s.heuristic ∧
        kissat_restart E s =
          { B with
            heuristic := (restart_select E s).heuristic
            limits_restart_conflicts :=
              if B.stable = true then B.limits_restart_conflicts
              else (kissat_update_focused_restart_limit E B).limits_restart_conflicts
            scores :=
              if (restart_select E s).heuristic ≠ s.heuristic ∧
                  (restart_select E s).heuristic = 0
              then E.rebuild_scores B.scores else B.scores
            scores_chb :=
              if (restart_select E s).heuristic ≠ s.heuristic ∧
                  (restart_select E s).heuristic ≠ 0
              then E.rebuild_scores B.scores_chb else B.scores_chb }) ∧
    (kissat_restart E s).heuristic = (restart_select E s).heuristic ∧
    ((s.stable && s.mab) = true →
      (kissat_restart E s).heuristic = (restart_mab E s).heuristic) ∧
    ((s.stable && s.mab) = false → (kissat_restart E s).heuristic = s.heuristic) := by
  obtain ⟨f1, f2, -, -, f5, f6⟩ := restart_select_fields E s
  obtain ⟨t1, t2, t3, t4, -, -⟩ := restart_target_fields E s
  obtain ⟨b1, b2, b3, -, -, b6⟩ := backtrack_in_consistent_state_fields
    (restart_target E s).2 (restart_target E s).1
  have key : (kissat_restart E s).level = (restart_target E s).1 ∧
      (kissat_restart E s).heuristic = (restart_select E s).heuristic := by
    unfold kissat_restart kissat_update_scores kissat_update_focused_restart_limit
    simp only [b1, b2, t2, t3]
    cases hsm : (s.stable && s.mab)
    · have hh := (f5 hsm).1
      simp only [Bool.false_eq_true, if_false, Bool.false_and]
      split_ifs <;> exact ⟨b6, by rw [hh]; exact b3.trans t4⟩
    · simp only [if_true, Bool.true_and]
      have hst : s.stable = true := by
        cases h : s.stable
        · rw [h] at hsm; simp at hsm
        · rfl
      simp only [hst, Bool.not_true, Bool.false_eq_true, if_false]
      split_ifs <;> exact ⟨b6, rfl⟩
  obtain ⟨k1, k3⟩ := key
  refine ⟨?_, ?_, ?_, k3, ?_, ?_⟩
  · intro hne
    rw [k1, t1, if_neg (fun e => hne e.symm)]
  · intro he
    rw [k1, t1, if_pos he.symm]
  · intro r hr B hB
    have hr1 : r.1 = (restart_target E s).1 := by
      rw [t1, hr]
      by_cases hh : (restart_select E s).heuristic = s.heuristic
      · rw [if_pos hh, if_pos hh.symm]
      · have hh2 : ¬ s.heuristic = (restart_select E s).heuristic := fun e2 => hh e2.symm
        rw [if_neg hh, if_neg hh2]
    have hr2 : { r.2 with heuristic := s.heuristic } = (restart_target E s).2 := by
      have e : (restart_target E s).2 =
          if (r.2.stable && r.2.mab) = true then { r.2 with heuristic := s.heuristic }
          else r.2 := by
        rw [hr]
        unfold restart_target
        simp only []
        by_cases hh : (restart_select E s).heuristic = s.heuristic
        · rw [if_pos hh, if_pos hh.symm]
        · have hh2 : ¬ s.heuristic = (restart_select E s).heuristic := fun e2 => hh e2.symm
          rw [if_neg hh, if_neg hh2]
      by_cases hsm : (r.2.stable && r.2.mab) = true
      · rw [e, if_pos hsm]
      · rw [if_neg hsm] at e
        rw [e]
        exact set_heuristic_self _ _ (by rw [← e]; exact t4)
    have hB2 : B = kissat_backtrack_in_consistent_state (restart_target E s).2
        (restart_target E s).1 := by
      rw [hB, hr1, hr2]
    have hBs : B.stable = s.stable := by rw [hB2]; exact b1.trans t2
    have hBm : B.mab = s.mab := by rw [hB2]; exact b2.trans t3
    have hBh : B.heuristic = s.heuristic := by rw [hB2]; exact b3.trans t4
    refine ⟨hBh, ?_⟩
    have hfin : kissat_restart E s =
        (let s7 := if (B.stable && B.mab) = true
            then { B with heuristic := (restart_select E s).heuristic } else B
         let s8 := if (!s7.stable) = true then kissat_update_focused_restart_limit E s7 else s7
         if (s8.stable && s8.mab && s.heuristic != (restart_select E s).heuristic) = true
         then kissat_update_scores E s8 else s8) := by
      rw [hB2]
      rfl
    rw [hfin]
    have hkeep : (s.stable && s.mab) = false → (restart_select E s).heuristic = B.heuristic :=
      fun h => ((f5 h).1).trans hBh.symm
    rw [← hBs, ← hBm] at hkeep
    rw [← hBh]
    generalize (restart_select E s).heuristic = new at hkeep ⊢
    clear hfin hB2 hB hr2 hr1 hr k1 k3 b1 b2 b3 b6 t1 t2 t3 t4 f1 f2 f5 f6 hBs hBm hBh
    unfold kissat_update_scores kissat_update_focused_restart_limit
    cases hst : B.stable <;> cases hmb : B.mab
    · rw [hst, hmb] at hkeep
      have hn := hkeep rfl
      subst hn
      cases B
      simp only [] at hst hmb
      subst hst
      subst hmb
      simp
    · rw [hst, hmb] at hkeep
      have hn := hkeep rfl
      subst hn
      cases B
      simp only [] at hst hmb
      subst hst
      subst hmb
      simp
    · rw [hst, hmb] at hkeep
      have hn := hkeep rfl
      subst hn
      cases B
      simp only [] at hst hmb
      subst hst
      subst hmb
      simp
    · by_cases hne : new = B.heuristic
      · subst hne
        cases B
        simp only [] at hst hmb
        subst hst
        subst hmb
        simp
      · have hne2 : B.heuristic ≠ new := fun e => hne e.symm
        by_cases h0 : new = 0
        · subst h0
          cases B
          simp only [] at hst hmb hne hne2
          subst hst
          subst hmb
          simp [hne, hne2]
        · cases B
          simp only [] at hst hmb hne hne2
          subst hst
          subst hmb
          simp [hne, hne2, h0]
  · intro hsm
    rw [k3, (f6 hsm).1]
  · intro hsm
    rw [k3, (f5 hsm).1]

/-- Witness of C8.  On `bandit_start` the bandit explores and switches from
heuristic 0 to heuristic 1: the restart ends at level 0 with heuristic 1, and
the three variables it unassigns are pushed to the heap `scores` of heuristic
0, the heuristic that was active on entry, behind the variables 3 and 4 that
were there; the heap of heuristic 1 receives nothing.  On `reuse_scenario` the
bandit is off and the heuristic stays: the restart ends at the level 2 that
`reuse_trail` returns, and variable 2 is pushed to the heap of heuristic 0. -/
theorem restart_level_and_heuristic_witness :
    ((kissat_restart example_externals bandit_start).level = 0 ∧
     (kissat_restart example_externals bandit_start).heuristic = 1 ∧
     (kissat_restart example_externals bandit_start).trail = [] ∧
     (kissat_restart example_externals bandit_start).scores.stack = [3, 4, 0, 1, 2] ∧
     (kissat_restart example_externals bandit_start).scores_chb.stack = []) ∧
    ((kissat_restart example_externals reuse_scenario).level = 2 ∧
     (kissat_restart example_externals reuse_scenario).heuristic = 0 ∧
     (kissat_restart example_externals reuse_scenario).trail = [0, 2] ∧
     (kissat_restart example_externals reuse_scenario).scores.stack = [3, 4, 2] ∧
     (kissat_restart example_externals reuse_scenario).scores_chb.stack = []) := by
  have h1 := restart_level_and_heuristic example_externals bandit_start
  have h2 := restart_level_and_heuristic example_externals reuse_scenario
  have e1 := (h1.2.2.1 _ rfl _ rfl).2
  have e2 := (h2.2.2.1 _ rfl _ rfl).2
  refine ⟨⟨h1.1 (by decide), ?_, ?_, ?_, ?_⟩, ⟨?_, ?_, ?_, ?_, ?_⟩⟩
  · rw [h1.2.2.2.1]; decide
  · rw [e1]; decide
  · rw [e1]; decide
  · rw [e1]; decide
  · rw [h2.2.1 (by decide)]; decide
  · rw [h2.2.2.2.1]; decide
  · rw [e2]; decide
  · rw [e2]; decide
  · rw [e2]; decide

/-! ## restart.c: the bandit -/

theorem mab_select_sum_two (s : kissat D) (h2 : s.mab_heuristics = 2) :
    mab_select_sum s = s.mab_select 0 + s.mab_select 1 := by
  unfold mab_select_sum
  rw [h2]
  simp [List.range_succ]

/-- A division by zero in line 116: on `inf_scenario` the reward of heuristic 0
becomes `+inf`, so does its score, and heuristic 0 is selected. -/
theorem restart_mab_infinite_reward :
    (restart_mab ieee_externals inf_scenario).mab_reward 0 = double.inf false ∧
    mab_ucb1 ieee_externals inf_scenario 0 = double.inf false ∧
    is_number (mab_ucb1 ieee_externals inf_scenario 1) = true ∧
    (restart_mab ieee_externals inf_scenario).heuristic = 0 := by
  refine ⟨by decide!, by decide!, by decide!, by decide!⟩

theorem restart_mab_select (E : externals D) (s : kissat D) :
    (restart_mab E s).mab_select =
      Function.update s.mab_select (restart_mab E s).heuristic
        (s.mab_select (restart_mab E s).heuristic + 1) := rfl

theorem ucb_fold_index (E : externals D) (s : kissat D) (c : D)
    (t : Nat) : ∀ (l : List Nat) (st : (Nat → D) × Nat),
      (l.foldl (ucb_step E s c t) st).2 = st.2 ∨ (l.foldl (ucb_step E s c t) st).2 ∈ l := by
  intro l
  induction l with
  | nil => intro st; exact Or.inl rfl
  | cons i l ih =>
    intro st
    rw [List.foldl_cons]
    have hstep : (ucb_step E s c t st i).2 = st.2 ∨ (ucb_step E s c t st i).2 = i := by
      unfold ucb_step
      simp only []
      split_ifs
      · exact Or.inr rfl
      · exact Or.inl rfl
    rcases ih (ucb_step E s c t st i) with h | h
    · rcases hstep with h1 | h1
      · exact Or.inl (h.trans h1)
      · exact Or.inr (by rw [h, h1]; exact List.mem_cons_self _ _)
    · exact Or.inr (List.mem_cons_of_mem _ h)

theorem ucb_select_lt (E : externals D) (s : kissat D) (c : D)
    (t : Nat) (h : 0 < s.mab_heuristics) : ucb_select E s c t < s.mab_heuristics := by
  unfold ucb_select
  rcases ucb_fold_index E s c t (List.range s.mab_heuristics)
    (fun _ => E.of_int 0, 0) with h1 | h1
  · rw [h1]; exact h
  · exact List.mem_range.1 h1

/-- With at least two heuristics the heuristic `restart_mab` leaves active is one
of them. -/
theorem restart_mab_heuristic_lt (E : externals D) (s : kissat D)
    (h2 : 2 ≤ s.mab_heuristics) : (restart_mab E s).heuristic < s.mab_heuristics := by
  have e2 : (restart_mab_update E s).1.mab_heuristics = s.mab_heuristics := rfl
  have e3 : (restart_mab E s).heuristic =
      if (restart_mab_update E s).2.1 < (restart_mab_update E s).1.mab_heuristics then
        (if (restart_mab_update E s).1.heuristic = 0 then 1 else 0)
      else ucb_select E (restart_mab_update E s).1 (restart_mab_update E s).2.2
        (restart_mab_update E s).2.1 := rfl
  rw [e3]
  split_ifs
  · omega
  · omega
  · rw [← e2]
    exact ucb_select_lt E _ _ _ (by rw [e2]; omega)

theorem sum_range_update (f : Nat → Nat) (h : Nat) : ∀ n,
    ((List.range n).map (Function.update f h (f h + 1))).sum =
      ((List.range n).map f).sum + (if h < n then 1 else 0) := by
  intro n
  induction n with
  | zero => simp
  | succ n ih =>
    rw [List.range_succ, List.map_append, List.map_append, List.sum_append, List.sum_append, ih]
    simp only [List.map_cons, List.map_nil, List.sum_cons, List.sum_nil, add_zero]
    by_cases hn : h = n
    · subst hn
      simp
      omega
    · rw [Function.update_noteq (Ne.symm hn)]
      by_cases hlt : h < n
      · rw [if_pos hlt, if_pos (by omega)]; omega
      · rw [if_neg hlt, if_neg (by omega)]; omega

theorem restart_mab_sum (E : externals D) (s : kissat D)
    (h2 : 2 ≤ s.mab_heuristics) :
    mab_select_sum (restart_mab E s) = mab_select_sum s + 1 := by
  have hlt := restart_mab_heuristic_lt E s h2
  have h2b : (restart_mab E s).mab_heuristics = s.mab_heuristics := rfl
  unfold mab_select_sum
  rw [h2b, restart_mab_select, sum_range_update, if_pos hlt]

/-- In the exploration phase `restart_mab` switches to the other of the first
two heuristics. -/
theorem restart_mab_explore (E : externals D) (s : kissat D)
    (ht : mab_select_sum s < s.mab_heuristics) :
    (restart_mab E s).heuristic = (if s.heuristic = 0 then 1 else 0) := by
  have e1 : (restart_mab_update E s).2.1 = mab_select_sum s := rfl
  have e2 : (restart_mab_update E s).1.mab_heuristics = s.mab_heuristics := rfl
  have e3 : (restart_mab E s).heuristic =
      if (restart_mab_update E s).2.1 < (restart_mab_update E s).1.mab_heuristics then
        (if (restart_mab_update E s).1.heuristic = 0 then 1 else 0)
      else ucb_select E (restart_mab_update E s).1 (restart_mab_update E s).2.2
        (restart_mab_update E s).2.1 := rfl
  rw [e3, if_pos (by rw [e1, e2]; exact ht)]
  rfl

/-- C11: when the total of the selection counts is below the heuristic count,
`restart_mab` makes the other of the two heuristics active (1 if heuristic 0
was active, 0 otherwise), whatever the rewards are; with two heuristics, one of
them active, and all selection counts zero, two consecutive calls leave both
selection counts at 1 and the heuristic that was active at the start active
again. -/
theorem restart_mab_alternates (E : externals D) (s : kissat D) :
    (mab_select_sum s < s.mab_heuristics →
      (restart_mab E s).heuristic = (if s.heuristic = 0 then 1 else 0)) ∧
    (s.mab_heuristics = 2 → s.heuristic < 2 → (∀ i, s.mab_select i = 0) →
      (restart_mab E (restart_mab E s)).mab_select 0 = 1 ∧
      (restart_mab E (restart_mab E s)).mab_select 1 = 1 ∧
      (restart_mab E (restart_mab E s)).heuristic = s.heuristic) := by
  refine ⟨restart_mab_explore E s, ?_⟩
  intro h2 hh h0
  have s0 : mab_select_sum s = 0 := by
    rw [mab_select_sum_two _ h2, h0, h0]
  have x1 := restart_mab_explore E s (by rw [s0, h2]; omega)
  have m1 := restart_mab_select E s
  have h2b : (restart_mab E s).mab_heuristics = 2 := h2
  have s1 : mab_select_sum (restart_mab E s) = 1 := by
    rw [restart_mab_sum E s (by omega), s0]
  have x2 := restart_mab_explore E (restart_mab E s) (by rw [s1, h2b]; omega)
  have m2 := restart_mab_select E (restart_mab E s)
  have hz : s.mab_select = fun _ => 0 := funext h0
  by_cases hs : s.heuristic = 0
  · rw [hs, if_pos rfl] at x1
    rw [x1, if_neg (by omega)] at x2
    rw [m2, x2, m1, x1, hz, hs]
    simp
  · have hs1 : s.heuristic = 1 := by omega
    rw [hs1, if_neg (by omega)] at x1
    rw [x1, if_pos rfl] at x2
    rw [m2, x2, m1, x1, hz, hs1]
    simp

/-- Witness of C11 on `bandit_start` (heuristic 0 active, both counts zero):
after one call heuristic 1 is active, after two calls heuristic 0 is active
again and both counts are 1. -/
theorem restart_mab_alternates_witness :
    (restart_mab example_externals bandit_start).heuristic = 1 ∧
    (restart_mab example_externals (restart_mab example_externals bandit_start)).mab_select 0
      = 1 ∧
    (restart_mab example_externals (restart_mab example_externals bandit_start)).mab_select 1
      = 1 ∧
    (restart_mab example_externals (restart_mab example_externals bandit_start)).heuristic
      = 0 := by
  have h := restart_mab_alternates example_externals bandit_start
  have h2 := h.2 rfl (by decide) (fun _ => rfl)
  exact ⟨h.1 (by decide), h2.1, h2.2.1, h2.2.2⟩

/-! ## backtrack.c: phase records and the composed entry points -/

/-- The phase heights after `kissat_update_target_and_best_phases`. -/
theorem update_phases_heights (s : kissat D) :
    ((s.probing = true ∨ s.stable = false) →
      kissat_update_target_and_best_phases s = s) ∧
    (s.probing = false → s.stable = true →
      (kissat_update_target_and_best_phases s).target_assigned
        = max s.target_assigned (kissat_assigned s) ∧
      (kissat_update_target_and_best_phases s).best_assigned
        = max s.best_assigned (kissat_assigned s)) := by
  unfold kissat_update_target_and_best_phases
  constructor
  · rintro (h | h)
    · simp [h]
    · simp [h]
  · intro hp hs
    simp only [hp, hs, Bool.false_eq_true, if_false, Bool.not_true]
    by_cases h1 : s.target_assigned < kissat_assigned s
    · by_cases h2 : s.best_assigned < kissat_assigned s
      · simp only [h1, h2, if_true]
        exact ⟨(max_eq_right (le_of_lt h1)).symm, (max_eq_right (le_of_lt h2)).symm⟩
      · simp only [h1, h2, if_true, if_false]
        exact ⟨(max_eq_right (le_of_lt h1)).symm, (max_eq_left (not_lt.1 h2)).symm⟩
    · by_cases h2 : s.best_assigned < kissat_assigned s
      · simp only [h1, h2, if_true, if_false]
        exact ⟨(max_eq_left (not_lt.1 h1)).symm, (max_eq_right (le_of_lt h2)).symm⟩
      · simp only [h1, h2, if_false]
        exact ⟨(max_eq_left (not_lt.1 h1)).symm, (max_eq_left (not_lt.1 h2)).symm⟩

/-- The phase heights only grow, and `target <= best` is kept. -/
theorem update_phases_monotone (s : kissat D) :
    s.target_assigned ≤ (kissat_update_target_and_best_phases s).target_assigned ∧
    s.best_assigned ≤ (kissat_update_target_and_best_phases s).best_assigned ∧
    (s.target_assigned ≤ s.best_assigned →
      (kissat_update_target_and_best_phases s).target_assigned
        ≤ (kissat_update_target_and_best_phases s).best_assigned) := by
  obtain ⟨h1, h2⟩ := update_phases_heights s
  cases hp : s.probing
  · cases hs : s.stable
    · rw [h1 (Or.inr hs)]
      exact ⟨le_refl _, le_refl _, fun h => h⟩
    · obtain ⟨e1, e2⟩ := h2 hp hs
      rw [e1, e2]
      exact ⟨le_max_left _ _, le_max_left _ _, fun h => max_le_max h (le_refl _)⟩
  · rw [h1 (Or.inl hp)]
    exact ⟨le_refl _, le_refl _, fun h => h⟩

/-- C12: `kissat_update_target_and_best_phases`, and with it
`kissat_backtrack_in_consistent_state` and `kissat_backtrack_after_conflict`,
never decreases `target_assigned` or `best_assigned` and keeps
`target_assigned <= best_assigned`; when probing or not stable it changes
nothing, otherwise the two heights become the maximum of their old value and
the number of assigned variables. -/
theorem phases_monotone (s : kissat D) (new_level : Nat) :
    (s.target_assigned ≤ (kissat_update_target_and_best_phases s).target_assigned ∧
     s.best_assigned ≤ (kissat_update_target_and_best_phases s).best_assigned ∧
     (s.target_assigned ≤ s.best_assigned →
       (kissat_update_target_and_best_phases s).target_assigned
         ≤ (kissat_update_target_and_best_phases s).best_assigned)) ∧
    (s.target_assigned ≤ (kissat_backtrack_in_consistent_state s new_level).target_assigned ∧
     s.best_assigned ≤ (kissat_backtrack_in_consistent_state s new_level).best_assigned ∧
     (s.target_assigned ≤ s.best_assigned →
       (kissat_backtrack_in_consistent_state s new_level).target_assigned
         ≤ (kissat_backtrack_in_consistent_state s new_level).best_assigned)) ∧
    (s.target_assigned ≤ (kissat_backtrack_after_conflict s new_level).target_assigned ∧
     s.best_assigned ≤ (kissat_backtrack_after_conflict s new_level).best_assigned ∧
     (s.target_assigned ≤ s.best_assigned →
       (kissat_backtrack_after_conflict s new_level).target_assigned
         ≤ (kissat_backtrack_after_conflict s new_level).best_assigned)) ∧
    ((s.probing = true ∨ s.stable = false) →
      (kissat_update_target_and_best_phases s).target_assigned = s.target_assigned ∧
      (kissat_update_target_and_best_phases s).best_assigned = s.best_assigned) ∧
    (s.probing = false → s.stable = true →
      (kissat_update_target_and_best_phases s).target_assigned
        = max s.target_assigned (kissat_assigned s) ∧
      (kissat_update_target_and_best_phases s).best_assigned
        = max s.best_assigned (kissat_assigned s)) := by
  obtain ⟨h1, h2⟩ := update_phases_heights s
  refine ⟨update_phases_monotone s, ?_, ?_, fun h => by rw [h1 h]; exact ⟨rfl, rfl⟩, h2⟩
  · have b := (same_mode_backtrack (kissat_update_target_and_best_phases s) new_level).1
    unfold kissat_backtrack_in_consistent_state
    rw [b.target_assigned, b.best_assigned]
    exact update_phases_monotone s
  · unfold kissat_backtrack_after_conflict
    simp only []
    generalize hs1 : (if s.level ≠ 0 then
      kissat_backtrack_without_updating_phases s (s.level - 1) else s) = s1
    have e1 : s1.target_assigned = s.target_assigned ∧ s1.best_assigned = s.best_assigned := by
      rw [← hs1]
      split_ifs
      · have b := (same_mode_backtrack s (s.level - 1)).1
        exact ⟨b.target_assigned, b.best_assigned⟩
      · exact ⟨rfl, rfl⟩
    have b := (same_mode_backtrack (kissat_update_target_and_best_phases s1) new_level).1
    rw [b.target_assigned, b.best_assigned, ← e1.1, ← e1.2]
    exact update_phases_monotone s1

/-- Witness of C12 on `reuse_scenario` (stable, three of five variables
assigned, both heights 0): both heights become 3. -/
theorem phases_monotone_witness :
    (kissat_update_target_and_best_phases reuse_scenario).target_assigned = 3 ∧
    (kissat_update_target_and_best_phases reuse_scenario).best_assigned = 3 ∧
    reuse_scenario.target_assigned
      ≤ (kissat_backtrack_after_conflict reuse_scenario 0).target_assigned := by
  have h := phases_monotone reuse_scenario 0
  exact ⟨(h.2.2.2.2 rfl rfl).1, (h.2.2.2.2 rfl rfl).2, h.2.2.1.1⟩

/-- C13: in stable mode and not probing, `kissat_backtrack_after_conflict` ends
at `new_level`, and the two phase heights become the maximum of their old value
and the number `A` of variables assigned in between: for `level > 0` after the
backtrack to `level - 1`, that is `VARS` minus the old `unassigned` minus the
number of literals that first backtrack unassigns; at level 0 the current
number of assigned variables. -/
theorem backtrack_after_conflict_phases (s : kissat D) (new_level : Nat)
    (hs : s.stable = true) (hp : s.probing = false) :
    (kissat_backtrack_after_conflict s new_level).level = new_level ∧
    (0 < s.level →
      (kissat_backtrack_after_conflict s new_level).target_assigned
        = max s.target_assigned
            (kissat_assigned (kissat_backtrack_without_updating_phases s (s.level - 1))) ∧
      (kissat_backtrack_after_conflict s new_level).best_assigned
        = max s.best_assigned
            (kissat_assigned (kissat_backtrack_without_updating_phases s (s.level - 1))) ∧
      kissat_assigned (kissat_backtrack_without_updating_phases s (s.level - 1))
        = s.vars - (s.unassigned +
            ((s.trail.drop (FRAME s s.level).trail).filter
              (fun lit => decide (s.level - 1 < (s.assigned (IDX lit)).level))).length)) ∧
    (s.level = 0 →
      (kissat_backtrack_after_conflict s new_level).target_assigned
        = max s.target_assigned (kissat_assigned s) ∧
      (kissat_backtrack_after_conflict s new_level).best_assigned
        = max s.best_assigned (kissat_assigned s)) := by
  have key : ∀ s1 : kissat D, s1.stable = true → s1.probing = false →
      (kissat_backtrack_without_updating_phases
        (kissat_update_target_and_best_phases s1) new_level).level = new_level ∧
      (kissat_backtrack_without_updating_phases
        (kissat_update_target_and_best_phases s1) new_level).target_assigned
          = max s1.target_assigned (kissat_assigned s1) ∧
      (kissat_backtrack_without_updating_phases
        (kissat_update_target_and_best_phases s1) new_level).best_assigned
          = max s1.best_assigned (kissat_assigned s1) := by
    intro s1 h1 h2
    obtain ⟨b, bl⟩ := same_mode_backtrack (kissat_update_target_and_best_phases s1) new_level
    obtain ⟨e1, e2⟩ := (update_phases_heights s1).2 h2 h1
    exact ⟨bl, b.target_assigned.trans e1, b.best_assigned.trans e2⟩
  by_cases hl : s.level = 0
  · have e : kissat_backtrack_after_conflict s new_level =
        kissat_backtrack_without_updating_phases
          (kissat_update_target_and_best_phases s) new_level := by
      simp [kissat_backtrack_after_conflict, hl]
    rw [e]
    obtain ⟨k1, k2, k3⟩ := key s hs hp
    exact ⟨k1, fun h => absurd hl (by omega), fun _ => ⟨k2, k3⟩⟩
  · have e : kissat_backtrack_after_conflict s new_level =
        kissat_backtrack_without_updating_phases
          (kissat_update_target_and_best_phases
            (kissat_backtrack_without_updating_phases s (s.level - 1))) new_level := by
      simp [kissat_backtrack_after_conflict, hl]
    rw [e]
    obtain ⟨b, -⟩ := same_mode_backtrack s (s.level - 1)
    obtain ⟨k1, k2, k3⟩ := key (kissat_backtrack_without_updating_phases s (s.level - 1))
      (b.stable.trans hs) (b.probing.trans hp)
    rw [b.target_assigned] at k2
    rw [b.best_assigned] at k3
    refine ⟨k1, fun _ => ⟨k2, k3, ?_⟩, fun h => absurd h hl⟩
    obtain ⟨-, -, -, u, -⟩ := backtrack_result s (s.level - 1) (by omega)
    have hl1 : s.level - 1 + 1 = s.level := by omega
    rw [hl1] at u
    unfold kissat_assigned
    rw [u, b.vars]

/-- Witness of C13 on `reuse_scenario` (level 3, three of five variables
assigned): the backtrack to level 2 leaves two variables assigned, so both
heights become 2 although the call ends at level 0 with nothing assigned. -/
theorem backtrack_after_conflict_phases_witness :
    (kissat_backtrack_after_conflict reuse_scenario 0).level = 0 ∧
    (kissat_backtrack_after_conflict reuse_scenario 0).target_assigned = 2 ∧
    (kissat_backtrack_after_conflict reuse_scenario 0).best_assigned = 2 ∧
    (kissat_backtrack_after_conflict reuse_scenario 0).unassigned = 5 := by
  have h := backtrack_after_conflict_phases reuse_scenario 0 rfl rfl
  exact ⟨h.1, (h.2.1 (by decide)).1, (h.2.1 (by decide)).2.1, by decide⟩

/-! ## backtrack.c: idempotence -/

/-- A backtrack to the current level returns the solver as it is. -/
theorem backtrack_same_level (s : kissat D) (L : Nat) (h : s.level = L) :
    kissat_backtrack_without_updating_phases s L = s := by
  unfold kissat_backtrack_without_updating_phases
  rw [if_pos h]

/-- C16: a second `kissat_backtrack_without_updating_phases (L)` right after the
first returns the very same solver (trail, values, level, frames, unassigned
count, cursor and every other field), and a call with `L` equal to the current
level changes nothing. -/
theorem backtrack_idempotent (s : kissat D) (L : Nat) :
    kissat_backtrack_without_updating_phases
        (kissat_backtrack_without_updating_phases s L) L
      = kissat_backtrack_without_updating_phases s L ∧
    (s.level = L → kissat_backtrack_without_updating_phases s L = s) :=
  ⟨backtrack_same_level _ L (same_mode_backtrack s L).2, backtrack_same_level s L⟩

/-- Witness of C16 on the trail with an out-of-order literal: the second
backtrack to level 1 leaves trail `[0, 6]`, level 1 and cursor 1 as they are. -/
theorem backtrack_idempotent_witness :
    (kissat_backtrack_without_updating_phases
      (kissat_backtrack_without_updating_phases out_of_order 1) 1).trail = [0, 6] ∧
    (kissat_backtrack_without_updating_phases
      (kissat_backtrack_without_updating_phases out_of_order 1) 1).propagate = 1 ∧
    kissat_backtrack_without_updating_phases out_of_order 3 = out_of_order := by
  have h := backtrack_idempotent out_of_order 1
  refine ⟨?_, ?_, (backtrack_idempotent out_of_order 3).2 rfl⟩
  · rw [h.1]; decide
  · rw [h.1]; decide

/-! ## backtrack.c: the assertions of `unassign` and the assignment count -/

theorem filter_split_length (l : List Nat) (f : Nat → Nat) (L : Nat) :
    (l.filter (fun x => decide (f x ≤ L))).length +
      (l.filter (fun x => decide (L < f x))).length = l.length := by
  induction l with
  | nil => rfl
  | cons a l ih =>
    by_cases h : f a ≤ L
    · have h2 : ¬ L < f a := by omega
      simp only [List.filter_cons, h, h2, decide_True, decide_False, if_true,
        Bool.false_eq_true, if_false, List.length_cons]
      omega
    · have h2 : L < f a := by omega
      simp only [List.filter_cons, h, h2, decide_True, decide_False, if_true,
        Bool.false_eq_true, if_false, List.length_cons]
      omega

theorem ne_of_IDX_ne (l u : Nat) (h : IDX l ≠ IDX u) : l ≠ u ∧ l ≠ NOT u := by
  constructor
  · intro e; exact h (by rw [e])
  · intro e; exact h (by rw [e, IDX_NOT])

/-- Loop invariant for the assertions of `unassign`: the literals still to be
read are true and belong to different variables, and `unassigned` plus the
number of cells written plus the number of cells still to be read is `VARS`. -/
theorem backtrack_loop_unassign (back : kissat D → Nat → kissat D)
    (hb : ∀ s lit, same_core s (back s lit)) (new_level V : Nat) :
    ∀ (n p q : Nat) (s : kissat D), q ≤ p → p + n = s.trail.length → s.vars = V →
      (∀ l ∈ s.trail.drop p, 0 < s.values l) → ((s.trail.drop p).map IDX).Nodup →
      s.unassigned + q + n = V →
      backtrack_loop_asserts (assert_unassign new_level) back new_level n p q s = true ∧
      (backtrack_loop back new_level n p q s).1.unassigned
        + (backtrack_loop back new_level n p q s).2 = V := by
  intro n
  induction n with
  | zero =>
    intro p q s _ _ _ _ _ hc
    simp only [backtrack_loop, backtrack_loop_asserts, true_and]
    omega
  | succ n ih =>
    intro p q s hqp hlen hV hval hnd hc
    have hp : p < s.trail.length := by omega
    have hget : s.trail.getD p 0 = s.trail[p] := List.getD_eq_getElem _ _ hp
    have hdrop : s.trail.drop p = s.trail[p] :: s.trail.drop (p + 1) :=
      List.drop_eq_getElem_cons hp
    rw [hdrop] at hval hnd
    rw [List.map_cons, List.nodup_cons] at hnd
    obtain ⟨er, el, eq, -⟩ := backtrack_step_rest back hb new_level p q s hqp
    rw [backtrack_loop_succ, backtrack_loop_asserts_succ]
    by_cases hk : (s.assigned (IDX (s.trail.getD p 0))).level ≤ new_level
    · have hchk : assert_unassign new_level p q s = true := by
        simp only [assert_unassign, hk, if_true]
      obtain ⟨e2, -, -, ev, eu⟩ := backtrack_step_keep back new_level p q s hk
      have evars : (backtrack_step back new_level p q s).1.vars = s.vars := by
        simp only [backtrack_step, hk, if_true]
      generalize backtrack_step back new_level p q s = r at er el eq ev eu e2 evars ⊢
      obtain ⟨h1, h2⟩ := ih (p + 1) r.2 r.1 eq (by omega) (evars.trans hV)
        (by rw [er, ev]; exact fun l hl => hval l (List.mem_cons_of_mem _ hl))
        (by rw [er]; exact hnd.2) (by rw [eu, e2]; omega)
      rw [hchk, h1]
      exact ⟨rfl, h2⟩
    · have hchk : assert_unassign new_level p q s = true := by
        simp only [assert_unassign, hk, if_false, unassign_asserts, Bool.and_eq_true,
          decide_eq_true_eq]
        exact ⟨by rw [hget]; exact hval _ (List.mem_cons_self _ _), by omega⟩
      obtain ⟨e2, -, -, ev, eu⟩ := backtrack_step_drop back hb new_level p q s hk
      have evars : (backtrack_step back new_level p q s).1.vars = s.vars := by
        simp only [backtrack_step, hk, if_false, (hb _ _).vars]
        rfl
      generalize backtrack_step back new_level p q s = r at er el eq ev eu e2 evars ⊢
      obtain ⟨h1, h2⟩ := ih (p + 1) r.2 r.1 eq (by omega) (evars.trans hV)
        (by
          rw [er, ev, hget]
          intro l hl
          have hne : IDX l ≠ IDX s.trail[p] := by
            intro e
            exact hnd.1 (by rw [← e]; exact List.mem_map_of_mem IDX hl)
          obtain ⟨n1, n2⟩ := ne_of_IDX_ne l s.trail[p] hne
          rw [Function.update_noteq n1, Function.update_noteq n2]
          exact hval l (List.mem_cons_of_mem _ hl))
        (by rw [er]; exact hnd.2) (by rw [eu, e2]; omega)
      rw [hchk, h1]
      exact ⟨rfl, h2⟩

/-- C20: if every trail literal is true, no variable occurs twice on the trail
and `unassigned + |trail| = VARS`, then after
`kissat_backtrack_without_updating_phases` the sum `unassigned + |trail|` is
still `VARS`, every literal left on the trail is still true, and both
assertions of `unassign` hold whenever `unassign` is called. -/
theorem backtrack_conserves_assignment_count (s : kissat D) (new_level : Nat)
    (hval : ∀ l ∈ s.trail, 0 < s.values l) (hnd : (s.trail.map IDX).Nodup)
    (hcount : s.unassigned + s.trail.length = s.vars) :
    (kissat_backtrack_without_updating_phases s new_level).unassigned
      + (kissat_backtrack_without_updating_phases s new_level).trail.length
        = (kissat_backtrack_without_updating_phases s new_level).vars ∧
    (∀ l ∈ (kissat_backtrack_without_updating_phases s new_level).trail,
      0 < (kissat_backtrack_without_updating_phases s new_level).values l) ∧
    kissat_backtrack_asserts assert_unassign s new_level = true := by
  by_cases hlv : s.level = new_level
  · rw [backtrack_same_level s new_level hlv]
    exact ⟨hcount, hval, by simp [kissat_backtrack_asserts, hlv]⟩
  · obtain ⟨t, -, v3, u, -⟩ := backtrack_result s new_level hlv
    have hvars := (same_mode_backtrack s new_level).1.vars
    refine ⟨?_, ?_, ?_⟩
    · rw [t, u, hvars, List.length_append, List.length_take, ← hcount]
      have hs := filter_split_length (s.trail.drop (FRAME s (new_level + 1)).trail)
        (fun lit => (s.assigned (IDX lit)).level) new_level
      rw [List.length_drop] at hs
      omega
    · intro l hl
      rw [t] at hl
      have hsame : (kissat_backtrack_without_updating_phases s new_level).values l
          = s.values l := by
        apply v3
        intro lit hlit hlt
        apply ne_of_IDX_ne
        rcases List.mem_append.1 hl with h | h
        · have hsplit := List.take_append_drop (FRAME s (new_level + 1)).trail s.trail
          rw [← hsplit, List.map_append] at hnd
          have hdis := (List.nodup_append.1 hnd).2.2
          intro e
          exact hdis (List.mem_map_of_mem IDX h) (by rw [e]; exact List.mem_map_of_mem IDX hlit)
        · have hk := (List.mem_filter.1 h).2
          simp only [decide_eq_true_eq] at hk
          intro e
          rw [e] at hk
          omega
      rw [hsame]
      apply hval
      rcases List.mem_append.1 hl with h | h
      · exact List.mem_of_mem_take h
      · exact List.mem_of_mem_drop (List.mem_filter.1 h).1
    · have key : ∀ back : kissat D → Nat → kissat D, (∀ t lit, same_core t (back t lit)) →
          backtrack_loop_asserts (assert_unassign new_level) back new_level
            (s.trail.length - (FRAME s (new_level + 1)).trail)
            (FRAME s (new_level + 1)).trail (FRAME s (new_level + 1)).trail
            { s with frames := s.frames.take (new_level + 1) } = true := by
        intro back hb
        generalize (FRAME s (new_level + 1)).trail = n
        by_cases hle : n ≤ s.trail.length
        · refine (backtrack_loop_unassign back hb new_level s.vars (s.trail.length - n) n n
            { s with frames := s.frames.take (new_level + 1) } (le_refl _)
            (by simp only []; omega) rfl
            (fun l hl => hval l (List.mem_of_mem_drop hl)) ?_
            (by simp only []; omega)).1
          have hsplit := List.take_append_drop n s.trail
          rw [← hsplit, List.map_append] at hnd
          exact (List.nodup_append.1 hnd).2.1
        · have h0 : s.trail.length - n = 0 := by omega
          rw [h0]
          rfl
      cases hs : s.stable
      · have := key add_unassigned_variable_back_to_queue same_core_queue
        simpa [kissat_backtrack_asserts, hlv, hs] using this
      · have := key add_unassigned_variable_back_to_heap same_core_heap
        simpa [kissat_backtrack_asserts, hlv, hs] using this

/-- Witness of C20 on `three_decisions` (three true literals of three
variables, two of five variables free): after the backtrack to level 1 one
literal is left and four variables are free. -/
theorem backtrack_conserves_assignment_count_witness :
    (kissat_backtrack_without_updating_phases three_decisions 1).unassigned
      + (kissat_backtrack_without_updating_phases three_decisions 1).trail.length = 5 ∧
    0 < (kissat_backtrack_without_updating_phases three_decisions 1).values 0 ∧
    kissat_backtrack_asserts assert_unassign three_decisions 1 = true := by
  have h := backtrack_conserves_assignment_count three_decisions 1 (by decide) (by decide)
    (by decide)
  exact ⟨h.1, h.2.1 0 (by decide), h.2.2⟩

/-! ## backtrack.c: reinsertion into the heap -/

/-- The heap of the active heuristic after the reinsertion that follows
`unassign`: the variable is appended when it is not contained. -/
theorem heap_after_add_back (s : kissat D) (lit : Nat) :
    (kissat_get_scores (add_unassigned_variable_back_to_heap (unassign s lit) lit)).stack =
      (if IDX lit ∈ (kissat_get_scores s).stack then (kissat_get_scores s).stack
       else (kissat_get_scores s).stack ++ [IDX lit]) := by
  unfold add_unassigned_variable_back_to_heap kissat_push_heap kissat_heap_contains
    kissat_get_scores unassign
  by_cases hh : s.heuristic = 0
  · by_cases hm : IDX lit ∈ s.scores.stack
    · simp [hh, hm]
    · simp [hh, hm]
  · by_cases hm : IDX lit ∈ s.scores_chb.stack
    · simp [hh, hm]
    · simp [hh, hm]

/-- One iteration of the stable-mode loop on the heap of the active heuristic. -/
theorem backtrack_step_heap (new_level p q : Nat) (s : kissat D) :
    (kissat_get_scores
        (backtrack_step add_unassigned_variable_back_to_heap new_level p q s).1).stack =
      (if (s.assigned (IDX (s.trail.getD p 0))).level ≤ new_level then
        (kissat_get_scores s).stack
       else if IDX (s.trail.getD p 0) ∈ (kissat_get_scores s).stack then
        (kissat_get_scores s).stack
       else (kissat_get_scores s).stack ++ [IDX (s.trail.getD p 0)]) := by
  by_cases hk : (s.assigned (IDX (s.trail.getD p 0))).level ≤ new_level
  · rw [if_pos hk]
    simp only [backtrack_step, hk, if_true]
    rfl
  · rw [if_neg hk]
    simp only [backtrack_step, hk, if_false]
    exact heap_after_add_back s _

/-- Loop invariant for the heap of the active heuristic in stable mode: it
stays free of duplicates, and it holds what it held plus the variables of the
literals the loop unassigns. -/
theorem backtrack_loop_heap (new_level : Nat) (lv : Nat → Nat) :
    ∀ (n p q : Nat) (s : kissat D), q ≤ p → p + n = s.trail.length →
      (∀ i, (s.assigned i).level = lv i) →
      ((kissat_get_scores s).stack.Nodup →
        (kissat_get_scores
          (backtrack_loop add_unassigned_variable_back_to_heap new_level n p q s).1).stack.Nodup) ∧
      (∀ x, x ∈ (kissat_get_scores
          (backtrack_loop add_unassigned_variable_back_to_heap new_level n p q s).1).stack ↔
        (x ∈ (kissat_get_scores s).stack ∨
          ∃ l ∈ s.trail.drop p, new_level < lv (IDX l) ∧ IDX l = x)) := by
  intro n
  induction n with
  | zero =>
    intro p q s _ hlen _
    have hp : s.trail.length ≤ p := by omega
    simp [backtrack_loop, List.drop_of_length_le hp]
  | succ n ih =>
    intro p q s hqp hlen hlv
    have hp : p < s.trail.length := by omega
    have hget : s.trail.getD p 0 = s.trail[p] := List.getD_eq_getElem _ _ hp
    have hdrop : s.trail.drop p = s.trail[p] :: s.trail.drop (p + 1) :=
      List.drop_eq_getElem_cons hp
    obtain ⟨er, el, eq, elv⟩ := backtrack_step_rest add_unassigned_variable_back_to_heap
      same_core_heap new_level p q s hqp
    have eh := backtrack_step_heap new_level p q s
    rw [backtrack_loop_succ, hdrop]
    generalize backtrack_step add_unassigned_variable_back_to_heap new_level p q s = r
      at er el eq elv eh ⊢
    obtain ⟨h1, h2⟩ := ih (p + 1) r.2 r.1 eq (by omega) (by intro i; rw [elv, hlv])
    rw [er] at h2
    rw [hget, hlv] at eh
    by_cases hk : lv (IDX s.trail[p]) ≤ new_level
    · rw [if_pos hk] at eh
      rw [eh] at h1 h2
      refine ⟨h1, fun x => ?_⟩
      rw [h2 x]
      constructor
      · rintro (h | ⟨l, hl, hlt, e⟩)
        · exact Or.inl h
        · exact Or.inr ⟨l, List.mem_cons_of_mem _ hl, hlt, e⟩
      · rintro (h | ⟨l, hl, hlt, e⟩)
        · exact Or.inl h
        · rcases List.mem_cons.1 hl with h | h
          · subst h; omega
          · exact Or.inr ⟨l, h, hlt, e⟩
    · rw [if_neg hk] at eh
      have hgt : new_level < lv (IDX s.trail[p]) := by omega
      by_cases hm : IDX s.trail[p] ∈ (kissat_get_scores s).stack
      · rw [if_pos hm] at eh
        rw [eh] at h1 h2
        refine ⟨h1, fun x => ?_⟩
        rw [h2 x]
        constructor
        · rintro (h | ⟨l, hl, hlt, e⟩)
          · exact Or.inl h
          · exact Or.inr ⟨l, List.mem_cons_of_mem _ hl, hlt, e⟩
        · rintro (h | ⟨l, hl, hlt, e⟩)
          · exact Or.inl h
          · rcases List.mem_cons.1 hl with h | h
            · subst h; rw [← e]; exact Or.inl hm
            · exact Or.inr ⟨l, h, hlt, e⟩
      · rw [if_neg hm] at eh
        rw [eh] at h1 h2
        refine ⟨fun hnd => h1 ?_, fun x => ?_⟩
        · rw [List.nodup_append]
          refine ⟨hnd, List.nodup_singleton _, ?_⟩
          intro a ha hb
          rw [List.mem_singleton] at hb
          subst hb
          exact hm ha
        · rw [h2 x, List.mem_append, List.mem_singleton]
          constructor
          · rintro ((h | h) | ⟨l, hl, hlt, e⟩)
            · exact Or.inl h
            · exact Or.inr ⟨s.trail[p], List.mem_cons_self _ _, hgt, h.symm⟩
            · exact Or.inr ⟨l, List.mem_cons_of_mem _ hl, hlt, e⟩
          · rintro (h | ⟨l, hl, hlt, e⟩)
            · exact Or.inl (Or.inl h)
            · rcases List.mem_cons.1 hl with h | h
              · subst h; exact Or.inl (Or.inr e.symm)
              · exact Or.inr ⟨l, h, hlt, e⟩

/-- The heap of the active heuristic after a stable-mode backtrack that does
not return early. -/
theorem backtrack_heap (s : kissat D) (new_level : Nat) (hs : s.stable = true)
    (hlv : s.level ≠ new_level) :
    ((kissat_get_scores s).stack.Nodup →
      (kissat_get_scores (kissat_backtrack_without_updating_phases s new_level)).stack.Nodup) ∧
    (∀ x, x ∈ (kissat_get_scores
        (kissat_backtrack_without_updating_phases s new_level)).stack ↔
      (x ∈ (kissat_get_scores s).stack ∨
        ∃ l ∈ s.trail.drop (FRAME s (new_level + 1)).trail,
          new_level < (s.assigned (IDX l)).level ∧ IDX l = x)) := by
  have e : kissat_get_scores (kissat_backtrack_without_updating_phases s new_level) =
      kissat_get_scores
        (backtrack_loop add_unassigned_variable_back_to_heap new_level
          (s.trail.length - (FRAME s (new_level + 1)).trail)
          (FRAME s (new_level + 1)).trail (FRAME s (new_level + 1)).trail
          { s with frames := s.frames.take (new_level + 1) }).1 := by
    simp only [kissat_backtrack_without_updating_phases, hlv, hs, if_false, if_true]
    rfl
  rw [e]
  generalize (FRAME s (new_level + 1)).trail = n
  by_cases hle : n ≤ s.trail.length
  · exact backtrack_loop_heap new_level (fun i => (s.assigned i).level)
      (s.trail.length - n) n n { s with frames := s.frames.take (new_level + 1) }
      (le_refl _) (by simp only []; omega) (fun _ => rfl)
  · have h0 : s.trail.length - n = 0 := by omega
    have hd : s.trail.drop n = [] := List.drop_of_length_le (by omega)
    rw [h0, hd]
    simp only [backtrack_loop, List.not_mem_nil, false_and, exists_false, or_false]
    exact ⟨fun h => h, fun _ => Iff.rfl⟩

theorem IDX_of_LIT (idx u : Nat) (h : LIT idx = u ∨ LIT idx = NOT u) : IDX u = idx := by
  unfold LIT NOT at h
  unfold IDX
  rcases h with h | h
  · omega
  · split_ifs at h <;> omega

/-- C17: in stable mode, if every unassigned variable is in the heap of the
active heuristic and that heap holds no variable twice, the same is true after
`kissat_backtrack_without_updating_phases`; the reinsertion pushes a variable
exactly when the heap does not contain it. -/
theorem backtrack_keeps_unassigned_in_heap (s : kissat D) (new_level : Nat)
    (hs : s.stable = true)
    (hin : ∀ idx < s.vars, s.values (LIT idx) = 0 → idx ∈ (kissat_get_scores s).stack)
    (hnd : (kissat_get_scores s).stack.Nodup) :
    (∀ idx < (kissat_backtrack_without_updating_phases s new_level).vars,
      (kissat_backtrack_without_updating_phases s new_level).values (LIT idx) = 0 →
        idx ∈ (kissat_get_scores
          (kissat_backtrack_without_updating_phases s new_level)).stack) ∧
    (kissat_get_scores (kissat_backtrack_without_updating_phases s new_level)).stack.Nodup ∧
    (∀ (t : kissat D) (lit : Nat),
      (kissat_heap_contains (kissat_get_scores t) (IDX lit) = true →
        add_unassigned_variable_back_to_heap t lit = t) ∧
      (kissat_heap_contains (kissat_get_scores t) (IDX lit) = false →
        add_unassigned_variable_back_to_heap t lit = kissat_push_heap t (IDX lit))) := by
  refine ⟨?_, ?_, ?_⟩
  · by_cases hlv : s.level = new_level
    · rw [backtrack_same_level s new_level hlv]
      exact hin
    · obtain ⟨-, -, v3, -, -⟩ := backtrack_result s new_level hlv
      obtain ⟨-, hmem⟩ := backtrack_heap s new_level hs hlv
      have hvars := (same_mode_backtrack s new_level).1.vars
      intro idx hidx hz
      rw [hvars] at hidx
      rw [hmem idx]
      by_cases h0 : s.values (LIT idx) = 0
      · exact Or.inl (hin idx hidx h0)
      · right
        by_contra hcon
        push_neg at hcon
        apply h0
        rw [← v3 (LIT idx) ?_]
        · exact hz
        · intro lit hlit hlt
          constructor
          · intro e
            exact hcon lit hlit hlt (IDX_of_LIT idx lit (Or.inl e))
          · intro e
            exact hcon lit hlit hlt (IDX_of_LIT idx lit (Or.inr e))
  · by_cases hlv : s.level = new_level
    · rw [backtrack_same_level s new_level hlv]
      exact hnd
    · exact (backtrack_heap s new_level hs hlv).1 hnd
  · intro t lit
    unfold add_unassigned_variable_back_to_heap
    constructor
    · intro h; simp [h]
    · intro h; simp [h]

/-- Witness of C17 on `reuse_scenario` (stable, the free variables 3 and 4 on
the heap): after the backtrack to level 1 the heap holds 3, 4 and the freed
variables 1 and 2, none of them twice. -/
theorem backtrack_keeps_unassigned_in_heap_witness :
    (kissat_get_scores (kissat_backtrack_without_updating_phases reuse_scenario 1)).stack
      = [3, 4, 1, 2] ∧
    (kissat_get_scores
      (kissat_backtrack_without_updating_phases reuse_scenario 1)).stack.Nodup ∧
    (2 ∈ (kissat_get_scores
      (kissat_backtrack_without_updating_phases reuse_scenario 1)).stack) := by
  have h := backtrack_keeps_unassigned_in_heap reuse_scenario 1 rfl (by decide) (by decide)
  exact ⟨by decide, h.2.1, h.1 2 (by decide) (by decide)⟩

/-! ## backtrack.c: reinsertion into the queue -/

theorem foldl_max_ge (l : List Nat) : ∀ a, a ≤ l.foldl max a ∧ ∀ x ∈ l, x ≤ l.foldl max a := by
  induction l with
  | nil => intro a; exact ⟨le_refl _, fun x hx => absurd hx (List.not_mem_nil x)⟩
  | cons b l ih =>
    intro a
    rw [List.foldl_cons]
    obtain ⟨h1, h2⟩ := ih (max a b)
    refine ⟨le_trans (le_max_left a b) h1, ?_⟩
    intro x hx
    rcases List.mem_cons.1 hx with h | h
    · subst h; exact le_trans (le_max_right a x) h1
    · exact h2 x h

/-- The reinsertion into the queue raises the search stamp to the stamp of the
variable when that is larger, and leaves the links alone. -/
theorem queue_after_add_back (s : kissat D) (lit : Nat) :
    (add_unassigned_variable_back_to_queue (unassign s lit) lit).queue_search_stamp
      = max s.queue_search_stamp (s.links (IDX lit)).stamp ∧
    (add_unassigned_variable_back_to_queue (unassign s lit) lit).links = s.links := by
  unfold add_unassigned_variable_back_to_queue kissat_update_queue unassign
  simp only []
  by_cases h : (s.links (IDX lit)).stamp > s.queue_search_stamp
  · rw [if_pos h]
    exact ⟨(max_eq_right (le_of_lt h)).symm, rfl⟩
  · rw [if_neg h]
    exact ⟨(max_eq_left (not_lt.1 h)).symm, rfl⟩

/-- One iteration of the focused-mode loop on the search stamp of the queue. -/
theorem backtrack_step_queue (new_level p q : Nat) (s : kissat D) :
    (backtrack_step add_unassigned_variable_back_to_queue new_level p q s).1.queue_search_stamp
      = (if (s.assigned (IDX (s.trail.getD p 0))).level ≤ new_level then s.queue_search_stamp
         else max s.queue_search_stamp (s.links (IDX (s.trail.getD p 0))).stamp) ∧
    (backtrack_step add_unassigned_variable_back_to_queue new_level p q s).1.links = s.links := by
  by_cases hk : (s.assigned (IDX (s.trail.getD p 0))).level ≤ new_level
  · rw [if_pos hk]
    simp only [backtrack_step, hk, if_true, and_self]
  · rw [if_neg hk]
    simp only [backtrack_step, hk, if_false]
    exact queue_after_add_back s _

/-- Loop invariant for the queue in focused mode: the search stamp is the
maximum of its old value and the stamps of the variables unassigned so far. -/
theorem backtrack_loop_queue (new_level : Nat) (lv : Nat → Nat) (stamp : Nat → Nat) :
    ∀ (n p q : Nat) (s : kissat D), q ≤ p → p + n = s.trail.length →
      (∀ i, (s.assigned i).level = lv i) → (∀ i, (s.links i).stamp = stamp i) →
      (backtrack_loop add_unassigned_variable_back_to_queue new_level n p q s).1.queue_search_stamp
        = (((s.trail.drop p).filter (fun l => decide (new_level < lv (IDX l)))).map
            (fun l => stamp (IDX l))).foldl max s.queue_search_stamp := by
  intro n
  induction n with
  | zero =>
    intro p q s _ hlen _ _
    have hp : s.trail.length ≤ p := by omega
    simp [backtrack_loop, List.drop_of_length_le hp]
  | succ n ih =>
    intro p q s hqp hlen hlv hst
    have hp : p < s.trail.length := by omega
    have hget : s.trail.getD p 0 = s.trail[p] := List.getD_eq_getElem _ _ hp
    have hdrop : s.trail.drop p = s.trail[p] :: s.trail.drop (p + 1) :=
      List.drop_eq_getElem_cons hp
    obtain ⟨er, el, eq, elv⟩ := backtrack_step_rest add_unassigned_variable_back_to_queue
      same_core_queue new_level p q s hqp
    obtain ⟨es, ek⟩ := backtrack_step_queue new_level p q s
    rw [backtrack_loop_succ, hdrop]
    generalize backtrack_step add_unassigned_variable_back_to_queue new_level p q s = r
      at er el eq elv es ek ⊢
    have h1 := ih (p + 1) r.2 r.1 eq (by omega) (by intro i; rw [elv, hlv])
      (by intro i; rw [ek, hst])
    rw [h1, er, es, hget, hlv, hst]
    by_cases hk : lv (IDX s.trail[p]) ≤ new_level
    · have hk2 : ¬ new_level < lv (IDX s.trail[p]) := by omega
      simp only [hk, hk2, if_true, List.filter_cons, decide_False, Bool.false_eq_true, if_false]
    · have hk2 : new_level < lv (IDX s.trail[p]) := by omega
      simp only [hk, hk2, if_false, List.filter_cons, decide_True, if_true, List.map_cons,
        List.foldl_cons]

/-- C18: in focused mode the reinsertion calls `kissat_update_queue` exactly
when the stamp of the variable is strictly above the search stamp of the queue
at that moment; after `kissat_backtrack_without_updating_phases` the search
stamp is the maximum of its old value and the stamps of the variables the call
unassigned, so none of these stamps is above it. -/
theorem backtrack_queue_search_stamp (s : kissat D) (new_level : Nat)
    (h : new_level < s.level) (hs : s.stable = false) :
    (kissat_backtrack_without_updating_phases s new_level).queue_search_stamp
      = (((s.trail.drop (FRAME s (new_level + 1)).trail).filter
            (fun l => decide (new_level < (s.assigned (IDX l)).level))).map
          (fun l => (s.links (IDX l)).stamp)).foldl max s.queue_search_stamp ∧
    s.queue_search_stamp
      ≤ (kissat_backtrack_without_updating_phases s new_level).queue_search_stamp ∧
    (∀ l ∈ s.trail.drop (FRAME s (new_level + 1)).trail,
      new_level < (s.assigned (IDX l)).level →
        (s.links (IDX l)).stamp
          ≤ (kissat_backtrack_without_updating_phases s new_level).queue_search_stamp) ∧
    (∀ (t : kissat D) (lit : Nat),
      ((t.links (IDX lit)).stamp > t.queue_search_stamp →
        add_unassigned_variable_back_to_queue t lit = kissat_update_queue t (IDX lit)) ∧
      (¬ (t.links (IDX lit)).stamp > t.queue_search_stamp →
        add_unassigned_variable_back_to_queue t lit = t)) := by
  have hlv : s.level ≠ new_level := by omega
  have e : (kissat_backtrack_without_updating_phases s new_level).queue_search_stamp =
      (backtrack_loop add_unassigned_variable_back_to_queue new_level
        (s.trail.length - (FRAME s (new_level + 1)).trail)
        (FRAME s (new_level + 1)).trail (FRAME s (new_level + 1)).trail
        { s with frames := s.frames.take (new_level + 1) }).1.queue_search_stamp := by
    simp only [kissat_backtrack_without_updating_phases, hlv, hs, if_false]
    rfl
  have main : (kissat_backtrack_without_updating_phases s new_level).queue_search_stamp
      = (((s.trail.drop (FRAME s (new_level + 1)).trail).filter
            (fun l => decide (new_level < (s.assigned (IDX l)).level))).map
          (fun l => (s.links (IDX l)).stamp)).foldl max s.queue_search_stamp := by
    rw [e]
    generalize (FRAME s (new_level + 1)).trail = n
    by_cases hle : n ≤ s.trail.length
    · exact backtrack_loop_queue new_level (fun i => (s.assigned i).level)
        (fun i => (s.links i).stamp) (s.trail.length - n) n n
        { s with frames := s.frames.take (new_level + 1) }
        (le_refl _) (by simp only []; omega) (fun _ => rfl) (fun _ => rfl)
    · have h0 : s.trail.length - n = 0 := by omega
      have hd : s.trail.drop n = [] := List.drop_of_length_le (by omega)
      rw [h0, hd]
      rfl
  obtain ⟨g1, g2⟩ := foldl_max_ge
    (((s.trail.drop (FRAME s (new_level + 1)).trail).filter
        (fun l => decide (new_level < (s.assigned (IDX l)).level))).map
      (fun l => (s.links (IDX l)).stamp)) s.queue_search_stamp
  refine ⟨main, by rw [main]; exact g1, ?_, ?_⟩
  · intro l hl hlt
    rw [main]
    apply g2
    exact List.mem_map_of_mem (fun l => (s.links (IDX l)).stamp)
      (List.mem_filter.2 ⟨hl, by simpa using hlt⟩)
  · intro t lit
    unfold add_unassigned_variable_back_to_queue
    constructor
    · intro h1; simp only []; rw [if_pos h1]
    · intro h1; simp only []; rw [if_neg h1]

/-- Witness of C18 on `queue_scenario`: the backtrack to level 1 unassigns the
variables 1 and 2 with the stamps 7 and 9, both above the search stamp at their
moment (4, then 7): the search position ends at variable 2 with stamp 9. -/
theorem backtrack_queue_search_stamp_witness :
    (kissat_backtrack_without_updating_phases queue_scenario 1).queue_search_stamp = 9 ∧
    (kissat_backtrack_without_updating_phases queue_scenario 1).queue_search_idx = 2 ∧
    (queue_scenario.links (IDX 2)).stamp
      ≤ (kissat_backtrack_without_updating_phases queue_scenario 1).queue_search_stamp := by
  have h := backtrack_queue_search_stamp queue_scenario 1 (by decide) rfl
  exact ⟨h.1, by decide, h.2.2.1 2 (by decide) (by decide)⟩

/-! ## propsearch.c: the propagation loop -/

theorem getD_append_left (l ext : List Nat) (i d : Nat) (h : i < l.length) :
    (l ++ ext).getD i d = l.getD i d := by
  simp [List.getD_eq_getElem?_getD, List.getElem?_append_left h]

/-- The propagation loop returns when the fuel exceeds the room left on the
trail; it has then made `n` calls of the primitive on the literals at the
indices `p, p+1, ..., p+n-1`, only the last of which may have returned a
conflict. -/
theorem search_propagate_loop_spec (X : search_externals D) (I : kissat D → Prop) (N : Nat)
    (happ : appends_only X I N) :
    ∀ (fuel p : Nat) (s : kissat D), I s → p ≤ s.trail.length → s.trail.length ≤ N →
      N - p < fuel →
      ∃ (res : Option Nat) (n : Nat),
        search_propagate_loop X fuel p s = some (res, p + n, propagate_states X n p s) ∧
        (∃ ext, (propagate_states X n p s).trail = s.trail ++ ext) ∧
        (∀ k < n, propagate_literal X k p s = (propagate_states X n p s).trail.getD (p + k) 0) ∧
        (∀ k, k + 1 < n → propagate_result X k p s = none) ∧
        (res = none → p + n = (propagate_states X n p s).trail.length ∧
          ∀ k < n, propagate_result X k p s = none) ∧
        (∀ c, res = some c → 0 < n ∧ propagate_result X (n - 1) p s = some c) := by
  intro fuel
  induction fuel with
  | zero => intro p s _ _ _ hf; omega
  | succ fuel ih =>
    intro p s hI hp hN hf
    by_cases hend : p = s.trail.length
    · refine ⟨none, 0, ?_, ⟨[], by simp [propagate_states]⟩, fun k hk => absurd hk (by omega),
        fun k hk => absurd hk (by omega), fun _ => ⟨hend, fun k hk => absurd hk (by omega)⟩,
        fun c hc => by cases hc⟩
      simp [search_propagate_loop, hend, propagate_states]
    · have hlt : p < s.trail.length := by omega
      obtain ⟨aI, ⟨ext, aext⟩, aN⟩ := happ s (s.trail.getD p 0) hI
      cases hr : (X.search_propagate_literal s (s.trail.getD p 0)).1 with
      | some c =>
        refine ⟨some c, 1, ?_, ⟨ext, aext⟩, ?_, fun k hk => absurd hk (by omega),
          (fun h => by cases h), ?_⟩
        · simp only [search_propagate_loop, hend, ne_eq, not_false_eq_true, if_true, hr,
            propagate_states]
        · intro k hk
          have hk0 : k = 0 := by omega
          subst hk0
          simp only [propagate_literal, propagate_states, aext, Nat.add_zero]
          exact (getD_append_left _ _ _ _ hlt).symm
        · intro c2 hc2
          refine ⟨by omega, ?_⟩
          simp only [Nat.sub_self, propagate_result, hr]
          exact hc2
      | none =>
        have hlen2 : p + 1 ≤ (X.search_propagate_literal s (s.trail.getD p 0)).2.trail.length := by
          rw [aext, List.length_append]; omega
        obtain ⟨res, n, e1, ⟨ext2, e2⟩, e3, e4, e5, e6⟩ :=
          ih (p + 1) (X.search_propagate_literal s (s.trail.getD p 0)).2 aI hlen2 aN (by omega)
        have harith : p + 1 + n = p + (n + 1) := by omega
        refine ⟨res, n + 1, ?_, ⟨ext ++ ext2, ?_⟩, ?_, ?_, ?_, ?_⟩
        · simp only [search_propagate_loop, hend, ne_eq, not_false_eq_true, if_true, hr,
            propagate_states]
          rw [e1, harith]
        · simp only [propagate_states]
          rw [e2, aext, List.append_assoc]
        · intro k hk
          cases k with
          | zero =>
            simp only [propagate_literal, propagate_states, Nat.add_zero]
            rw [e2, aext, List.append_assoc]
            exact (getD_append_left _ _ _ _ hlt).symm
          | succ k =>
            simp only [propagate_literal, propagate_states]
            rw [e3 k (by omega)]
            have : p + 1 + k = p + (k + 1) := by omega
            rw [this]
        · intro k hk
          cases k with
          | zero => simp only [propagate_result, hr]
          | succ k =>
            simp only [propagate_result]
            exact e4 k (by omega)
        · intro hres
          obtain ⟨f1, f2⟩ := e5 hres
          refine ⟨by simp only [propagate_states]; omega, ?_⟩
          intro k hk
          cases k with
          | zero => simp only [propagate_result, hr]
          | succ k =>
            simp only [propagate_result]
            exact f2 k (by omega)
        · intro c hc
          obtain ⟨f1, f2⟩ := e6 c hc
          refine ⟨by omega, ?_⟩
          have : n + 1 - 1 = (n - 1) + 1 := by omega
          rw [this]
          simp only [propagate_result]
          exact f2

/-- C14: for a watch-list primitive that only appends to the trail,
`search_propagate` returns; it has processed the `n` literals at the trail
indices `cursor, ..., cursor + n - 1` in this order and the cursor on return is
`cursor + n`, not below the cursor on entry.  Without conflict every call
returned no conflict and the cursor is the trail end; with a conflict the last
call is the first one that returned a conflict, so the cursor is the index
right after its literal and no later literal was processed. -/
theorem search_propagate_cursor (X : search_externals D) (I : kissat D → Prop) (N : Nat)
    (happ : appends_only X I N) (s : kissat D) (hI : I s)
    (h0 : s.propagate ≤ s.trail.length) (hN : s.trail.length ≤ N)
    (fuel : Nat) (hf : N - s.propagate < fuel) :
    ∃ (res : Option Nat) (n : Nat),
      search_propagate X fuel s = some (res,
        { propagate_states X n s.propagate s with propagate := s.propagate + n }) ∧
      (∀ k < n, propagate_literal X k s.propagate s
        = (propagate_states X n s.propagate s).trail.getD (s.propagate + k) 0) ∧
      (∀ k, k + 1 < n → propagate_result X k s.propagate s = none) ∧
      (res = none →
        s.propagate + n = (propagate_states X n s.propagate s).trail.length ∧
        ∀ k < n, propagate_result X k s.propagate s = none) ∧
      (∀ c, res = some c → 0 < n ∧ propagate_result X (n - 1) s.propagate s = some c) ∧
      s.propagate ≤ s.propagate + n := by
  obtain ⟨res, n, e1, -, e3, e4, e5, e6⟩ :=
    search_propagate_loop_spec X I N happ fuel s.propagate s hI h0 hN hf
  refine ⟨res, n, ?_, e3, e4, e5, e6, Nat.le_add_right _ _⟩
  simp only [search_propagate, e1]

/-- The example primitive only appends, on the solvers with trail `[0]` or
`[0, 2, 4]`. -/
theorem example_search_appends :
    appends_only example_search (fun t => t.trail = [0] ∨ t.trail = [0, 2, 4]) 3 := by
  intro t lit hI
  simp only [example_search]
  rcases hI with h | h
  · by_cases h1 : lit = 0
    · simp [h1, h]
    · by_cases h2 : lit = 2
      · simp [h2, h]
      · simp [h1, h2, h]
  · by_cases h1 : lit = 0
    · simp [h1, h]
    · by_cases h2 : lit = 2
      · simp [h2, h]
      · simp [h1, h2, h]

/-- Witness of C14 on `one_decision` with the example primitive: the literal
`0` enqueues `2` and `4`, the literal `2` returns the conflict 7; the cursor
on return is 2, right after the literal `2`, and not the trail end 3. -/
theorem search_propagate_cursor_witness :
    (search_propagate example_search 4 one_decision).map
        (fun r => (r.1, r.2.propagate, r.2.trail)) = some (some 7, 2, [0, 2, 4]) ∧
    ∃ (res : Option Nat) (n : Nat),
      search_propagate example_search 4 one_decision = some (res,
        { propagate_states example_search n one_decision.propagate one_decision with
          propagate := one_decision.propagate + n }) ∧
      (res = none → one_decision.propagate + n
        = (propagate_states example_search n one_decision.propagate one_decision).trail.length) := by
  refine ⟨by decide, ?_⟩
  obtain ⟨res, n, h1, -, -, h4, -, -⟩ := search_propagate_cursor example_search
    (fun t => t.trail = [0] ∨ t.trail = [0, 2, 4]) 3 example_search_appends one_decision
    (Or.inl rfl) (by decide) (by decide) 4 (by decide)
  exact ⟨res, n, h1, fun h => (h4 h).1⟩

/-! ## propsearch.c: the bumps of the conflict-history-based heuristic -/

/-- C15, evaluation of the code: in stable mode with heuristic 1, level 3, the
trail `[0, 2, 4]` with the recorded levels 1, 2, 3 and the decision `4` of
level 3 left to propagate (it implies nothing), `kissat_search_propagate`
returns no conflict with the cursor at the trail end and calls
`kissat_bump_chb` for the variables 2 and 1, in this order.  Variable 2 is the only one assigned at
level 3; variable 1 is assigned at level 2: the loop tests the level of the
literal read in the iteration before and so goes one literal too far. -/
theorem bump_chb_reaches_lower_level :
    (kissat_search_propagate example_search 2 chb_scenario).map
        (fun r => (r.1, r.2.1.propagate, r.2.2.map Prod.fst)) = some (none, 3, [2, 1]) ∧
    chb_scenario.level = 3 ∧
    (chb_scenario.assigned 2).level = 3 ∧
    (chb_scenario.assigned 1).level = 2 ∧
    (chb_scenario.trail.filter
      (fun lit => decide ((chb_scenario.assigned (IDX lit)).level = chb_scenario.level))).map IDX
        = [2] := by
  refine ⟨by decide, by decide, by decide, by decide, by decide⟩

/-! ## backtrack.c: the two-step backtrack after a conflict -/

theorem write_positions_level (K : List Nat) :
    ∀ (q : Nat) (a : Nat → assigned) (v : Nat),
      (write_positions q K a v).level = (a v).level := by
  induction K with
  | nil => intro q a v; rfl
  | cons lit K ih =>
    intro q a v
    simp only [write_positions]
    rw [ih]
    by_cases hv : v = IDX lit
    · subst hv; simp
    · rw [Function.update_noteq hv]

theorem write_positions_other (K : List Nat) :
    ∀ (q : Nat) (a : Nat → assigned) (v : Nat), v ∉ K.map IDX →
      write_positions q K a v = a v := by
  induction K with
  | nil => intro q a v _; rfl
  | cons lit K ih =>
    intro q a v hv
    rw [List.map_cons, List.mem_cons, not_or] at hv
    simp only [write_positions]
    rw [ih _ _ _ hv.2, Function.update_noteq hv.1]

/-- The record of a variable after the stores depends on the records before
only through that variable's record, and only through its level when the
variable is among the kept literals. -/
theorem write_positions_congr (K : List Nat) :
    ∀ (q : Nat) (a b : Nat → assigned) (v : Nat),
      (a v = b v ∨ ((a v).level = (b v).level ∧ v ∈ K.map IDX)) →
      write_positions q K a v = write_positions q K b v := by
  induction K with
  | nil =>
    intro q a b v h
    rcases h with h | h
    · exact h
    · exact absurd h.2 (List.not_mem_nil _)
  | cons lit K ih =>
    intro q a b v h
    simp only [write_positions]
    apply ih
    by_cases hv : v = IDX lit
    · left
      subst hv
      have hl : (a (IDX lit)).level = (b (IDX lit)).level := by
        rcases h with h | h
        · rw [h]
        · exact h.1
      simp [hl]
    · rw [Function.update_noteq hv, Function.update_noteq hv]
      rcases h with h | h
      · exact Or.inl h
      · right
        refine ⟨h.1, ?_⟩
        rcases List.mem_cons.1 h.2 with h2 | h2
        · exact absurd h2 hv
        · exact h2

/-- The metadata after the loop: the stores for the kept literals of the suffix. -/
theorem backtrack_loop_assigned (back : kissat D → Nat → kissat D)
    (hb : ∀ s lit, same_core s (back s lit)) (new_level : Nat) (lv : Nat → Nat) :
    ∀ (n p q : Nat) (s : kissat D), q ≤ p → p + n = s.trail.length →
      (∀ i, (s.assigned i).level = lv i) →
      (backtrack_loop back new_level n p q s).1.assigned
        = write_positions q
            ((s.trail.drop p).filter (fun l => decide (lv (IDX l) ≤ new_level))) s.assigned ∧
      (backtrack_loop back new_level n p q s).1.frames = s.frames := by
  intro n
  induction n with
  | zero =>
    intro p q s _ hlen _
    have hp : s.trail.length ≤ p := by omega
    simp [backtrack_loop, List.drop_of_length_le hp, write_positions]
  | succ n ih =>
    intro p q s hqp hlen hlv
    have hp : p < s.trail.length := by omega
    have hget : s.trail.getD p 0 = s.trail[p] := List.getD_eq_getElem _ _ hp
    have hdrop : s.trail.drop p = s.trail[p] :: s.trail.drop (p + 1) :=
      List.drop_eq_getElem_cons hp
    obtain ⟨er, el, eq, elv⟩ := backtrack_step_rest back hb new_level p q s hqp
    rw [backtrack_loop_succ, hdrop]
    by_cases hk : (s.assigned (IDX (s.trail.getD p 0))).level ≤ new_level
    · obtain ⟨e2, -, ea, -, -⟩ := backtrack_step_keep back new_level p q s hk
      have ef : (backtrack_step back new_level p q s).1.frames = s.frames := by
        simp only [backtrack_step, hk, if_true]
      have hk2 : lv (IDX s.trail[p]) ≤ new_level := by rw [← hlv, ← hget]; exact hk
      generalize backtrack_step back new_level p q s = r at er el eq elv e2 ea ef ⊢
      obtain ⟨h1, h2⟩ := ih (p + 1) r.2 r.1 eq (by omega) (by intro i; rw [elv, hlv])
      rw [h1, h2, er, ea, e2, ef, hget]
      simp only [List.filter_cons, hk2, decide_True, if_true, write_positions, and_self]
    · obtain ⟨e2, -, ea, -, -⟩ := backtrack_step_drop back hb new_level p q s hk
      have ef : (backtrack_step back new_level p q s).1.frames = s.frames := by
        simp only [backtrack_step, hk, if_false, (hb _ _).frames]
        rfl
      have hk2 : ¬ lv (IDX s.trail[p]) ≤ new_level := by rw [← hlv, ← hget]; exact hk
      generalize backtrack_step back new_level p q s = r at er el eq elv e2 ea ef ⊢
      obtain ⟨h1, h2⟩ := ih (p + 1) r.2 r.1 eq (by omega) (by intro i; rw [elv, hlv])
      rw [h1, h2, er, ea, e2, ef]
      simp only [List.filter_cons, hk2, decide_False, Bool.false_eq_true, if_false, and_self]

/-- The metadata and the frame stack after a backtrack that does not return
early. -/
theorem backtrack_assigned (s : kissat D) (new_level : Nat) (h : s.level ≠ new_level) :
    (kissat_backtrack_without_updating_phases s new_level).assigned
      = write_positions (FRAME s (new_level + 1)).trail
          ((s.trail.drop (FRAME s (new_level + 1)).trail).filter
            (fun l => decide ((s.assigned (IDX l)).level ≤ new_level))) s.assigned ∧
    (kissat_backtrack_without_updating_phases s new_level).frames
      = s.frames.take (new_level + 1) := by
  obtain ⟨back, hb, r, hr, e⟩ := backtrack_unfold s new_level h
  rw [e]
  simp only []
  generalize hn : (FRAME s (new_level + 1)).trail = n at hr ⊢
  by_cases hle : n ≤ s.trail.length
  · obtain ⟨a1, a2⟩ := backtrack_loop_assigned back hb new_level
      (fun i => (s.assigned i).level) (s.trail.length - n) n n
      { s with frames := s.frames.take (new_level + 1) } (le_refl _)
      (by simp only []; omega) (fun _ => rfl)
    rw [← hr] at a1 a2
    exact ⟨a1, a2⟩
  · have h0 : s.trail.length - n = 0 := by omega
    rw [h0] at hr
    simp only [backtrack_loop] at hr
    subst hr
    have hd : s.trail.drop n = [] := List.drop_of_length_le (by omega)
    simp only [hd, List.filter_nil, write_positions, and_self]

/-- Updating the phase records leaves everything backtracking reads alone. -/
theorem update_phases_core (s : kissat D) :
    (kissat_update_target_and_best_phases s).trail = s.trail ∧
    (kissat_update_target_and_best_phases s).values = s.values ∧
    (kissat_update_target_and_best_phases s).assigned = s.assigned ∧
    (kissat_update_target_and_best_phases s).unassigned = s.unassigned ∧
    (kissat_update_target_and_best_phases s).frames = s.frames ∧
    (kissat_update_target_and_best_phases s).level = s.level ∧
    (kissat_update_target_and_best_phases s).propagate = s.propagate ∧
    kissat_get_scores (kissat_update_target_and_best_phases s) = kissat_get_scores s := by
  unfold kissat_update_target_and_best_phases
  simp only []
  split_ifs <;> exact ⟨rfl, rfl, rfl, rfl, rfl, rfl, rfl, rfl⟩

theorem two_step_split (T : List Nat) (n0 n1 : Nat) (h01 : n0 ≤ n1) (h1 : n1 ≤ T.length)
    (K1 : List Nat) :
    (T.take n1 ++ K1).take n0 = T.take n0 ∧
    (T.take n1 ++ K1).drop n0 = (T.take n1).drop n0 ++ K1 ∧
    T.drop n0 = (T.take n1).drop n0 ++ T.drop n1 := by
  have hl : (T.take n1).length = n1 := by rw [List.length_take]; omega
  refine ⟨?_, ?_, ?_⟩
  · rw [List.take_append_of_le_length (by omega), List.take_take, min_eq_left h01]
  · rw [List.drop_append_of_le_length (by omega)]
  · conv_lhs => rw [← List.take_append_drop n1 T]
    rw [List.drop_append_of_le_length (by omega)]

theorem filter_le_filter_le (f : Nat → Nat) (a b : Nat) (hab : a ≤ b) (R : List Nat) :
    (R.filter (fun l => decide (f l ≤ b))).filter (fun l => decide (f l ≤ a))
      = R.filter (fun l => decide (f l ≤ a)) := by
  induction R with
  | nil => rfl
  | cons x R ih =>
    by_cases hb : f x ≤ b
    · by_cases ha : f x ≤ a
      · simp only [List.filter_cons, hb, ha, decide_True, if_true, ih]
      · simp only [List.filter_cons, hb, ha, decide_True, decide_False, if_true,
          Bool.false_eq_true, if_false, ih]
    · have ha : ¬ f x ≤ a := by omega
      simp only [List.filter_cons, hb, ha, decide_False, Bool.false_eq_true, if_false, ih]

theorem filter_gt_count (f : Nat → Nat) (a b : Nat) (hab : a ≤ b) (R : List Nat) :
    (R.filter (fun l => decide (a < f l))).length
      = (R.filter (fun l => decide (b < f l))).length
        + ((R.filter (fun l => decide (f l ≤ b))).filter (fun l => decide (a < f l))).length := by
  induction R with
  | nil => rfl
  | cons x R ih =>
    by_cases hb : f x ≤ b
    · have hb2 : ¬ b < f x := by omega
      by_cases ha : a < f x
      · simp only [List.filter_cons, hb, hb2, ha, decide_True, decide_False, if_true,
          Bool.false_eq_true, if_false, List.length_cons, ih]
        omega
      · simp only [List.filter_cons, hb, hb2, ha, decide_True, decide_False, if_true,
          Bool.false_eq_true, if_false, ih]
    · have hb2 : b < f x := by omega
      have ha : a < f x := by omega
      simp only [List.filter_cons, hb, hb2, ha, decide_True, decide_False, if_true,
        Bool.false_eq_true, if_false, List.length_cons, ih]
      omega

/-- The literals above level `a` in `M ++ R` are those above `a` in `M` and in
the part of `R` up to level `b`, together with those above `b` in `R`. -/
theorem exists_above_split (f : Nat → Nat) (a b : Nat) (hab : a ≤ b) (M R : List Nat)
    (P : Nat → Prop) :
    (∃ l ∈ M ++ R, a < f l ∧ P l) ↔
      ((∃ l ∈ M ++ R.filter (fun l => decide (f l ≤ b)), a < f l ∧ P l) ∨
        (∃ l ∈ R, b < f l ∧ P l)) := by
  constructor
  · rintro ⟨l, hl, ha, hp⟩
    rcases List.mem_append.1 hl with h | h
    · exact Or.inl ⟨l, List.mem_append_left _ h, ha, hp⟩
    · by_cases hb : f l ≤ b
      · exact Or.inl ⟨l, List.mem_append_right _
          (List.mem_filter.2 ⟨h, by simpa using hb⟩), ha, hp⟩
      · exact Or.inr ⟨l, h, by omega, hp⟩
  · rintro (⟨l, hl, ha, hp⟩ | ⟨l, hl, hb, hp⟩)
    · rcases List.mem_append.1 hl with h | h
      · exact ⟨l, List.mem_append_left _ h, ha, hp⟩
      · exact ⟨l, List.mem_append_right _ (List.mem_filter.1 h).1, ha, hp⟩
    · exact ⟨l, List.mem_append_right _ hl, by omega, hp⟩

theorem getD_take_frame (l : List frame) (n i : Nat) (d : frame) (h : i < n) :
    (l.take n).getD i d = l.getD i d := by
  simp [List.getD_eq_getElem?_getD, List.getElem?_take, h]

/-- The value of a literal after a backtrack that does not return early: 0 when
it is a suffix literal above the new level or the negation of one, and its old
value otherwise. -/
theorem backtrack_values_cases (s : kissat D) (L : Nat) (h : s.level ≠ L) (x : Nat) :
    ((∃ l ∈ s.trail.drop (FRAME s (L + 1)).trail,
        L < (s.assigned (IDX l)).level ∧ (x = l ∨ x = NOT l)) →
      (kissat_backtrack_without_updating_phases s L).values x = 0) ∧
    ((¬ ∃ l ∈ s.trail.drop (FRAME s (L + 1)).trail,
        L < (s.assigned (IDX l)).level ∧ (x = l ∨ x = NOT l)) →
      (kissat_backtrack_without_updating_phases s L).values x = s.values x) := by
  obtain ⟨-, v2, v3, -, -⟩ := backtrack_result s L h
  constructor
  · rintro ⟨l, hl, hlt, hx | hx⟩
    · rw [hx]; exact (v2 l hl hlt).1
    · rw [hx]; exact (v2 l hl hlt).2
  · intro hno
    apply v3
    intro lit hlit hlt
    constructor
    · intro e; exact hno ⟨lit, hlit, hlt, Or.inl e⟩
    · intro e; exact hno ⟨lit, hlit, hlt, Or.inr e⟩

/-- C19, as the code has it: on a state with monotone frame positions and for
`new_level < level`, `kissat_backtrack_after_conflict` and a single
`kissat_backtrack_without_updating_phases` produce the same trail, the same
values, the same level, the same unassigned count, the same propagation cursor,
the same recorded levels, in stable mode the same set of variables in the heap
of the active heuristic, and the same record (level and trail position) for
every variable except those that have a literal in the range of the current
level (from `frame[level].trail` on) and a recorded level in
`(new_level, level - 1]`. -/
theorem backtrack_after_conflict_agrees (s : kissat D) (new_level : Nat)
    (h : new_level < s.level) (hm : frames_monotone s) :
    (kissat_backtrack_after_conflict s new_level).trail
      = (kissat_backtrack_without_updating_phases s new_level).trail ∧
    (kissat_backtrack_after_conflict s new_level).values
      = (kissat_backtrack_without_updating_phases s new_level).values ∧
    (kissat_backtrack_after_conflict s new_level).level
      = (kissat_backtrack_without_updating_phases s new_level).level ∧
    (kissat_backtrack_after_conflict s new_level).unassigned
      = (kissat_backtrack_without_updating_phases s new_level).unassigned ∧
    (kissat_backtrack_after_conflict s new_level).propagate
      = (kissat_backtrack_without_updating_phases s new_level).propagate ∧
    (∀ v, (∀ l ∈ s.trail.drop (FRAME s s.level).trail, IDX l = v →
        ¬ (new_level < (s.assigned v).level ∧ (s.assigned v).level ≤ s.level - 1)) →
      (kissat_backtrack_after_conflict s new_level).assigned v
        = (kissat_backtrack_without_updating_phases s new_level).assigned v) ∧
    (∀ v, ((kissat_backtrack_after_conflict s new_level).assigned v).level
      = ((kissat_backtrack_without_updating_phases s new_level).assigned v).level) ∧
    (s.stable = true → ∀ x,
      x ∈ (kissat_get_scores (kissat_backtrack_after_conflict s new_level)).stack ↔
      x ∈ (kissat_get_scores (kissat_backtrack_without_updating_phases s new_level)).stack) := by
  have hl0 : s.level ≠ 0 := by omega
  have e : kissat_backtrack_after_conflict s new_level =
      kissat_backtrack_without_updating_phases
        (kissat_update_target_and_best_phases
          (kissat_backtrack_without_updating_phases s (s.level - 1))) new_level := by
    simp [kissat_backtrack_after_conflict, hl0]
  rw [e]
  obtain ⟨b1, bl1⟩ := same_mode_backtrack s (s.level - 1)
  obtain ⟨c1, c2, c3, c4, c5, c6, c7, c8⟩ := update_phases_core
    (kissat_backtrack_without_updating_phases s (s.level - 1))
  by_cases hcase : new_level = s.level - 1
  · rw [backtrack_same_level _ new_level (by rw [c6, bl1, hcase])]
    subst hcase
    exact ⟨c1, c2, c6, c4, c7, fun v _ => by rw [c3], fun v => by rw [c3],
      fun _ x => by rw [c8]⟩
  · have hlt : new_level < s.level - 1 := by omega
    have hfr : s.level - 1 + 1 = s.level := by omega
    have hn01 : (FRAME s (new_level + 1)).trail ≤ (FRAME s s.level).trail :=
      frames_monotone_chain s hm (new_level + 1) s.level (by omega) (le_refl _)
    have hn1 : (FRAME s s.level).trail ≤ s.trail.length := hm.2
    -- the first step
    obtain ⟨t1, -, -, u1, lv1⟩ := backtrack_result s (s.level - 1) (by omega)
    obtain ⟨a1, f1⟩ := backtrack_assigned s (s.level - 1) (by omega)
    have hv1 := backtrack_values_cases s (s.level - 1) (by omega)
    have hh1 := backtrack_heap s (s.level - 1)
    rw [hfr] at t1 u1 a1 f1 hv1 hh1
    -- the state between the two steps
    generalize ht : kissat_update_target_and_best_phases
      (kissat_backtrack_without_updating_phases s (s.level - 1)) = t at c1 c2 c3 c4 c5 c6 c7 c8 ⊢
    have tl : t.level ≠ new_level := by rw [c6, bl1]; omega
    have tframe : FRAME t (new_level + 1) = FRAME s (new_level + 1) := by
      unfold FRAME
      rw [c5, f1]
      exact getD_take_frame _ _ _ _ (by omega)
    have tlv : ∀ i, (t.assigned i).level = (s.assigned i).level := by
      intro i; rw [c3]; exact lv1 i
    have tstable : t.stable = s.stable := by
      rw [← ht]
      exact (update_phases_fields _).1.trans b1.stable
    obtain ⟨s1, s2, s3⟩ := two_step_split s.trail (FRAME s (new_level + 1)).trail
      (FRAME s s.level).trail hn01 hn1
      ((s.trail.drop (FRAME s s.level).trail).filter
        (fun lit => decide ((s.assigned (IDX lit)).level ≤ s.level - 1)))
    -- the second step
    obtain ⟨t2, -, -, u2, lv2⟩ := backtrack_result t new_level tl
    obtain ⟨a2, -⟩ := backtrack_assigned t new_level tl
    have hv2 := backtrack_values_cases t new_level tl
    have hh2 := backtrack_heap t new_level
    obtain ⟨p2l, p2p⟩ := backtrack_level_propagate t new_level (by rw [c6, bl1]; omega)
    simp only [tframe, c1, t1, tlv, lv1, s1, s2, c2, c3, c4, c8] at t2 u2 a2 hv2 hh2 p2p
    -- the single step
    obtain ⟨o1, -, -, ou, olv⟩ := backtrack_result s new_level (by omega)
    obtain ⟨oa, -⟩ := backtrack_assigned s new_level (by omega)
    have hvo := backtrack_values_cases s new_level (by omega)
    have hho := backtrack_heap s new_level
    obtain ⟨pol, pop⟩ := backtrack_level_propagate s new_level h
    rw [s3] at o1 ou oa hvo hho
    have hKK := filter_le_filter_le (fun lit => (s.assigned (IDX lit)).level) new_level
      (s.level - 1) (by omega) (s.trail.drop (FRAME s s.level).trail)
    simp only [] at hKK
    refine ⟨?_, ?_, by rw [p2l, pol], ?_, by rw [p2p, pop], ?_, ?_, ?_⟩
    · rw [t2, o1, List.filter_append, List.filter_append, hKK]
    · funext x
      have hsplit := exists_above_split (fun lit => (s.assigned (IDX lit)).level) new_level
        (s.level - 1) (by omega) ((s.trail.take (FRAME s s.level).trail).drop
          (FRAME s (new_level + 1)).trail) (s.trail.drop (FRAME s s.level).trail)
        (fun l => x = l ∨ x = NOT l)
      simp only [] at hsplit
      by_cases q2 : ∃ l ∈ (s.trail.take (FRAME s s.level).trail).drop
          (FRAME s (new_level + 1)).trail ++
            (s.trail.drop (FRAME s s.level).trail).filter
              (fun lit => decide ((s.assigned (IDX lit)).level ≤ s.level - 1)),
          new_level < (s.assigned (IDX l)).level ∧ (x = l ∨ x = NOT l)
      · rw [(hv2 x).1 q2, (hvo x).1 (hsplit.2 (Or.inl q2))]
      · rw [(hv2 x).2 q2]
        by_cases q1 : ∃ l ∈ s.trail.drop (FRAME s s.level).trail,
            s.level - 1 < (s.assigned (IDX l)).level ∧ (x = l ∨ x = NOT l)
        · rw [(hv1 x).1 q1, (hvo x).1 (hsplit.2 (Or.inr q1))]
        · rw [(hv1 x).2 q1, (hvo x).2 (fun q0 => (hsplit.1 q0).elim q2 q1)]
    · rw [u2, u1, ou]
      have hc := filter_gt_count (fun lit => (s.assigned (IDX lit)).level) new_level
        (s.level - 1) (by omega) (s.trail.drop (FRAME s s.level).trail)
      simp only [] at hc
      rw [List.filter_append, List.filter_append, List.length_append, List.length_append, hc]
      omega
    · intro v hex
      rw [a2, oa, List.filter_append, List.filter_append, hKK]
      by_cases hv : (s.assigned v).level ≤ new_level
      swap
      · have hnot : v ∉ (List.filter (fun l => decide ((s.assigned (IDX l)).level ≤ new_level))
              ((s.trail.take (FRAME s s.level).trail).drop (FRAME s (new_level + 1)).trail) ++
            List.filter (fun l => decide ((s.assigned (IDX l)).level ≤ new_level))
              (s.trail.drop (FRAME s s.level).trail)).map IDX := by
          intro hmem
          obtain ⟨l, hl, hidx⟩ := List.mem_map.1 hmem
          apply hv
          rcases List.mem_append.1 hl with hl | hl
          · have := (List.mem_filter.1 hl).2
            rw [hidx] at this
            simpa using this
          · have := (List.mem_filter.1 hl).2
            rw [hidx] at this
            simpa using this
        rw [write_positions_other _ _ _ _ hnot, write_positions_other _ _ _ _ hnot, a1]
        apply write_positions_other
        intro hmem
        obtain ⟨l, hl, hidx⟩ := List.mem_map.1 hmem
        have hl2 := List.mem_filter.1 hl
        have hle := hl2.2
        rw [hidx] at hle
        exact hex l hl2.1 hidx ⟨by omega, by simpa using hle⟩
      apply write_positions_congr
      by_cases hin : v ∈ (List.filter (fun l => decide ((s.assigned (IDX l)).level ≤ new_level))
            ((s.trail.take (FRAME s s.level).trail).drop (FRAME s (new_level + 1)).trail) ++
          List.filter (fun l => decide ((s.assigned (IDX l)).level ≤ new_level))
            (s.trail.drop (FRAME s s.level).trail)).map IDX
      · right
        exact ⟨by rw [lv1], hin⟩
      · left
        rw [a1]
        apply write_positions_other
        intro hmem
        obtain ⟨l, hl, hidx⟩ := List.mem_map.1 hmem
        apply hin
        refine List.mem_map.2 ⟨l, List.mem_append_right _ (List.mem_filter.2
          ⟨(List.mem_filter.1 hl).1, ?_⟩), hidx⟩
        rw [hidx]
        simpa using hv
    · intro v
      rw [lv2, tlv, olv]
    · intro hst x
      have hsplit := exists_above_split (fun lit => (s.assigned (IDX lit)).level) new_level
        (s.level - 1) (by omega) ((s.trail.take (FRAME s s.level).trail).drop
          (FRAME s (new_level + 1)).trail) (s.trail.drop (FRAME s s.level).trail)
        (fun l => IDX l = x)
      simp only [] at hsplit
      rw [(hh2 (tstable.trans hst) tl).2 x, (hho hst (by omega)).2 x,
        (hh1 hst (by omega)).2 x, hsplit]
      constructor
      · rintro ((ha | hc1) | hc2)
        · exact Or.inl ha
        · exact Or.inr (Or.inr hc1)
        · exact Or.inr (Or.inl hc2)
      · rintro (ha | hc2 | hc1)
        · exact Or.inl (Or.inl ha)
        · exact Or.inr hc2
        · exact Or.inl (Or.inr hc1)

/-- Witness of the amended C19 on `relocated_scenario`: both ways of
backtracking from level 3 to level 1 leave the trail `[0]`, four free
variables and the cursor 1, and the same record for the variables 0, 1, 2 and
4; variable 3, whose literal `6` lies in the range of level 3 with the recorded
level 2, is the exception. -/
theorem backtrack_after_conflict_agrees_witness :
    (kissat_backtrack_after_conflict relocated_scenario 1).trail = [0] ∧
    (kissat_backtrack_without_updating_phases relocated_scenario 1).trail = [0] ∧
    (kissat_backtrack_after_conflict relocated_scenario 1).unassigned
      = (kissat_backtrack_without_updating_phases relocated_scenario 1).unassigned ∧
    (∀ v, v ≠ 3 → (kissat_backtrack_after_conflict relocated_scenario 1).assigned v
      = (kissat_backtrack_without_updating_phases relocated_scenario 1).assigned v) := by
  have h := backtrack_after_conflict_agrees relocated_scenario 1 (by decide) (by decide)
  refine ⟨by decide, by decide, h.2.2.2.1, ?_⟩
  intro v hv
  apply h.2.2.2.2.2.1 v
  intro l hl hidx
  have hd : relocated_scenario.trail.drop
      (FRAME relocated_scenario relocated_scenario.level).trail = [4, 6] := by decide
  rw [hd] at hl
  rcases List.mem_cons.1 hl with e | hl
  · subst e
    subst hidx
    decide
  · rcases List.mem_cons.1 hl with e | hl
    · subst e
      exact absurd hidx.symm hv
    · exact absurd hl (List.not_mem_nil _)

/-- Counterexample to C19 as stated: on `relocated_scenario` (monotone frames,
level 3, the out-of-order literal `6` of level 2 at trail index 3) the
two-step backtrack to level 1 first moves the literal `6` to index 2 and then
unassigns it, leaving trail position 2 in the record of variable 3; the
one-step backtrack leaves position 3 there. -/
theorem backtrack_after_conflict_position_differs :
    frames_monotone relocated_scenario ∧ 1 < relocated_scenario.level ∧
    ((kissat_backtrack_after_conflict relocated_scenario 1).assigned 3).trail = 2 ∧
    ((kissat_backtrack_without_updating_phases relocated_scenario 1).assigned 3).trail = 3 ∧
    (kissat_backtrack_after_conflict relocated_scenario 1).assigned
      ≠ (kissat_backtrack_without_updating_phases relocated_scenario 1).assigned := by
  refine ⟨by decide, by decide, by decide, by decide, ?_⟩
  intro e
  have h3 := congrArg (fun a => (a 3).trail) e
  revert h3
  decide

end Kissat
